import Mathlib

/-!
# The static radix tree of `xstd::meta`

A shallow embedding of `xstd/meta/string.hpp`, of the list algorithms of
`xstd/meta/type_list.hpp` (ordered insertion, `range`, `merge`, `sort`,
`transform`, `for_each_until`), and of
`xstd/meta/detail/radix_tree/node.{hpp,ipp}` with `xstd/meta/radix_tree.hpp`.

* A `char` is an integer. The code applies only `==`, `!=` and `<=` to chars,
  and `0` is the NUL char.
* A `meta::string<N>` is the list of its `N - 1` chars (`size()`); the array
  stores one more char, the terminating NUL, which `operator[]` reads at
  index `size()`.
* The tree is a type built at compile time; a call that does not compile
  (no viable overload, an ambiguous call, an empty fold) has no result:
  `none`.
* `visit` and `traverse` run at run time on a `czstring`, a pointer into a
  char array. The array is the list of the chars from the pointer on, its
  last NUL included; the pointer one past the end of the array is `[]`, and
  reading through it is undefined behaviour: `none`. The calls of the
  function object are returned as a list, in call order.
-/

namespace xstd.meta

/-- The chars of a `meta::string<N>`, without the terminating NUL. -/
abbrev string := List Int

/-- The index operator `operator[]` of `meta::string`: the array holds the terminating NUL at
index `size()`. -/
def char_at (str : string) (index : Nat) : Int := str.getD index 0

/-- The loop of `prefix_match_index`, with `n` iterations left: `i = bound - n`. -/
def prefix_match_index_loop (str1 str2 : string) (bound : Nat) : Nat → Nat
  | 0 => bound
  | n + 1 =>
    if char_at str1 (bound - (n + 1)) ≠ char_at str2 (bound - (n + 1)) then bound - (n + 1)
    else prefix_match_index_loop str1 str2 bound n

/-- The first index at which the chars of the two strings are not equal:
`bound = ((N < M) ? N : M) - 1`, `for (i = 0; i < bound; ++i) if (str1[i] != str2[i]) return i;`
and `return bound`. -/
def prefix_match_index (str1 str2 : string) : Nat :=
  prefix_match_index_loop str1 str2 (min str1.length str2.length)
    (min str1.length str2.length)

/-- The function `substring<offset, size>(str)`, which `requires(offset + size < N)`:
`result[i] = str[offset + i]` for `i < size`. -/
def substring (offset size : Nat) (str : string) : string :=
  (List.range size).map (fun i => char_at str (offset + i))

/-- The function `prefix<size>(str)`, which `requires(size < N)`. -/
def prefix_of (size : Nat) (str : string) : string := substring 0 size str

/-- The function `suffix<size>(str)`, which `requires(size < N)`:
`substring<N - 1 - size, size>(str)`. -/
def suffix (size : Nat) (str : string) : string := substring (str.length - size) size str

/-- The function `tail<index>(str)`: `suffix<str.size() - index>(str)`. -/
def tail (index : Nat) (str : string) : string := suffix (str.length - index) str

/-- The operator `operator+` of two static strings: the first loop copies the `N - 1` chars of
`str1`, the second the chars of `str2` (and its terminating NUL). -/
def string_add (str1 str2 : string) : string :=
  (List.range (str1.length + str2.length)).map
    (fun i => if i < str1.length then char_at str1 i else char_at str2 (i - str1.length))

namespace type_list

/-- Insert a type into a `type_list` by using a predicate: before the first element `e` with
`less(type, e)`, at the end when there is none. -/
def insert {α : Type} (x : α) (less : α → α → Bool) : List α → List α
  | [] => [x]
  | e :: l => if less x e then x :: e :: l else e :: insert x less l

/-- The fold `(f<types>() + ...)` of `transform`: the lists that the functor returns, appended.
The fold of `+` over an empty pack does not compile. -/
def transform {α β : Type} (f : α → Option (List β)) : List α → Option (List β)
  | [] => none
  | [x] => f x
  | x :: y :: l =>
    match f x, transform f (y :: l) with
    | some a, some b => some (a ++ b)
    | _, _ => none

/-- Apply a functor to each element in turn until it returns `true`. The functor has an effect
(the calls it makes, appended in order) and may have no defined result. -/
def for_each_until {α γ : Type} (f : α → Option (Bool × List γ)) :
    List α → Option (Bool × List γ)
  | [] => some (false, [])
  | x :: l =>
    match f x with
    | none => none
    | some (true, calls) => some (true, calls)
    | some (false, calls) =>
      match for_each_until f l with
      | none => none
      | some (b, more) => some (b, calls ++ more)

/-- The function `pop_front(list)`; it is deleted for the empty list. -/
def pop_front {α : Type} : List α → Option (List α)
  | [] => none
  | _ :: l => some l

/-- The function `pop_back(list)`: `*list + pop_back(--list)`, the empty list for a list of one
element; it is deleted for the empty list. -/
def pop_back {α : Type} : List α → Option (List α)
  | [] => none
  | [_] => some []
  | x :: y :: l =>
    match pop_back (y :: l) with
    | some r => some ([x] ++ r)
    | none => none

/-- The function `trim_front<n>(list)`: the overload for `n == 0` returns the list, the other
one `requires((0 < n) && (n <= size(list)))`. -/
def trim_front {α : Type} : Nat → List α → Option (List α)
  | 0, list => some list
  | n + 1, list =>
    if n + 1 ≤ list.length then
      match pop_front list with
      | some l => trim_front n l
      | none => none
    else none

/-- The function `trim_back<n>(list)`: the overload for `n == 0` returns the list, the other
one `requires((0 < n) && (n <= size(list)))`. -/
def trim_back {α : Type} : Nat → List α → Option (List α)
  | 0, list => some list
  | n + 1, list =>
    if n + 1 ≤ list.length then
      match pop_back list with
      | some l => trim_back n l
      | none => none
    else none

/-- The function `range<first, last>(list)`, which `requires((first <= last) && (last <=
size(list)))`: `trim_front<first>(trim_back<n - last>(list))`. -/
def range {α : Type} (first last : Nat) (list : List α) : Option (List α) :=
  if first ≤ last ∧ last ≤ list.length then
    match trim_back (list.length - last) list with
    | some l => trim_front first l
    | none => none
  else none

/-- The recursion of `merge` on the right list while the left list is `x :: left`; `merge_left`
is `merge` on `left`. -/
def merge_loop {α : Type} (less : α → α → Bool) (x : α) (left : List α)
    (merge_left : List α → List α) : List α → List α
  | [] => (x :: left) ++ []
  | y :: right =>
    if less x y then [x] ++ merge_left (y :: right)
    else [y] ++ merge_loop less x left merge_left right

/-- The function `merge(left, right, less)`: `left + right` when one of the lists is empty;
otherwise the front of `left` followed by `merge(--left, right, less)` when `less` holds for the
two fronts, and the front of `right` followed by `merge(left, --right, less)` when not. -/
def merge {α : Type} : List α → List α → (α → α → Bool) → List α
  | [], right, _ => [] ++ right
  | x :: left, right, less => merge_loop less x left (fun r => merge left r less) right

/-- The function `sort(list, less)` with a bound on the nesting of its calls: a list of fewer
than two elements is returned as it is, a longer one is split at `half = n / 2` and the sorted
halves are merged. -/
def sort_fuel {α : Type} (less : α → α → Bool) : Nat → List α → Option (List α)
  | 0, list => if list.length < 2 then some list else none
  | fuel + 1, list =>
    if list.length < 2 then some list
    else
      match range 0 (list.length / 2) list, range (list.length / 2) list.length list with
      | some a, some b =>
        match sort_fuel less fuel a, sort_fuel less fuel b with
        | some x, some y => some (merge x y less)
        | _, _ => none
      | _, _ => none

/-- The function `sort(list, less)`. Every call halves the list, so the nesting of the calls is
bounded by the size of the list. -/
def sort {α : Type} (list : List α) (less : α → α → Bool) : Option (List α) :=
  sort_fuel less list.length list

end type_list

namespace detail.radix_tree

/-- The template `node<str, nodes, leaf>`: `prefix = str`, `children = nodes`,
`is_leaf = leaf`. -/
inductive node where
  | mk (str : string) (nodes : List node) (leaf : Bool)
  deriving Repr

/-- The accessor `prefix(root)`. -/
def node.str : node → string
  | .mk s _ _ => s

/-- The accessor `children(root)`. -/
def node.children : node → List node
  | .mk _ c _ => c

/-- The accessor `is_leaf(root)`. -/
def node.is_leaf : node → Bool
  | .mk _ _ l => l

mutual
/-- Two nodes are the same type exactly when they are equal. -/
def node.decEq : (a b : node) → Decidable (a = b)
  | .mk s1 c1 l1, .mk s2 c2 l2 =>
    if hs : s1 = s2 then
      if hl : l1 = l2 then
        match node.decEqList c1 c2 with
        | isTrue hc => isTrue (by rw [hs, hl, hc])
        | isFalse hc => isFalse (fun e => hc (by cases e; rfl))
      else isFalse (fun e => hl (by cases e; rfl))
    else isFalse (fun e => hs (by cases e; rfl))
/-- Equality of two lists of nodes. -/
def node.decEqList : (a b : List node) → Decidable (a = b)
  | [], [] => isTrue rfl
  | [], _ :: _ => isFalse (fun e => by cases e)
  | _ :: _, [] => isFalse (fun e => by cases e)
  | x :: xs, y :: ys =>
    match node.decEq x y with
    | isTrue hx =>
      match node.decEqList xs ys with
      | isTrue hxs => isTrue (by rw [hx, hxs])
      | isFalse hxs => isFalse (fun e => hxs (by cases e; rfl))
    | isFalse hx => isFalse (fun e => hx (by cases e; rfl))
end

instance : DecidableEq node := node.decEq

/-- The alias `leaf<str, children>` of `node<str, children, true>`; `leaf<str>` has no
children. -/
def leaf (str : string) (children : List node) : node := .mk str children true

/-- The constructor `node_from<str, is_leaf>(nodes)`. -/
def node_from (str : string) (is_leaf : Bool) (nodes : List node) : node :=
  .mk str nodes is_leaf

/-- The constructor `leaf_from<str>(nodes)`. -/
def leaf_from (str : string) (nodes : List node) : node := node_from str true nodes

/-- The modifier `prefix_assign<str>(root)`: the same children and leaf property, a new
string. -/
def prefix_assign (str : string) (root : node) : node :=
  node_from str root.is_leaf root.children

/-- The modifier `leaf_assign(root)`. -/
def leaf_assign (root : node) : node := leaf_from root.str root.children

/-- The order of nodes: `p::prefix[0] <= q::prefix[0]`. -/
def node_order (p q : node) : Bool := decide (char_at p.str 0 ≤ char_at q.str 0)

/-- The function `match_exists<str>(nodes...)`: `((str[0] == nodes::prefix[0]) || ...)`. -/
def match_exists (str : string) : List node → Bool
  | [] => false
  | n :: nodes => (char_at str 0 == char_at n.str 0) || match_exists str nodes

/-- The function `node_match<str, index, matched>(root)`. The argument `transformed` is the
result of `transform(children(root), basic_insert<q>)`, which the overload for `matched`
returns as the new children. -/
def node_match (str : string) (index : Nat) (matched : Bool) (root : node)
    (transformed : Option (List node)) : Option node :=
  let p := root.str
  let q := tail index str
  if matched then
    match transformed with
    | some new_children => some (node_from p root.is_leaf new_children)
    | none => none
  else
    some (node_from p root.is_leaf (type_list.insert (leaf q []) node_order root.children))

/-- The requires-clause of the overload for the case "No Match". -/
def no_match (str : string) (index : Nat) (root : node) : Bool :=
  !root.str.isEmpty && index == 0

/-- The requires-clause of the overload for the case "Full Match". -/
def full_match (str : string) (index : Nat) (root : node) : Bool :=
  index == root.str.length && index == str.length

/-- The requires-clause of the overload for the case "String Match". -/
def string_match (str : string) (index : Nat) (root : node) : Bool :=
  decide (index < root.str.length) && index == str.length

/-- The requires-clause of the overload for the case "Partial Match". -/
def partial_match (str : string) (index : Nat) (root : node) : Bool :=
  decide (index > 0) && decide (index < root.str.length) && decide (index < str.length)

/-- The requires-clause of the overload for the case "Node Match". -/
def node_matched (str : string) (index : Nat) (root : node) : Bool :=
  index == root.str.length && decide (index < str.length)

/-- The call `basic_insert_implementation<str, index>(root)`: the overload whose
requires-clause holds is called. No requires-clause subsumes another one, so the call compiles
only when exactly one of them holds. The argument `transformed` is passed on to
`node_match`. -/
def basic_insert_implementation (str : string) (index : Nat) (root : node)
    (transformed : Option (List node)) : Option node :=
  match no_match str index root, full_match str index root, string_match str index root,
      partial_match str index root, node_matched str index root with
  | true, false, false, false, false => some root
  | false, true, false, false, false => some (leaf_assign root)
  | false, false, true, false, false =>
    let p := str
    let q := tail index root.str
    some (leaf_from p [prefix_assign q root])
  | false, false, false, true, false =>
    let p := prefix_of index str
    let q1 := tail index root.str
    let q2 := tail index str
    let children1 := [prefix_assign q1 root]
    let children2 := type_list.insert (leaf q2 []) node_order children1
    some (node_from p false children2)
  | false, false, false, false, true =>
    let q := tail index str
    let matched := match_exists q root.children
    node_match str index matched root transformed
  | _, _, _, _, _ => none

mutual
/-- The function `basic_insert<str>(root)`. -/
def basic_insert (str : string) : node → Option node
  | .mk p nodes l =>
    let index := prefix_match_index p str
    basic_insert_implementation str index (.mk p nodes l)
      (basic_insert_transform (tail index str) nodes)
/-- The call `transform(children(root), [&]<node_instance n> { return
node_list_from(basic_insert<q>(n{})); })` of `node_match`. -/
def basic_insert_transform (q : string) : List node → Option (List node)
  | [] => none
  | [n] =>
    match basic_insert q n with
    | some r => some [r]
    | none => none
  | n :: m :: nodes =>
    match basic_insert q n, basic_insert_transform q (m :: nodes) with
    | some r, some rs => some ([r] ++ rs)
    | _, _ => none
end

/-- The function `insert_implementation<str...>(root)`: the strings are inserted from left to
right. -/
def insert_implementation : List string → node → Option node
  | [], root => some root
  | str :: rest, root =>
    match basic_insert str root with
    | some r => insert_implementation rest r
    | none => none

/-- The function `insert<str...>(root)` on nodes. -/
def insert (strs : List string) (root : node) : Option node := insert_implementation strs root

mutual
/-- The strings that the paths from a node down to the leaf-flagged nodes of its subtree spell
(the node itself included): the concatenation of the labels along the path. -/
def node.keys : node → List string
  | .mk p nodes l => (if l then [p] else []) ++ (node.keys_list nodes).map (fun w => p ++ w)
/-- The strings spelled from the nodes of a list. -/
def node.keys_list : List node → List string
  | [] => []
  | n :: nodes => n.keys ++ node.keys_list nodes
end

mutual
/-- The nodes below a node: its children and the nodes below them. -/
def node.descendants : node → List node
  | .mk _ nodes _ => node.descendants_list nodes
/-- The nodes of a list together with the nodes below them. -/
def node.descendants_list : List node → List node
  | [] => []
  | n :: nodes => n :: (n.descendants ++ node.descendants_list nodes)
end

mutual
/-- Every node of the subtree of a node (the node itself first), as the string that the path
from the node down to it spells and its leaf flag. -/
def node.paths : node → List (string × Bool)
  | .mk p nodes l => (p, l) :: (node.paths_list nodes).map (fun e => (p ++ e.1, e.2))
/-- The paths from the nodes of a list. -/
def node.paths_list : List node → List (string × Bool)
  | [] => []
  | n :: nodes => n.paths ++ node.paths_list nodes
end

/-- The first chars of the labels of a list of nodes. -/
def first_chars (nodes : List node) : List Int := nodes.map (fun n => char_at n.str 0)

/-- The first chars of the labels strictly ascend. -/
def strictly_ordered (nodes : List node) : Prop := (first_chars nodes).Pairwise (fun a b => a < b)

mutual
/-- The invariant of a node below the root: the label is not empty, a node that is no leaf has
at least two children, the children are strictly ordered by first char, and the same holds
below. -/
def node.wf : node → Prop
  | .mk p nodes l =>
    p ≠ [] ∧ (l = true ∨ 2 ≤ nodes.length) ∧ strictly_ordered nodes ∧ node.wf_list nodes
/-- The invariant holds for every node of a list. -/
def node.wf_list : List node → Prop
  | [] => True
  | n :: nodes => n.wf ∧ node.wf_list nodes
end

/-- The invariant of a root: the label is empty, the children are strictly ordered by first
char and satisfy the invariant of the nodes below the root. -/
def root_wf (r : node) : Prop :=
  r.str = [] ∧ strictly_ordered r.children ∧ node.wf_list r.children

/-- A `czstring` points into a char array: the chars from the pointer on, up to the last char
of the array. The pointer one past the end of the array is `[]`. -/
abbrev czstring := List Int

/-- The function `prefix_match<str, index>(str)`, started at `index = 0`. The result `some
none` is `nullptr`; `none` is the read `*str` one past the end of the array. -/
def prefix_match : string → czstring → Option (Option czstring)
  | [], str => some (some str)
  | _ :: _, [] => none
  | c :: rest, x :: str => if c ≠ x then some none else prefix_match rest str

mutual
/-- The function `visit_implementation<prefix>(r, str, f)`: the result and the strings that
`f` was called with; `none` when `*tail` reads one past the end of the array. -/
def visit_implementation (pfx : string) : node → czstring → Option (Bool × List string)
  | .mk p nodes l, str =>
    match prefix_match p str with
    | none => none
    | some none => some (false, [])
    | some (some []) => none
    | some (some (c :: t)) =>
      if l then
        if c == 0 then some (true, [string_add pfx p])
        else visit_children (string_add pfx p) nodes (c :: t)
      else
        if c == 0 then some (false, [])
        else visit_children (string_add pfx p) nodes (c :: t)
/-- The call `for_each_until(children, visit_implementation<new_prefix>(child, tail, f))`. -/
def visit_children (pfx : string) : List node → czstring → Option (Bool × List string)
  | [], _ => some (false, [])
  | child :: nodes, t =>
    match visit_implementation pfx child t with
    | none => none
    | some (true, calls) => some (true, calls)
    | some (false, calls) =>
      match visit_children pfx nodes t with
      | none => none
      | some (b, more) => some (b, calls ++ more)
end

mutual
/-- The function `traverse_implementation<prefix>(r, str, f)`: the result and the pairs of
static prefix and dynamic tail that `f` was called with. -/
def traverse_implementation (pfx : string) :
    node → czstring → Option (Bool × List (string × czstring))
  | .mk p nodes l, str =>
    match prefix_match p str with
    | none => none
    | some none => some (false, [])
    | some (some t) =>
      match traverse_children (string_add pfx p) nodes t with
      | none => none
      | some (found, calls) =>
        if l then
          if !found then some (true, calls ++ [(string_add pfx p, t)])
          else some (true, calls)
        else some (found, calls)
/-- The call `for_each_until(children, traverse_implementation<new_prefix>(child, tail,
f))`. -/
def traverse_children (pfx : string) :
    List node → czstring → Option (Bool × List (string × czstring))
  | [], _ => some (false, [])
  | child :: nodes, t =>
    match traverse_implementation pfx child t with
    | none => none
    | some (true, calls) => some (true, calls)
    | some (false, calls) =>
      match traverse_children pfx nodes t with
      | none => none
      | some (b, more) => some (b, calls ++ more)
end

mutual
/-- The number of nodes of the subtree of a node, the node included. -/
def node.size : node → Nat
  | .mk _ nodes _ => 1 + node.size_list nodes
/-- The number of nodes of the subtrees of the nodes of a list. -/
def node.size_list : List node → Nat
  | [] => 0
  | n :: nodes => n.size + node.size_list nodes
end

mutual
/-- The largest number of nodes on a path from a node down into its subtree, the node itself
not counted. -/
def node.height : node → Nat
  | .mk _ nodes _ => node.height_list nodes
/-- The largest number of nodes on a path that starts at a node of the list. -/
def node.height_list : List node → Nat
  | [] => 0
  | n :: nodes => max (n.height + 1) (node.height_list nodes)
end

mutual
/-- The depth of the recursion of `visit_implementation<pfx>(r, str, f)`: the largest number of
calls of `visit_implementation` that are active at a time. The children are visited when the
label matches and the tail is not at a NUL, and the loop over the children stops after the
first child that returns `true`. -/
def visit_depth (pfx : string) : node → czstring → Nat
  | .mk p nodes _, str =>
    match prefix_match p str with
    | some (some (c :: t)) =>
      if c == 0 then 1 else 1 + visit_children_depth (string_add pfx p) nodes (c :: t)
    | _ => 1
/-- The depth of the recursion in the loop of `visit_implementation` over the children. -/
def visit_children_depth (pfx : string) : List node → czstring → Nat
  | [], _ => 0
  | child :: nodes, t =>
    match visit_implementation pfx child t with
    | some (false, _) => max (visit_depth pfx child t) (visit_children_depth pfx nodes t)
    | _ => visit_depth pfx child t
end

mutual
/-- The depth of the recursion of `traverse_implementation<pfx>(r, str, f)`. The children are
traversed when the label matches, and the loop over the children stops after the first child
that returns `true`. -/
def traverse_depth (pfx : string) : node → czstring → Nat
  | .mk p nodes _, str =>
    match prefix_match p str with
    | some (some t) => 1 + traverse_children_depth (string_add pfx p) nodes t
    | _ => 1
/-- The depth of the recursion in the loop of `traverse_implementation` over the children. -/
def traverse_children_depth (pfx : string) : List node → czstring → Nat
  | [], _ => 0
  | child :: nodes, t =>
    match traverse_implementation pfx child t with
    | some (false, _) => max (traverse_depth pfx child t) (traverse_children_depth pfx nodes t)
    | _ => traverse_depth pfx child t
end

mutual
/-- The depth of the recursion of `basic_insert<str>(root)`. Only the case "Node Match" with a
matching child calls `basic_insert` again, on every child. -/
def basic_insert_depth (str : string) : node → Nat
  | .mk p nodes l =>
    if node_matched str (prefix_match_index p str) (.mk p nodes l) &&
        match_exists (tail (prefix_match_index p str) str) nodes then
      1 + basic_insert_transform_depth (tail (prefix_match_index p str) str) nodes
    else 1
/-- The depth of the recursion of the calls `basic_insert<q>(n{})` for the children. -/
def basic_insert_transform_depth (q : string) : List node → Nat
  | [] => 0
  | n :: nodes => max (basic_insert_depth q n) (basic_insert_transform_depth q nodes)
end

mutual
/-- The calls of `basic_insert` that the call `basic_insert<str>(root)` makes, itself first:
the string and the node of each call. Only the case "Node Match" with a matching child calls
`basic_insert` again, with the tail, on every child. -/
def basic_insert_calls (str : string) : node → List (string × node)
  | .mk p nodes l =>
    (str, .mk p nodes l) ::
      (if node_matched str (prefix_match_index p str) (.mk p nodes l) &&
          match_exists (tail (prefix_match_index p str) str) nodes then
        basic_insert_transform_calls (tail (prefix_match_index p str) str) nodes
      else [])
/-- The calls of `basic_insert` that the calls `basic_insert<q>(n{})` for the children make. -/
def basic_insert_transform_calls (q : string) : List node → List (string × node)
  | [] => []
  | n :: nodes => basic_insert_calls q n ++ basic_insert_transform_calls q nodes
end

/-- The result of a longest-prefix search for `s` among `keys`, run on the array of `s` and its
terminating NUL: either no key is a prefix of `s`, the result is `false` and the function
object is not called, or the result is `true` and the function object is called once, with
`pfx` followed by a longest key `w` that is a prefix of `s`, and with the rest of the array. -/
def longest_prefix_result (keys : List string) (pfx s : string)
    (res : Option (Bool × List (string × czstring))) : Prop :=
  (res = some (false, []) ∧ ∀ w ∈ keys, ¬ w <+: s) ∨
  ∃ w r, w ∈ keys ∧ s = w ++ r ∧ (∀ v ∈ keys, v <+: s → v.length ≤ w.length) ∧
    res = some (true, [(pfx ++ w, r ++ [0])])

/-- The function `visit(root, str, f)` on nodes. -/
def visit (root : node) (str : czstring) : Option (Bool × List string) :=
  visit_implementation [] root str

/-- The function `traverse(root, str, f)` on nodes. -/
def traverse (root : node) (str : czstring) : Option (Bool × List (string × czstring)) :=
  traverse_implementation [] root str

end detail.radix_tree

open detail.radix_tree (node czstring)

/-- The template `radix_tree<node>`: a tag type that gives access to the root. -/
structure radix_tree where
  /-- The root node. -/
  root : node

/-- The default `radix_tree<>`: the root `node<"">`. -/
def radix_tree.empty : radix_tree := ⟨.mk [] [] false⟩

/-- The function `insert<str...>(tree)` on trees. -/
def insert (strs : List string) (tree : radix_tree) : Option radix_tree :=
  match detail.radix_tree.insert strs tree.root with
  | some r => some ⟨r⟩
  | none => none

/-- The function `radix_tree_from<str...>()`. -/
def radix_tree_from (strs : List string) : Option radix_tree := insert strs radix_tree.empty

/-- The function `visit(tree, str, f)`. -/
def visit (tree : radix_tree) (str : czstring) : Option (Bool × List string) :=
  detail.radix_tree.visit tree.root str

/-- The function `traverse(tree, str, f)`. -/
def traverse (tree : radix_tree) (str : czstring) : Option (Bool × List (string × czstring)) :=
  detail.radix_tree.traverse tree.root str

/-- The chars of a string literal of ASCII chars. -/
def lit (s : String) : string := s.toList.map (fun c => (c.toNat : Int))

end xstd.meta

namespace xstd.meta

/-! ## Static strings -/

theorem char_at_nil (i : Nat) : char_at [] i = 0 := by
  simp [char_at]

theorem char_at_cons_zero (x : Int) (s : string) : char_at (x :: s) 0 = x := by
  simp [char_at]

theorem char_at_cons_succ (x : Int) (s : string) (i : Nat) :
    char_at (x :: s) (i + 1) = char_at s i := by
  simp [char_at]

theorem char_at_append_left (a b : string) (i : Nat) (h : i < a.length) :
    char_at (a ++ b) i = char_at a i := by
  simp [char_at, List.getD_eq_getElem?_getD, List.getElem?_append_left h]

theorem char_at_append_right (a b : string) (i : Nat) :
    char_at (a ++ b) (a.length + i) = char_at b i := by
  induction a with
  | nil => simp
  | cons x a ih =>
    have : (x :: a).length + i = (a.length + i) + 1 := by simp; omega
    rw [List.cons_append, this, char_at_cons_succ, ih]

theorem prefix_match_index_loop_cons (x : Int) (a b : string) (bound n : Nat) (h : n ≤ bound) :
    prefix_match_index_loop (x :: a) (x :: b) (bound + 1) n =
      prefix_match_index_loop a b bound n + 1 := by
  induction n with
  | zero => simp [prefix_match_index_loop]
  | succ n ih =>
    have e : bound + 1 - (n + 1) = (bound - (n + 1)) + 1 := by omega
    simp only [prefix_match_index_loop, e, char_at_cons_succ]
    split
    · rfl
    · exact ih (by omega)

theorem prefix_match_index_nil_left (b : string) : prefix_match_index [] b = 0 := by
  simp [prefix_match_index, prefix_match_index_loop]

theorem prefix_match_index_nil_right (a : string) : prefix_match_index a [] = 0 := by
  simp [prefix_match_index, prefix_match_index_loop]

theorem prefix_match_index_cons_eq (x : Int) (a b : string) :
    prefix_match_index (x :: a) (x :: b) = prefix_match_index a b + 1 := by
  have e : min (x :: a).length (x :: b).length = min a.length b.length + 1 := by
    simp [Nat.succ_min_succ]
  rw [prefix_match_index, e, prefix_match_index_loop]
  simp only [Nat.sub_self, char_at_cons_zero, ne_eq, not_true_eq_false, if_false]
  exact prefix_match_index_loop_cons x a b _ _ (Nat.le_refl _)

theorem prefix_match_index_cons_ne (x y : Int) (a b : string) (h : x ≠ y) :
    prefix_match_index (x :: a) (y :: b) = 0 := by
  have e : min (x :: a).length (y :: b).length = min a.length b.length + 1 := by
    simp [Nat.succ_min_succ]
  rw [prefix_match_index, e, prefix_match_index_loop]
  simp [char_at_cons_zero, h]

/-- The two strings split at the prefix match index into their common prefix and two rests
that differ in their first char, unless one of them is empty. -/
theorem prefix_match_index_split (a b : string) :
    ∃ p a1 b1, a = p ++ a1 ∧ b = p ++ b1 ∧ prefix_match_index a b = p.length ∧
      (a1 = [] ∨ b1 = [] ∨ char_at a1 0 ≠ char_at b1 0) := by
  induction a generalizing b with
  | nil => exact ⟨[], [], b, rfl, rfl, by simp [prefix_match_index_nil_left], Or.inl rfl⟩
  | cons x a ih =>
    cases b with
    | nil =>
      exact ⟨[], x :: a, [], rfl, rfl, by simp [prefix_match_index_nil_right], Or.inr (Or.inl rfl)⟩
    | cons y b =>
      by_cases hxy : x = y
      · subst hxy
        obtain ⟨p, a1, b1, ha, hb, hi, hd⟩ := ih b
        refine ⟨x :: p, a1, b1, by simp [ha], by simp [hb], ?_, hd⟩
        rw [prefix_match_index_cons_eq, hi]; rfl
      · refine ⟨[], x :: a, y :: b, rfl, rfl, ?_, Or.inr (Or.inr ?_)⟩
        · rw [prefix_match_index_cons_ne x y a b hxy]; rfl
        · simpa [char_at_cons_zero] using hxy

theorem substring_eq (offset size : Nat) (str : string) (h : offset + size ≤ str.length) :
    substring offset size str = (str.drop offset).take size := by
  apply List.ext_getElem
  · simp [substring]; omega
  · intro i h1 h2
    simp [substring, char_at] at h1 ⊢
    rw [List.getElem?_eq_getElem (by omega)]
    simp

theorem tail_eq (index : Nat) (str : string) (h : index ≤ str.length) :
    tail index str = str.drop index := by
  rw [tail, suffix, substring_eq _ _ _ (by omega)]
  have : str.length - (str.length - index) = index := by omega
  rw [this, List.take_of_length_le (by simp)]

theorem tail_append (p r : string) : tail p.length (p ++ r) = r := by
  rw [tail_eq _ _ (by simp)]; simp

theorem tail_zero (r : string) : tail 0 r = r := tail_append [] r

theorem prefix_of_eq (size : Nat) (str : string) (h : size ≤ str.length) :
    prefix_of size str = str.take size := by
  rw [prefix_of, substring_eq _ _ _ (by omega)]; simp

theorem prefix_of_append (p r : string) : prefix_of p.length (p ++ r) = p := by
  rw [prefix_of_eq _ _ (by simp)]; simp

theorem string_add_eq (a b : string) : string_add a b = a ++ b := by
  apply List.ext_getElem
  · simp [string_add]
  · intro i h1 h2
    simp only [string_add, List.getElem_map, List.getElem_range]
    by_cases h : i < a.length
    · simp [h, char_at, List.getD_eq_getElem?_getD, List.getElem?_eq_getElem h,
        List.getElem_append_left h]
    · have hb : i - a.length < b.length := by simp [string_add] at h1; omega
      simp [h, char_at, List.getD_eq_getElem?_getD, List.getElem?_eq_getElem hb,
        List.getElem_append_right (Nat.le_of_not_lt h)]

end xstd.meta

namespace xstd.meta.detail.radix_tree

/-! ## The list algorithms inside the tree algorithms -/

/-- The new children of the case "Node Match" are the result of `transform` with the functor
that returns `node_list_from(basic_insert<q>(n{}))`. -/
theorem basic_insert_transform_eq_transform (q : string) (nodes : List node) :
    basic_insert_transform q nodes =
      type_list.transform (fun n => (basic_insert q n).map (fun r => [r])) nodes := by
  induction nodes with
  | nil => simp [basic_insert_transform, type_list.transform]
  | cons n nodes ih =>
    cases nodes with
    | nil => cases h : basic_insert q n <;> simp [basic_insert_transform, type_list.transform, h]
    | cons m nodes =>
      rw [basic_insert_transform, type_list.transform, ← ih]
      cases basic_insert q n <;> cases basic_insert_transform q (m :: nodes) <;> simp

/-- The loop of `visit_implementation` over the children is `for_each_until`. -/
theorem visit_children_eq_for_each_until (pfx : string) (nodes : List node) (t : czstring) :
    visit_children pfx nodes t =
      type_list.for_each_until (fun child => visit_implementation pfx child t) nodes := by
  induction nodes with
  | nil => cases t <;> simp [visit_children, type_list.for_each_until]
  | cons n nodes ih =>
    rw [visit_children, type_list.for_each_until, ih]
    rcases visit_implementation pfx n t with _ | ⟨_ | _, calls⟩
    · rfl
    · rcases type_list.for_each_until (fun child => visit_implementation pfx child t) nodes
        with _ | ⟨b, more⟩ <;> rfl
    · rfl

/-- The loop of `traverse_implementation` over the children is `for_each_until`. -/
theorem traverse_children_eq_for_each_until (pfx : string) (nodes : List node)
    (t : czstring) :
    traverse_children pfx nodes t =
      type_list.for_each_until (fun child => traverse_implementation pfx child t) nodes := by
  induction nodes with
  | nil => cases t <;> simp [traverse_children, type_list.for_each_until]
  | cons n nodes ih =>
    rw [traverse_children, type_list.for_each_until, ih]
    rcases traverse_implementation pfx n t with _ | ⟨_ | _, calls⟩
    · rfl
    · rcases type_list.for_each_until (fun child => traverse_implementation pfx child t) nodes
        with _ | ⟨b, more⟩ <;> rfl
    · rfl

end xstd.meta.detail.radix_tree

namespace xstd.meta

/-! ## The static assertions of `tests/meta/radix_tree.cpp` -/

open detail.radix_tree (node leaf)

theorem test_radix_tree_from_nothing : radix_tree_from [] = some ⟨.mk [] [] false⟩ := rfl

theorem test_radix_tree_from_empty_string :
    radix_tree_from [lit ""] = some ⟨leaf (lit "") []⟩ := rfl

theorem test_radix_tree_from_help :
    radix_tree_from [lit "help"] = some ⟨.mk (lit "") [leaf (lit "help") []] false⟩ := rfl

theorem test_radix_tree_from_help_help :
    radix_tree_from [lit "help", lit "help"] =
      some ⟨.mk (lit "") [leaf (lit "help") []] false⟩ := rfl

theorem test_radix_tree_from_help_empty_string :
    radix_tree_from [lit "help", lit ""] = some ⟨leaf (lit "") [leaf (lit "help") []]⟩ := rfl

theorem test_radix_tree_from_help_helo :
    radix_tree_from [lit "help", lit "helo"] =
      some ⟨.mk (lit "")
        [.mk (lit "hel") [leaf (lit "o") [], leaf (lit "p") []] false] false⟩ := rfl

theorem test_radix_tree_from_help_version :
    radix_tree_from [lit "help", lit "version"] =
      some ⟨.mk (lit "") [leaf (lit "help") [], leaf (lit "version") []] false⟩ := rfl

theorem test_radix_tree_from_help_hel :
    radix_tree_from [lit "help", lit "hel"] =
      some ⟨.mk (lit "") [leaf (lit "hel") [leaf (lit "p") []]] false⟩ := rfl

theorem test_radix_tree_from_nine_strings :
    radix_tree_from [lit "help", lit "hello", lit "version", lit "verbose", lit "very",
        lit "in", lit "input", lit "out", lit "output"] =
      some ⟨.mk (lit "")
        [.mk (lit "hel") [leaf (lit "lo") [], leaf (lit "p") []] false,
          leaf (lit "in") [leaf (lit "put") []],
          leaf (lit "out") [leaf (lit "put") []],
          .mk (lit "ver") [leaf (lit "bose") [], leaf (lit "sion") [], leaf (lit "y") []]
            false] false⟩ := rfl

end xstd.meta

namespace xstd.meta

/-! ## The static assertions of `tests/meta/string.cpp` and `tests/meta/type_list.cpp`

A type is written as its name and its size; the predicate `less` of the tests compares the
sizes by `<=`. -/

theorem test_substring : substring 2 4 (lit "--help") = lit "help" := rfl

theorem test_prefix_of : prefix_of 2 (lit "--help") = lit "--" := rfl

theorem test_tail : tail 2 (lit "--help") = lit "help" := rfl

theorem test_suffix : suffix 3 (lit "my_file.txt") = lit "txt" := rfl

theorem test_prefix_match_index :
    prefix_match_index (lit "version") (lit "verbose") = 3 ∧
      prefix_match_index (lit "version") (lit "") = 0 ∧
      prefix_match_index (lit "help") (lit "help") = 4 := ⟨rfl, rfl, rfl⟩

theorem test_insert_by_predicate :
    type_list.insert ("unsigned", 4) (fun a b => decide (a.2 ≤ b.2)) [("char", 1), ("int", 4)] =
        [("char", 1), ("unsigned", 4), ("int", 4)] ∧
      type_list.insert ("short", 2) (fun a b => decide (a.2 ≤ b.2)) [("char", 1), ("int", 4)] =
        [("char", 1), ("short", 2), ("int", 4)] ∧
      type_list.insert ("double", 8) (fun a b => decide (a.2 ≤ b.2)) [("char", 1), ("int", 4)] =
        [("char", 1), ("int", 4), ("double", 8)] := ⟨rfl, rfl, rfl⟩

theorem test_merge :
    type_list.merge [("int", 4)] [("char", 1)] (fun a b => decide (a.2 ≤ b.2)) =
        [("char", 1), ("int", 4)] ∧
      type_list.merge [("short", 2), ("int", 4)] [("char", 1), ("double", 8)]
          (fun a b => decide (a.2 ≤ b.2)) =
        [("char", 1), ("short", 2), ("int", 4), ("double", 8)] := ⟨rfl, rfl⟩

theorem test_sort :
    type_list.sort [("int", 4), ("unsigned", 4)] (fun a b => decide (a.2 ≤ b.2)) =
        some [("int", 4), ("unsigned", 4)] ∧
      type_list.sort [("short", 2), ("int", 4), ("char", 1)] (fun a b => decide (a.2 ≤ b.2)) =
        some [("char", 1), ("short", 2), ("int", 4)] ∧
      type_list.sort [("short", 2), ("unsigned", 4), ("char", 1), ("int", 4)]
          (fun a b => decide (a.2 ≥ b.2)) =
        some [("unsigned", 4), ("int", 4), ("short", 2), ("char", 1)] ∧
      type_list.sort [("short", 2), ("unsigned", 4), ("char", 1), ("int", 4)]
          (fun a b => decide (a.2 > b.2)) =
        some [("int", 4), ("unsigned", 4), ("short", 2), ("char", 1)] := ⟨rfl, rfl, rfl, rfl⟩

end xstd.meta

namespace xstd.meta.detail.radix_tree

/-! ## Nodes -/

mutual
theorem node.induct_node {P : node → Prop}
    (h : ∀ p nodes l, (∀ c ∈ nodes, P c) → P (.mk p nodes l)) : ∀ n, P n
  | .mk p nodes l => h p nodes l (node.induct_list h nodes)
theorem node.induct_list {P : node → Prop}
    (h : ∀ p nodes l, (∀ c ∈ nodes, P c) → P (.mk p nodes l)) :
    ∀ nodes : List node, ∀ c ∈ nodes, P c
  | [] => fun _ hc => absurd hc (List.not_mem_nil _)
  | n :: nodes => fun c hc =>
    (List.mem_cons.mp hc).elim (fun e => e ▸ node.induct_node h n)
      (fun hm => node.induct_list h nodes c hm)
end

theorem node.wf_list_iff (nodes : List node) : node.wf_list nodes ↔ ∀ c ∈ nodes, c.wf := by
  induction nodes with
  | nil => simp [node.wf_list]
  | cons n nodes ih => simp [node.wf_list, ih]

theorem node.keys_list_mem (nodes : List node) (w : string) :
    w ∈ node.keys_list nodes ↔ ∃ c ∈ nodes, w ∈ c.keys := by
  induction nodes with
  | nil => simp [node.keys_list]
  | cons n nodes ih => simp [node.keys_list, ih]

theorem node.keys_mem (p : string) (nodes : List node) (l : Bool) (w : string) :
    w ∈ (node.mk p nodes l).keys ↔
      (l = true ∧ w = p) ∨ ∃ v, v ∈ node.keys_list nodes ∧ w = p ++ v := by
  cases l <;> simp [node.keys, eq_comm]

/-- Every string spelled from a node with a non-empty label starts with the first char of the
label. -/
theorem node.keys_first (n : node) (hn : n.str ≠ []) (w : string) (hw : w ∈ n.keys) :
    w ≠ [] ∧ char_at w 0 = char_at n.str 0 := by
  obtain ⟨p, nodes, l⟩ := n
  simp only [node.str] at hn ⊢
  obtain ⟨x, p, rfl⟩ := List.exists_cons_of_ne_nil hn
  rw [node.keys_mem] at hw
  rcases hw with ⟨_, rfl⟩ | ⟨v, _, rfl⟩ <;> simp [char_at_cons_zero]

theorem node.wf_str (n : node) (h : n.wf) : n.str ≠ [] := by
  obtain ⟨p, nodes, l⟩ := n
  exact h.1

/-- Below the root every subtree spells at least one string. -/
theorem node.wf_keys_ne_nil (n : node) : n.wf → n.keys ≠ [] := by
  induction n using node.induct_node with
  | h p nodes l ih =>
    intro hw
    obtain ⟨_, hl, _, hc⟩ := hw
    cases l with
    | true => simp [node.keys]
    | false =>
      have h2 : 2 ≤ nodes.length := by simpa using hl
      obtain ⟨c, rest, rfl⟩ := List.exists_cons_of_ne_nil (l := nodes)
        (by intro e; simp [e] at h2)
      have := ih c (List.mem_cons_self _ _) hc.1
      obtain ⟨w, ws, hk⟩ := List.exists_cons_of_ne_nil this
      simp [node.keys, node.keys_list, hk]

end xstd.meta.detail.radix_tree

namespace xstd.meta

/-! ## Ordered insertion into a list -/

theorem type_list.mem_insert {α : Type} (x : α) (less : α → α → Bool) (l : List α) (y : α) :
    y ∈ type_list.insert x less l ↔ y = x ∨ y ∈ l := by
  induction l with
  | nil => simp [type_list.insert]
  | cons e l ih =>
    simp only [type_list.insert]
    split
    · simp
    · simp only [List.mem_cons, ih]
      constructor
      · rintro (h | h | h) <;> simp [h]
      · rintro (h | h | h) <;> simp [h]

theorem type_list.length_insert {α : Type} (x : α) (less : α → α → Bool) (l : List α) :
    (type_list.insert x less l).length = l.length + 1 := by
  induction l with
  | nil => simp [type_list.insert]
  | cons e l ih =>
    simp only [type_list.insert]
    split
    · simp
    · simp [ih]

namespace detail.radix_tree

theorem first_chars_mem (nodes : List node) (a : Int) :
    a ∈ first_chars nodes ↔ ∃ c ∈ nodes, char_at c.str 0 = a := by
  simp [first_chars]

theorem match_exists_iff (str : string) (nodes : List node) :
    match_exists str nodes = true ↔ char_at str 0 ∈ first_chars nodes := by
  induction nodes with
  | nil => simp [match_exists, first_chars]
  | cons n nodes ih =>
    simp only [match_exists, Bool.or_eq_true, ih, beq_iff_eq, first_chars, List.map_cons,
      List.mem_cons]

/-- Ordered insertion of a node whose first char is new keeps the children strictly
ordered. -/
theorem strictly_ordered_insert (x : node) (nodes : List node) (h : strictly_ordered nodes)
    (hx : char_at x.str 0 ∉ first_chars nodes) :
    strictly_ordered (type_list.insert x node_order nodes) := by
  induction nodes with
  | nil => simp [type_list.insert, strictly_ordered, first_chars]
  | cons e l ih =>
    simp only [strictly_ordered, first_chars, List.map_cons, List.pairwise_cons,
      List.mem_map, forall_exists_index, and_imp, forall_apply_eq_imp_iff₂, List.mem_cons,
      not_or] at h hx ⊢
    simp only [type_list.insert]
    split
    · rename_i hle
      have hle' : char_at x.str 0 ≤ char_at e.str 0 := by simpa [node_order] using hle
      have hlt : char_at x.str 0 < char_at e.str 0 := lt_of_le_of_ne hle' hx.1
      simp only [List.map_cons, List.pairwise_cons, List.mem_cons, List.mem_map,
        forall_eq_or_imp, forall_exists_index, and_imp, forall_apply_eq_imp_iff₂]
      exact ⟨⟨hlt, fun c hc => lt_trans hlt (h.1 c hc)⟩, h.1, h.2⟩
    · rename_i hle
      have hlt : char_at e.str 0 < char_at x.str 0 := by
        simpa [node_order] using hle
      simp only [List.map_cons, List.pairwise_cons, List.mem_map, forall_exists_index, and_imp,
        forall_apply_eq_imp_iff₂]
      refine ⟨?_, ?_⟩
      · intro c hc
        rcases (type_list.mem_insert x node_order l c).mp hc with rfl | hc
        · exact hlt
        · exact h.1 c hc
      · have := ih h.2 (by simpa [first_chars] using hx.2)
        simpa [strictly_ordered, first_chars] using this

theorem keys_list_insert (x : node) (less : node → node → Bool) (nodes : List node)
    (w : string) :
    w ∈ node.keys_list (type_list.insert x less nodes) ↔ w ∈ x.keys ∨ w ∈ node.keys_list nodes := by
  simp only [node.keys_list_mem, type_list.mem_insert]
  constructor
  · rintro ⟨c, rfl | hc, hw⟩
    · exact Or.inl hw
    · exact Or.inr ⟨c, hc, hw⟩
  · rintro (hw | ⟨c, hc, hw⟩)
    · exact ⟨x, Or.inl rfl, hw⟩
    · exact ⟨c, Or.inr hc, hw⟩

/-! ## The five cases of the insertion -/

theorem isEmpty_eq_decide (l : string) : l.isEmpty = decide (l.length = 0) := by
  cases l <;> simp

theorem basic_insert_implementation_no_match (str : string) (index : Nat) (root : node)
    (tr : Option (List node)) (h1 : root.str ≠ []) (h2 : index = 0) (h3 : str ≠ []) :
    basic_insert_implementation str index root tr = some root := by
  have l1 := List.length_pos.mpr h1
  have l3 := List.length_pos.mpr h3
  have e1 : no_match str index root = true := by
    simp only [no_match, isEmpty_eq_decide, Bool.and_eq_true, Bool.not_eq_true',
      decide_eq_false_iff_not, beq_iff_eq]; omega
  have e2 : full_match str index root = false := by
    simp only [full_match, Bool.and_eq_false_iff, beq_eq_false_iff_ne]; omega
  have e3 : string_match str index root = false := by
    simp only [string_match, Bool.and_eq_false_iff, beq_eq_false_iff_ne,
      decide_eq_false_iff_not]; omega
  have e4 : partial_match str index root = false := by
    simp only [partial_match, Bool.and_eq_false_iff, decide_eq_false_iff_not]; omega
  have e5 : node_matched str index root = false := by
    simp only [node_matched, Bool.and_eq_false_iff, beq_eq_false_iff_ne,
      decide_eq_false_iff_not]; omega
  simp [basic_insert_implementation, e1, e2, e3, e4, e5]

theorem basic_insert_implementation_full_match (str : string) (index : Nat) (root : node)
    (tr : Option (List node)) (h1 : index = root.str.length) (h2 : index = str.length) :
    basic_insert_implementation str index root tr = some (leaf_assign root) := by
  have e1 : no_match str index root = false := by
    simp only [no_match, isEmpty_eq_decide, Bool.and_eq_false_iff, Bool.not_eq_false',
      decide_eq_true_eq, beq_eq_false_iff_ne]; omega
  have e2 : full_match str index root = true := by
    simp only [full_match, Bool.and_eq_true, beq_iff_eq]; omega
  have e3 : string_match str index root = false := by
    simp only [string_match, Bool.and_eq_false_iff, beq_eq_false_iff_ne,
      decide_eq_false_iff_not]; omega
  have e4 : partial_match str index root = false := by
    simp only [partial_match, Bool.and_eq_false_iff, decide_eq_false_iff_not]; omega
  have e5 : node_matched str index root = false := by
    simp only [node_matched, Bool.and_eq_false_iff, beq_eq_false_iff_ne,
      decide_eq_false_iff_not]; omega
  simp [basic_insert_implementation, e1, e2, e3, e4, e5]

theorem basic_insert_implementation_string_match (str : string) (index : Nat) (root : node)
    (tr : Option (List node)) (h0 : 0 < index) (h1 : index < root.str.length)
    (h2 : index = str.length) :
    basic_insert_implementation str index root tr =
      some (leaf_from str [prefix_assign (tail index root.str) root]) := by
  have e1 : no_match str index root = false := by
    simp only [no_match, isEmpty_eq_decide, Bool.and_eq_false_iff, Bool.not_eq_false',
      decide_eq_true_eq, beq_eq_false_iff_ne]; omega
  have e2 : full_match str index root = false := by
    simp only [full_match, Bool.and_eq_false_iff, beq_eq_false_iff_ne]; omega
  have e3 : string_match str index root = true := by
    simp only [string_match, Bool.and_eq_true, beq_iff_eq, decide_eq_true_eq]; omega
  have e4 : partial_match str index root = false := by
    simp only [partial_match, Bool.and_eq_false_iff, decide_eq_false_iff_not]; omega
  have e5 : node_matched str index root = false := by
    simp only [node_matched, Bool.and_eq_false_iff, beq_eq_false_iff_ne,
      decide_eq_false_iff_not]; omega
  simp [basic_insert_implementation, e1, e2, e3, e4, e5]

theorem basic_insert_implementation_partial_match (str : string) (index : Nat) (root : node)
    (tr : Option (List node)) (h0 : 0 < index) (h1 : index < root.str.length)
    (h2 : index < str.length) :
    basic_insert_implementation str index root tr =
      some (node_from (prefix_of index str) false
        (type_list.insert (leaf (tail index str) []) node_order
          [prefix_assign (tail index root.str) root])) := by
  have e1 : no_match str index root = false := by
    simp only [no_match, isEmpty_eq_decide, Bool.and_eq_false_iff, Bool.not_eq_false',
      decide_eq_true_eq, beq_eq_false_iff_ne]; omega
  have e2 : full_match str index root = false := by
    simp only [full_match, Bool.and_eq_false_iff, beq_eq_false_iff_ne]; omega
  have e3 : string_match str index root = false := by
    simp only [string_match, Bool.and_eq_false_iff, beq_eq_false_iff_ne,
      decide_eq_false_iff_not]; omega
  have e4 : partial_match str index root = true := by
    simp only [partial_match, Bool.and_eq_true, decide_eq_true_eq]; omega
  have e5 : node_matched str index root = false := by
    simp only [node_matched, Bool.and_eq_false_iff, beq_eq_false_iff_ne,
      decide_eq_false_iff_not]; omega
  simp [basic_insert_implementation, e1, e2, e3, e4, e5]

theorem basic_insert_implementation_node_match (str : string) (index : Nat) (root : node)
    (tr : Option (List node)) (h1 : index = root.str.length) (h2 : index < str.length) :
    basic_insert_implementation str index root tr =
      node_match str index (match_exists (tail index str) root.children) root tr := by
  have e1 : no_match str index root = false := by
    simp only [no_match, isEmpty_eq_decide, Bool.and_eq_false_iff, Bool.not_eq_false',
      decide_eq_true_eq, beq_eq_false_iff_ne]; omega
  have e2 : full_match str index root = false := by
    simp only [full_match, Bool.and_eq_false_iff, beq_eq_false_iff_ne]; omega
  have e3 : string_match str index root = false := by
    simp only [string_match, Bool.and_eq_false_iff, beq_eq_false_iff_ne,
      decide_eq_false_iff_not]; omega
  have e4 : partial_match str index root = false := by
    simp only [partial_match, Bool.and_eq_false_iff, decide_eq_false_iff_not]; omega
  have e5 : node_matched str index root = true := by
    simp only [node_matched, Bool.and_eq_true, beq_iff_eq, decide_eq_true_eq]; omega
  simp [basic_insert_implementation, e1, e2, e3, e4, e5]

theorem basic_insert_eq (str p : string) (nodes : List node) (l : Bool) :
    basic_insert str (.mk p nodes l) =
      basic_insert_implementation str (prefix_match_index p str) (.mk p nodes l)
        (basic_insert_transform (tail (prefix_match_index p str) str) nodes) := by
  simp [basic_insert]

/-- A node whose label starts with another char than the string is left as it is. -/
theorem basic_insert_no_match (q : string) (n : node) (hn : n.str ≠ []) (hq : q ≠ [])
    (h : char_at q 0 ≠ char_at n.str 0) : basic_insert q n = some n := by
  obtain ⟨p, nodes, l⟩ := n
  simp only [node.str] at hn h
  obtain ⟨x, p, rfl⟩ := List.exists_cons_of_ne_nil hn
  obtain ⟨y, q, rfl⟩ := List.exists_cons_of_ne_nil hq
  rw [basic_insert_eq]
  exact basic_insert_implementation_no_match _ _ _ _ (by simp [node.str])
    (prefix_match_index_cons_ne x y p q (by simpa [char_at_cons_zero, eq_comm] using h))
    (by simp)

theorem basic_insert_transform_eq (q : string) (g : node → node) (nodes : List node)
    (hne : nodes ≠ []) (h : ∀ c ∈ nodes, basic_insert q c = some (g c)) :
    basic_insert_transform q nodes = some (nodes.map g) := by
  induction nodes with
  | nil => exact absurd rfl hne
  | cons n nodes ih =>
    cases nodes with
    | nil => simp [basic_insert_transform, h n (List.mem_cons_self _ _)]
    | cons m nodes =>
      have := ih (by simp) (fun c hc => h c (List.mem_cons_of_mem _ hc))
      simp [basic_insert_transform, h n (List.mem_cons_self _ _), this]

end detail.radix_tree

end xstd.meta

namespace xstd.meta.detail.radix_tree

/-! ## Insertion keeps the invariant -/

theorem leaf_wf (b : string) (hb : b ≠ []) : (leaf b []).wf := by
  simp [leaf, node.wf, hb, strictly_ordered, first_chars, node.wf_list]

theorem leaf_keys (b : string) : (leaf b []).keys = [b] := by
  simp [leaf, node.keys, node.keys_list]

/-- The case "Node Match" on the children of a node: the string either goes into the one child
with the same first char or becomes a new leaf at its ordered place. -/
theorem node_match_children (b : string) (hb : b ≠ []) (nodes : List node)
    (ih : ∀ c ∈ nodes, c.wf → char_at b 0 = char_at c.str 0 →
      ∃ c', basic_insert b c = some c' ∧ c'.wf ∧ char_at c'.str 0 = char_at c.str 0 ∧
        ∀ w, w ∈ c'.keys ↔ w = b ∨ w ∈ c.keys)
    (hw : node.wf_list nodes) (ho : strictly_ordered nodes)
    (str : string) (index : Nat) (p : string) (l : Bool) (ht : tail index str = b) :
    ∃ nodes', node_match str index (match_exists b nodes) (.mk p nodes l)
        (basic_insert_transform b nodes) = some (.mk p nodes' l) ∧
      node.wf_list nodes' ∧ strictly_ordered nodes' ∧ nodes.length ≤ nodes'.length ∧
      ∀ w, w ∈ node.keys_list nodes' ↔ w = b ∨ w ∈ node.keys_list nodes := by
  rw [node.wf_list_iff] at hw
  by_cases hm : match_exists b nodes = true
  · -- the transformation of the children
    have F : ∀ c ∈ nodes, ∃ c', basic_insert b c = some c' ∧ c'.wf ∧
        char_at c'.str 0 = char_at c.str 0 ∧
        ∀ w, w ∈ c'.keys ↔ (w = b ∧ char_at b 0 = char_at c.str 0) ∨ w ∈ c.keys := by
      intro c hc
      by_cases hf : char_at b 0 = char_at c.str 0
      · obtain ⟨c', h1, h2, h3, h4⟩ := ih c hc (hw c hc) hf
        exact ⟨c', h1, h2, h3, fun w => by simp [h4, hf]⟩
      · exact ⟨c, basic_insert_no_match b c (node.wf_str c (hw c hc)) hb hf, hw c hc, rfl,
          fun w => by simp [hf]⟩
    have G : ∀ c ∈ nodes, basic_insert b c = some ((basic_insert b c).getD c) := by
      intro c hc
      obtain ⟨c', h1, _⟩ := F c hc
      simp [h1]
    have hne : nodes ≠ [] := by
      intro e; simp [e, match_exists] at hm
    refine ⟨nodes.map (fun c => (basic_insert b c).getD c), ?_, ?_, ?_, ?_, ?_⟩
    · simp [node_match, hm, basic_insert_transform_eq b _ nodes hne G, node_from, node.str,
        node.is_leaf]
    · rw [node.wf_list_iff]
      intro c' hc'
      obtain ⟨c, hc, rfl⟩ := List.mem_map.mp hc'
      obtain ⟨c', h1, h2, _⟩ := F c hc
      simpa [h1] using h2
    · have e : first_chars (nodes.map (fun c => (basic_insert b c).getD c)) =
          first_chars nodes := by
        simp only [first_chars, List.map_map]
        apply List.map_congr_left
        intro c hc
        obtain ⟨c', h1, _, h3, _⟩ := F c hc
        simp [h1, h3]
      simpa [strictly_ordered, e] using ho
    · simp
    · intro w
      simp only [node.keys_list_mem, List.mem_map, exists_exists_and_eq_and]
      constructor
      · rintro ⟨c, hc, hwc⟩
        obtain ⟨c', h1, _, _, h4⟩ := F c hc
        rw [h1] at hwc
        rcases (h4 w).mp (by simpa using hwc) with ⟨rfl, _⟩ | h
        · exact Or.inl rfl
        · exact Or.inr ⟨c, hc, h⟩
      · rintro (rfl | ⟨c, hc, hwc⟩)
        · obtain ⟨c, hc, hf⟩ := (first_chars_mem _ _).mp ((match_exists_iff _ _).mp hm)
          obtain ⟨c', h1, _, _, h4⟩ := F c hc
          exact ⟨c, hc, by rw [h1]; exact (h4 w).mpr (Or.inl ⟨rfl, hf.symm⟩)⟩
        · obtain ⟨c', h1, _, _, h4⟩ := F c hc
          exact ⟨c, hc, by rw [h1]; exact (h4 w).mpr (Or.inr hwc)⟩
  · -- a new leaf
    have hx : char_at (leaf b []).str 0 ∉ first_chars nodes := by
      intro h
      exact hm ((match_exists_iff _ _).mpr (by simpa [leaf, node.str] using h))
    refine ⟨type_list.insert (leaf b []) node_order nodes, ?_, ?_, ?_, ?_, ?_⟩
    · simp [node_match, hm, ht, node_from, node.str, node.is_leaf, node.children]
    · rw [node.wf_list_iff]
      intro c hc
      rcases (type_list.mem_insert _ _ _ _).mp hc with rfl | hc
      · exact leaf_wf b hb
      · exact hw c hc
    · exact strictly_ordered_insert _ _ ho hx
    · rw [type_list.length_insert]; omega
    · intro w
      rw [keys_list_insert, leaf_keys]; simp

/-- Insertion below the root: a string that starts with the first char of the label of a node
is inserted into the subtree of the node. The invariant is kept, the first char of the label is
kept, and the subtree spells the string in addition to the strings it spelled. -/
theorem basic_insert_wf (n : node) : n.wf → ∀ q : string, q ≠ [] →
    char_at q 0 = char_at n.str 0 →
    ∃ n', basic_insert q n = some n' ∧ n'.wf ∧ char_at n'.str 0 = char_at n.str 0 ∧
      ∀ w, w ∈ n'.keys ↔ w = q ∨ w ∈ n.keys := by
  induction n using node.induct_node with
  | h p nodes l ih =>
    intro hw q hq hf
    obtain ⟨hp, hl, ho, hc⟩ := hw
    obtain ⟨c, a1, b1, ha, hb, hi, hd⟩ := prefix_match_index_split p q
    subst ha hb
    simp only [node.str] at hf
    have hcne : c ≠ [] := by
      rintro rfl
      simp only [List.nil_append] at hp hq hf
      rcases hd with h | h | h
      · exact hp h
      · exact hq h
      · exact h hf.symm
    have hc0 : 0 < c.length := List.length_pos.mpr hcne
    have hfirst : ∀ r : string, char_at (c ++ r) 0 = char_at c 0 := fun r =>
      char_at_append_left c r 0 hc0
    rw [basic_insert_eq, hi]
    rcases a1 with _ | ⟨x, a1⟩
    · rcases b1 with _ | ⟨y, b1⟩
      · -- full match
        rw [basic_insert_implementation_full_match _ _ _ _ (by simp [node.str]) (by simp)]
        refine ⟨_, rfl, ?_, ?_, ?_⟩
        · simp only [leaf_assign, leaf_from, node_from, node.str, node.children, node.wf]
          exact ⟨hp, Or.inl trivial, ho, hc⟩
        · simp [leaf_assign, leaf_from, node_from, node.str]
        · intro w
          simp only [leaf_assign, leaf_from, node_from, node.str, node.children, node.keys_mem]
          simp only [List.append_nil, true_and]
          constructor
          · rintro (h | h)
            · exact Or.inl h
            · exact Or.inr (Or.inr h)
          · rintro (h | ⟨_, h⟩ | h)
            · exact Or.inl h
            · exact Or.inl h
            · exact Or.inr h
      · -- node match
        rw [basic_insert_implementation_node_match _ _ _ _ (by simp [node.str]) (by simp)]
        simp only [node.children, tail_append]
        obtain ⟨nodes', h1, h2, h3, h4, h5⟩ := node_match_children (y :: b1) (by simp) nodes
          (fun c hcm hcw hcf => ih c hcm hcw (y :: b1) (by simp) hcf) hc ho
          (c ++ y :: b1) c.length (c ++ []) l (tail_append _ _)
        refine ⟨_, h1, ⟨hp, ?_, h3, h2⟩, rfl, ?_⟩
        · rcases hl with h | h
          · exact Or.inl h
          · exact Or.inr (by omega)
        · intro w
          simp only [node.keys_mem, h5, List.append_nil]
          constructor
          · rintro (h | ⟨v, rfl | h, rfl⟩)
            · exact Or.inr (Or.inl h)
            · exact Or.inl rfl
            · exact Or.inr (Or.inr ⟨v, h, rfl⟩)
          · rintro (rfl | h | ⟨v, h, rfl⟩)
            · exact Or.inr ⟨_, Or.inl rfl, rfl⟩
            · exact Or.inl h
            · exact Or.inr ⟨v, Or.inr h, rfl⟩
    · rcases b1 with _ | ⟨y, b1⟩
      · -- string match
        rw [basic_insert_implementation_string_match _ _ _ _ hc0 (by simp [node.str])
          (by simp)]
        simp only [node.str, tail_append]
        refine ⟨_, rfl, ?_, ?_, ?_⟩
        · simp only [leaf_from, node_from, prefix_assign, node.is_leaf, node.children, node.wf,
            node.wf_list, strictly_ordered, first_chars, List.map_cons, List.map_nil,
            List.pairwise_cons, List.Pairwise.nil, and_true, List.not_mem_nil,
            IsEmpty.forall_iff, implies_true, true_and, List.append_nil]
          exact ⟨hcne, Or.inl trivial, by simp, hl, ho, hc⟩
        · simp [leaf_from, node_from, node.str, hfirst]
        · intro w
          simp only [leaf_from, node_from, prefix_assign, node.is_leaf, node.children,
            node.keys_mem, node.keys_list, List.append_nil, true_and, List.mem_append,
            List.not_mem_nil, or_false]
          constructor
          · rintro (h | ⟨v, ⟨hl', rfl⟩ | ⟨u, hu, rfl⟩, rfl⟩)
            · exact Or.inl h
            · exact Or.inr (Or.inl ⟨hl', rfl⟩)
            · exact Or.inr (Or.inr ⟨u, hu, by simp⟩)
          · rintro (h | ⟨hl', rfl⟩ | ⟨u, hu, rfl⟩)
            · exact Or.inl h
            · exact Or.inr ⟨_, Or.inl ⟨hl', rfl⟩, rfl⟩
            · exact Or.inr ⟨_, Or.inr ⟨u, hu, rfl⟩, by simp⟩
      · -- partial match
        have hxy : x ≠ y := by
          rcases hd with h | h | h
          · simp at h
          · simp at h
          · simpa [char_at_cons_zero] using h
        rw [basic_insert_implementation_partial_match _ _ _ _ hc0 (by simp [node.str])
          (by simp)]
        simp only [node.str, tail_append, prefix_of_append]
        have hwold : (prefix_assign (x :: a1) (node.mk (c ++ x :: a1) nodes l)).wf := by
          simp only [prefix_assign, node_from, node.is_leaf, node.children, node.wf]
          exact ⟨by simp, hl, ho, hc⟩
        refine ⟨_, rfl, ?_, ?_, ?_⟩
        · simp only [node_from, node.wf]
          refine ⟨hcne, Or.inr ?_, ?_, ?_⟩
          · rw [type_list.length_insert]; simp
          · apply strictly_ordered_insert
            · simp [strictly_ordered, first_chars]
            · simp [first_chars, leaf, node.str, prefix_assign, node_from, char_at_cons_zero,
                eq_comm, hxy]
          · rw [node.wf_list_iff]
            intro d hd'
            rcases (type_list.mem_insert _ _ _ _).mp hd' with rfl | hd'
            · exact leaf_wf _ (by simp)
            · simp only [List.mem_singleton] at hd'
              subst hd'
              exact hwold
        · simp [node_from, node.str, hfirst]
        · intro w
          simp only [node_from, node.keys_mem, keys_list_insert, leaf_keys, node.keys_list,
            prefix_assign, node.is_leaf, node.children, List.mem_append,
            List.not_mem_nil, or_false, List.mem_singleton, Bool.false_eq_true, false_and,
            false_or]
          constructor
          · rintro ⟨v, rfl | ⟨hl', rfl⟩ | ⟨u, hu, rfl⟩, rfl⟩
            · exact Or.inl rfl
            · exact Or.inr (Or.inl ⟨hl', rfl⟩)
            · exact Or.inr (Or.inr ⟨u, hu, by simp⟩)
          · rintro (rfl | ⟨hl', rfl⟩ | ⟨u, hu, rfl⟩)
            · exact ⟨_, Or.inl rfl, rfl⟩
            · exact ⟨_, Or.inr (Or.inl ⟨hl', rfl⟩), rfl⟩
            · exact ⟨_, Or.inr (Or.inr ⟨u, hu, rfl⟩), by simp⟩

end xstd.meta.detail.radix_tree

namespace xstd.meta.detail.radix_tree

/-! ## Insertion at the root and the built tree -/

/-- Insertion at a root: the call compiles, the invariant of the root is kept and the tree
spells the string in addition to the strings it spelled. -/
theorem basic_insert_root (r : node) (hr : root_wf r) (q : string) :
    ∃ r', basic_insert q r = some r' ∧ root_wf r' ∧
      ∀ w, w ∈ r'.keys ↔ w = q ∨ w ∈ r.keys := by
  obtain ⟨p, nodes, l⟩ := r
  obtain ⟨hp, ho, hc⟩ := hr
  simp only [node.str, node.children] at hp ho hc
  subst hp
  rw [basic_insert_eq, prefix_match_index_nil_left]
  rcases q with _ | ⟨y, q⟩
  · rw [basic_insert_implementation_full_match _ _ _ _ (by simp [node.str]) (by simp)]
    refine ⟨_, rfl, ⟨rfl, ho, hc⟩, ?_⟩
    intro w
    simp only [leaf_assign, leaf_from, node_from, node.str, node.children, node.keys_mem]
    simp only [List.nil_append, true_and]
    constructor
    · rintro (h | h)
      · exact Or.inl h
      · exact Or.inr (Or.inr h)
    · rintro (h | ⟨_, h⟩ | h)
      · exact Or.inl h
      · exact Or.inl h
      · exact Or.inr h
  · rw [basic_insert_implementation_node_match _ _ _ _ (by simp [node.str]) (by simp)]
    simp only [node.children, tail_zero]
    obtain ⟨nodes', h1, h2, h3, _, h5⟩ := node_match_children (y :: q) (by simp) nodes
      (fun c _ hcw hcf => basic_insert_wf c hcw (y :: q) (by simp) hcf) hc ho
      (y :: q) 0 [] l (tail_zero _)
    refine ⟨_, h1, ⟨rfl, h3, h2⟩, ?_⟩
    intro w
    simp only [node.keys_mem, h5]
    constructor
    · rintro (h | ⟨v, hv | hv, e⟩)
      · exact Or.inr (Or.inl h)
      · exact Or.inl (by simpa [hv] using e)
      · exact Or.inr (Or.inr ⟨v, hv, e⟩)
    · rintro (e | h | ⟨v, hv, e⟩)
      · exact Or.inr ⟨_, Or.inl rfl, by simpa using e⟩
      · exact Or.inl h
      · exact Or.inr ⟨v, Or.inr hv, e⟩

theorem insert_implementation_wf (strs : List string) : ∀ r : node, root_wf r →
    ∃ r', insert_implementation strs r = some r' ∧ root_wf r' ∧
      ∀ w, w ∈ r'.keys ↔ w ∈ strs ∨ w ∈ r.keys := by
  induction strs with
  | nil => intro r hr; exact ⟨r, rfl, hr, fun w => by simp⟩
  | cons str rest ih =>
    intro r hr
    obtain ⟨r1, h1, hw1, hk1⟩ := basic_insert_root r hr str
    obtain ⟨r2, h2, hw2, hk2⟩ := ih r1 hw1
    refine ⟨r2, by simp [insert_implementation, h1, h2], hw2, ?_⟩
    intro w
    rw [hk2, hk1, List.mem_cons]
    constructor
    · rintro (h | h | h)
      · exact Or.inl (Or.inr h)
      · exact Or.inl (Or.inl h)
      · exact Or.inr h
    · rintro ((h | h) | h)
      · exact Or.inr (Or.inl h)
      · exact Or.inl h
      · exact Or.inr (Or.inr h)

theorem root_wf_empty : root_wf (radix_tree.empty).root := by
  simp [radix_tree.empty, root_wf, node.str, node.children, strictly_ordered, first_chars,
    node.wf_list]

end xstd.meta.detail.radix_tree

namespace xstd.meta

open detail.radix_tree (node root_wf)

theorem insert_wf (strs : List string) (t : radix_tree) (ht : root_wf t.root) :
    ∃ t', insert strs t = some t' ∧ root_wf t'.root ∧
      ∀ w, w ∈ t'.root.keys ↔ w ∈ strs ∨ w ∈ t.root.keys := by
  obtain ⟨r', h1, h2, h3⟩ := detail.radix_tree.insert_implementation_wf strs t.root ht
  exact ⟨⟨r'⟩, by simp [insert, detail.radix_tree.insert, h1], h2, h3⟩

/-- Every list of strings builds a tree; the tree satisfies the invariant and spells exactly
the strings of the list. -/
theorem radix_tree_from_wf (strs : List string) :
    ∃ t, radix_tree_from strs = some t ∧ root_wf t.root ∧
      ∀ w, w ∈ t.root.keys ↔ w ∈ strs := by
  obtain ⟨t, h1, h2, h3⟩ := insert_wf strs radix_tree.empty detail.radix_tree.root_wf_empty
  refine ⟨t, h1, h2, fun w => ?_⟩
  rw [h3]
  simp [radix_tree.empty, node.keys, node.keys_list]

end xstd.meta

namespace xstd.meta.detail.radix_tree

/-! ## Consequences of the invariant -/

theorem node.wf_list_keys_first (nodes : List node) (hw : node.wf_list nodes) (v : string)
    (hv : v ∈ node.keys_list nodes) :
    v ≠ [] ∧ ∃ c ∈ nodes, v ∈ c.keys ∧ char_at v 0 = char_at c.str 0 := by
  rw [node.wf_list_iff] at hw
  obtain ⟨c, hc, hvc⟩ := (node.keys_list_mem nodes v).mp hv
  have := node.keys_first c (node.wf_str c (hw c hc)) v hvc
  exact ⟨this.1, c, hc, hvc, this.2⟩

theorem strictly_ordered_cons (n : node) (nodes : List node) :
    strictly_ordered (n :: nodes) ↔
      (∀ c ∈ nodes, char_at n.str 0 < char_at c.str 0) ∧ strictly_ordered nodes := by
  simp [strictly_ordered, first_chars]

/-- The strings spelled from strictly ordered children are pairwise distinct when those of each
child are. -/
theorem node.keys_list_nodup (nodes : List node)
    (ih : ∀ c ∈ nodes, c.wf → c.keys.Nodup) (hw : node.wf_list nodes)
    (ho : strictly_ordered nodes) : (node.keys_list nodes).Nodup := by
  induction nodes with
  | nil => simp [node.keys_list]
  | cons n nodes ihl =>
    rw [strictly_ordered_cons] at ho
    simp only [node.keys_list]
    refine List.Nodup.append (ih n (List.mem_cons_self _ _) hw.1)
      (ihl (fun c hc => ih c (List.mem_cons_of_mem _ hc)) hw.2 ho.2) ?_
    intro w h1 h2
    have f1 := (node.keys_first n (node.wf_str n hw.1) w h1).2
    obtain ⟨_, c, hc, _, f2⟩ := node.wf_list_keys_first nodes hw.2 w h2
    have := ho.1 c hc
    omega

theorem node.keys_nodup_of_children (p : string) (nodes : List node) (l : Bool)
    (hw : node.wf_list nodes) (h : (node.keys_list nodes).Nodup) :
    (node.mk p nodes l).keys.Nodup := by
  have hmap : ((node.keys_list nodes).map (fun w => p ++ w)).Nodup :=
    List.Nodup.map (List.append_right_injective p) h
  have hp : p ∉ (node.keys_list nodes).map (fun w => p ++ w) := by
    intro hmem
    obtain ⟨v, hv, e⟩ := List.mem_map.mp hmem
    have : v = [] := by simpa using e
    exact (node.wf_list_keys_first nodes hw v hv).1 this
  cases l with
  | true =>
    simp only [node.keys, if_true, List.singleton_append]
    exact List.nodup_cons.mpr ⟨hp, hmap⟩
  | false => simpa [node.keys] using hmap

/-- Below the root the strings spelled from a node are pairwise distinct. -/
theorem node.keys_nodup (n : node) : n.wf → n.keys.Nodup := by
  induction n using node.induct_node with
  | h p nodes l ih =>
    intro hw
    exact node.keys_nodup_of_children p nodes l hw.2.2.2
      (node.keys_list_nodup nodes ih hw.2.2.2 hw.2.2.1)

/-- The strings spelled from a root are pairwise distinct. -/
theorem root_keys_nodup (r : node) (hr : root_wf r) : r.keys.Nodup := by
  obtain ⟨p, nodes, l⟩ := r
  exact node.keys_nodup_of_children p nodes l hr.2.2
    (node.keys_list_nodup nodes (fun c _ hc => node.keys_nodup c hc) hr.2.2 hr.2.1)

theorem node.descendants_list_mem (nodes : List node) (m : node) :
    m ∈ node.descendants_list nodes ↔ ∃ c ∈ nodes, m = c ∨ m ∈ c.descendants := by
  induction nodes with
  | nil => simp [node.descendants_list]
  | cons n nodes ih =>
    simp only [node.descendants_list, List.mem_cons, List.mem_append, ih, exists_eq_or_imp]
    constructor
    · rintro (h | h | h)
      · exact Or.inl (Or.inl h)
      · exact Or.inl (Or.inr h)
      · exact Or.inr h
    · rintro ((h | h) | h)
      · exact Or.inl h
      · exact Or.inr (Or.inl h)
      · exact Or.inr (Or.inr h)

/-- The invariant holds at every node below a node that satisfies it. -/
theorem node.wf_descendants (n : node) : n.wf → ∀ m ∈ n.descendants, m.wf := by
  induction n using node.induct_node with
  | h p nodes l ih =>
    intro hw m hm
    have hc := (node.wf_list_iff nodes).mp hw.2.2.2
    simp only [node.descendants] at hm
    obtain ⟨c, hcm, rfl | h⟩ := (node.descendants_list_mem nodes m).mp hm
    · exact hc m hcm
    · exact ih c hcm (hc c hcm) m h

/-- The invariant holds at every node below a root that satisfies the invariant of roots. -/
theorem root_wf_descendants (r : node) (hr : root_wf r) : ∀ m ∈ r.descendants, m.wf := by
  obtain ⟨p, nodes, l⟩ := r
  intro m hm
  have hc := (node.wf_list_iff nodes).mp hr.2.2
  simp only [node.descendants] at hm
  obtain ⟨c, hcm, rfl | h⟩ := (node.descendants_list_mem nodes m).mp hm
  · exact hc m hcm
  · exact node.wf_descendants c (hc c hcm) m h

theorem node.wf_strictly_ordered (n : node) (h : n.wf) : strictly_ordered n.children := by
  obtain ⟨p, nodes, l⟩ := n
  exact h.2.2.1

theorem node.wf_compressed (n : node) (h : n.wf) (hl : n.is_leaf = false) :
    2 ≤ n.children.length := by
  obtain ⟨p, nodes, l⟩ := n
  simp only [node.is_leaf] at hl
  subst hl
  simpa [node.children] using h.2.1

/-- At the root and at every node below it the children are strictly ordered by the first char
of their labels. -/
theorem root_wf_strictly_ordered (r : node) (hr : root_wf r) :
    ∀ m ∈ r :: r.descendants, strictly_ordered m.children := by
  intro m hm
  rcases List.mem_cons.mp hm with rfl | hm
  · exact hr.2.1
  · exact node.wf_strictly_ordered m (root_wf_descendants r hr m hm)

end xstd.meta.detail.radix_tree

namespace xstd.meta.detail.radix_tree

/-! ## Paths and leaf flags -/

theorem node.paths_list_mem (nodes : List node) (e : string × Bool) :
    e ∈ node.paths_list nodes ↔ ∃ c ∈ nodes, e ∈ c.paths := by
  induction nodes with
  | nil => simp [node.paths_list]
  | cons n nodes ih => simp [node.paths_list, ih]

theorem node.paths_mem (p : string) (nodes : List node) (l : Bool) (e : string × Bool) :
    e ∈ (node.mk p nodes l).paths ↔
      e = (p, l) ∨ ∃ d, d ∈ node.paths_list nodes ∧ e = (p ++ d.1, d.2) := by
  simp only [node.paths, List.mem_cons, List.mem_map]
  constructor
  · rintro (h | ⟨d, hd, rfl⟩)
    · exact Or.inl h
    · exact Or.inr ⟨d, hd, rfl⟩
  · rintro (h | ⟨d, hd, rfl⟩)
    · exact Or.inl h
    · exact Or.inr ⟨d, hd, rfl⟩

/-- The strings spelled from a node are the paths to the leaf-flagged nodes. -/
theorem node.keys_iff_paths (n : node) : ∀ w, w ∈ n.keys ↔ (w, true) ∈ n.paths := by
  induction n using node.induct_node with
  | h p nodes l ih =>
    intro w
    rw [node.keys_mem, node.paths_mem]
    constructor
    · rintro (⟨rfl, rfl⟩ | ⟨v, hv, rfl⟩)
      · exact Or.inl rfl
      · obtain ⟨c, hc, hvc⟩ := (node.keys_list_mem _ _).mp hv
        exact Or.inr ⟨(v, true), (node.paths_list_mem _ _).mpr ⟨c, hc, (ih c hc v).mp hvc⟩, rfl⟩
    · rintro (h | ⟨d, hd, h⟩)
      · simp only [Prod.mk.injEq] at h
        exact Or.inl ⟨h.2.symm, h.1⟩
      · obtain ⟨c, hc, hdc⟩ := (node.paths_list_mem _ _).mp hd
        simp only [Prod.mk.injEq] at h
        have : (d.1, true) ∈ c.paths := by rw [h.2]; exact hdc
        exact Or.inr ⟨d.1, (node.keys_list_mem _ _).mpr ⟨c, hc, (ih c hc d.1).mpr this⟩, h.1⟩

theorem node.paths_first (n : node) (hn : n.str ≠ []) (e : string × Bool) (he : e ∈ n.paths) :
    e.1 ≠ [] ∧ char_at e.1 0 = char_at n.str 0 := by
  obtain ⟨p, nodes, l⟩ := n
  simp only [node.str] at hn ⊢
  obtain ⟨x, p, rfl⟩ := List.exists_cons_of_ne_nil hn
  rw [node.paths_mem] at he
  rcases he with rfl | ⟨d, _, rfl⟩ <;> simp [char_at_cons_zero]

theorem strictly_ordered_inj (nodes : List node) (ho : strictly_ordered nodes) :
    ∀ c ∈ nodes, ∀ d ∈ nodes, char_at c.str 0 = char_at d.str 0 → c = d := by
  induction nodes with
  | nil => intro c hc; cases hc
  | cons n nodes ih =>
    rw [strictly_ordered_cons] at ho
    intro c hc d hd e
    rcases List.mem_cons.mp hc with h1 | h1 <;> rcases List.mem_cons.mp hd with h2 | h2
    · rw [h1, h2]
    · have := ho.1 d h2; rw [h1] at e; omega
    · have := ho.1 c h1; rw [h2] at e; omega
    · exact ih ho.2 c h1 d h2 e

theorem node.paths_functional_of_children (p : string) (nodes : List node) (l : Bool)
    (ih : ∀ c ∈ nodes, ∀ e ∈ c.paths, ∀ d ∈ c.paths, e.1 = d.1 → e.2 = d.2)
    (hw : node.wf_list nodes) (ho : strictly_ordered nodes) :
    ∀ e ∈ (node.mk p nodes l).paths, ∀ d ∈ (node.mk p nodes l).paths, e.1 = d.1 → e.2 = d.2 := by
  rw [node.wf_list_iff] at hw
  have below : ∀ u ∈ node.paths_list nodes, p ≠ p ++ u.1 := by
    intro u hu h
    obtain ⟨c, hc, huc⟩ := (node.paths_list_mem _ _).mp hu
    exact (node.paths_first c (node.wf_str c (hw c hc)) u huc).1 (by simpa using h)
  intro e he d hd hed
  rcases (node.paths_mem _ _ _ _).mp he with rfl | ⟨e1, he1, rfl⟩ <;>
    rcases (node.paths_mem _ _ _ _).mp hd with rfl | ⟨d1, hd1, rfl⟩
  · rfl
  · exact absurd hed (below d1 hd1)
  · exact absurd hed.symm (below e1 he1)
  · have h1 : e1.1 = d1.1 := List.append_cancel_left hed
    obtain ⟨c, hc, hec⟩ := (node.paths_list_mem _ _).mp he1
    obtain ⟨c', hc', hdc⟩ := (node.paths_list_mem _ _).mp hd1
    have f1 := node.paths_first c (node.wf_str c (hw c hc)) e1 hec
    have f2 := node.paths_first c' (node.wf_str c' (hw c' hc')) d1 hdc
    have : c = c' := strictly_ordered_inj nodes ho c hc c' hc' (by rw [← f1.2, ← f2.2, h1])
    subst this
    exact ih c hc e1 hec d1 hdc h1

/-- Below the root two nodes of a subtree with the same path have the same leaf flag. -/
theorem node.paths_functional (n : node) : n.wf →
    ∀ e ∈ n.paths, ∀ d ∈ n.paths, e.1 = d.1 → e.2 = d.2 := by
  induction n using node.induct_node with
  | h p nodes l ih =>
    intro hw
    exact node.paths_functional_of_children p nodes l
      (fun c hc => ih c hc ((node.wf_list_iff nodes).mp hw.2.2.2 c hc)) hw.2.2.2 hw.2.2.1

theorem root_paths_functional (r : node) (hr : root_wf r) :
    ∀ e ∈ r.paths, ∀ d ∈ r.paths, e.1 = d.1 → e.2 = d.2 := by
  obtain ⟨p, nodes, l⟩ := r
  exact node.paths_functional_of_children p nodes l
    (fun c hc => node.paths_functional c ((node.wf_list_iff nodes).mp hr.2.2 c hc))
    hr.2.2 hr.2.1

end xstd.meta.detail.radix_tree

namespace xstd.meta.detail.radix_tree

/-! ## The shape of a tree is determined by the strings it spells -/

theorem char_at_of_prefix (s w : string) (h : s <+: w) (i : Nat) (hi : i < s.length) :
    char_at s i = char_at w i := by
  obtain ⟨t, rfl⟩ := h
  exact (char_at_append_left s t i hi).symm

theorem node.keys_prefix (p : string) (nodes : List node) (l : Bool) (w : string)
    (hw : w ∈ (node.mk p nodes l).keys) : p <+: w := by
  rcases (node.keys_mem p nodes l w).mp hw with ⟨_, rfl⟩ | ⟨v, _, rfl⟩
  · exact List.prefix_refl _
  · exact List.prefix_append _ _

/-- The label of a node below the root is the longest common prefix of the strings spelled
from the node. -/
theorem node.label_longest (p : string) (nodes : List node) (l : Bool)
    (hw : (node.mk p nodes l).wf) (s : string)
    (hs : ∀ w ∈ (node.mk p nodes l).keys, s <+: w) : s <+: p := by
  obtain ⟨_, hl, ho, hc⟩ := hw
  rcases hl with rfl | h2
  · exact hs p ((node.keys_mem _ _ _ _).mpr (Or.inl ⟨rfl, rfl⟩))
  · obtain ⟨c1, c2, rest, rfl⟩ : ∃ c1 c2 rest, nodes = c1 :: c2 :: rest := by
      match nodes, h2 with
      | c1 :: c2 :: rest, _ => exact ⟨c1, c2, rest, rfl⟩
    obtain ⟨hc1, hc2, _⟩ := hc
    obtain ⟨v1, ws1, hk1⟩ := List.exists_cons_of_ne_nil (node.wf_keys_ne_nil c1 hc1)
    obtain ⟨v2, ws2, hk2⟩ := List.exists_cons_of_ne_nil (node.wf_keys_ne_nil c2 hc2)
    have hv1 : v1 ∈ c1.keys := by simp [hk1]
    have hv2 : v2 ∈ c2.keys := by simp [hk2]
    have f1 := (node.keys_first c1 (node.wf_str c1 hc1) v1 hv1).2
    have f2 := (node.keys_first c2 (node.wf_str c2 hc2) v2 hv2).2
    have hlt : char_at c1.str 0 < char_at c2.str 0 :=
      ((strictly_ordered_cons _ _).mp ho).1 c2 (List.mem_cons_self _ _)
    have m1 : p ++ v1 ∈ (node.mk p (c1 :: c2 :: rest) l).keys :=
      (node.keys_mem _ _ _ _).mpr (Or.inr ⟨v1, by simp [node.keys_list, hv1], rfl⟩)
    have m2 : p ++ v2 ∈ (node.mk p (c1 :: c2 :: rest) l).keys :=
      (node.keys_mem _ _ _ _).mpr (Or.inr ⟨v2, by simp [node.keys_list, hv2], rfl⟩)
    have s1 := hs _ m1
    have s2 := hs _ m2
    by_cases hlen : s.length ≤ p.length
    · exact List.prefix_of_prefix_length_le s1 (List.prefix_append _ _) hlen
    · exfalso
      have e1 := char_at_of_prefix s _ s1 p.length (by omega)
      have e2 := char_at_of_prefix s _ s2 p.length (by omega)
      have r1 := char_at_append_right p v1 0
      have r2 := char_at_append_right p v2 0
      simp only [Nat.add_zero] at r1 r2
      omega

theorem prefix_antisymm (a b : string) (h1 : a <+: b) (h2 : b <+: a) : a = b :=
  List.IsPrefix.eq_of_length_le h1 h2.length_le

/-- Two nodes below the root that spell the same strings have the same label. -/
theorem node.label_unique (p1 p2 : string) (ns1 ns2 : List node) (l1 l2 : Bool)
    (h1 : (node.mk p1 ns1 l1).wf) (h2 : (node.mk p2 ns2 l2).wf)
    (hk : ∀ w, w ∈ (node.mk p1 ns1 l1).keys ↔ w ∈ (node.mk p2 ns2 l2).keys) : p1 = p2 := by
  apply prefix_antisymm
  · exact node.label_longest p2 ns2 l2 h2 p1
      (fun w hw => node.keys_prefix p1 ns1 l1 w ((hk w).mpr hw))
  · exact node.label_longest p1 ns1 l1 h1 p2
      (fun w hw => node.keys_prefix p2 ns2 l2 w ((hk w).mp hw))

/-- Two nodes with the same label that spell the same strings have the same leaf flag, and
their children spell the same strings. -/
theorem node.flag_unique (p : string) (ns1 ns2 : List node) (l1 l2 : Bool)
    (h1 : node.wf_list ns1) (h2 : node.wf_list ns2)
    (hk : ∀ w, w ∈ (node.mk p ns1 l1).keys ↔ w ∈ (node.mk p ns2 l2).keys) :
    l1 = l2 ∧ ∀ v, v ∈ node.keys_list ns1 ↔ v ∈ node.keys_list ns2 := by
  have key : ∀ (ns : List node) (l : Bool) (v : string),
      p ++ v ∈ (node.mk p ns l).keys ↔ (l = true ∧ v = []) ∨ v ∈ node.keys_list ns := by
    intro ns l v
    rw [node.keys_mem]
    constructor
    · rintro (⟨h, e⟩ | ⟨u, hu, e⟩)
      · exact Or.inl ⟨h, by simpa using e⟩
      · exact Or.inr (by rw [List.append_cancel_left e]; exact hu)
    · rintro (⟨h, rfl⟩ | h)
      · exact Or.inl ⟨h, by simp⟩
      · exact Or.inr ⟨v, h, rfl⟩
  have n1 : ([] : string) ∉ node.keys_list ns1 := fun h =>
    (node.wf_list_keys_first ns1 h1 [] h).1 rfl
  have n2 : ([] : string) ∉ node.keys_list ns2 := fun h =>
    (node.wf_list_keys_first ns2 h2 [] h).1 rfl
  have hv : ∀ v, ((l1 = true ∧ v = []) ∨ v ∈ node.keys_list ns1) ↔
      ((l2 = true ∧ v = []) ∨ v ∈ node.keys_list ns2) := by
    intro v
    rw [← key ns1 l1 v, ← key ns2 l2 v]
    exact hk _
  constructor
  · have := hv []
    simp only [n1, n2, and_true, or_false] at this
    cases l1 <;> cases l2 <;> simp_all
  · intro v
    have := hv v
    by_cases e : v = []
    · subst e; simp [n1, n2]
    · simpa [e] using this

/-- Two strictly ordered lists of nodes below the root that spell the same strings are equal,
when this holds for the nodes of the first list. -/
theorem node.children_unique (ns1 : List node)
    (ih : ∀ c ∈ ns1, c.wf → ∀ c2 : node, c2.wf → (∀ w, w ∈ c.keys ↔ w ∈ c2.keys) → c = c2) :
    ∀ ns2 : List node, node.wf_list ns1 → node.wf_list ns2 → strictly_ordered ns1 →
      strictly_ordered ns2 → (∀ v, v ∈ node.keys_list ns1 ↔ v ∈ node.keys_list ns2) →
      ns1 = ns2 := by
  induction ns1 with
  | nil =>
    intro ns2 _ h2 _ _ hk
    cases ns2 with
    | nil => rfl
    | cons c2 r2 =>
      exfalso
      obtain ⟨v, ws, hv⟩ := List.exists_cons_of_ne_nil (node.wf_keys_ne_nil c2 h2.1)
      have : v ∈ node.keys_list (c2 :: r2) := by simp [node.keys_list, hv]
      simpa [node.keys_list] using (hk v).mpr this
  | cons c1 r1 ihl =>
    intro ns2 h1 h2 o1 o2 hk
    cases ns2 with
    | nil =>
      exfalso
      obtain ⟨v, ws, hv⟩ := List.exists_cons_of_ne_nil (node.wf_keys_ne_nil c1 h1.1)
      have : v ∈ node.keys_list (c1 :: r1) := by simp [node.keys_list, hv]
      simpa [node.keys_list] using (hk v).mp this
    | cons c2 r2 =>
      rw [strictly_ordered_cons] at o1 o2
      -- membership in the head or in the rest is decided by the first char
      have split : ∀ (c : node) (r : List node), c.wf → node.wf_list r →
          (∀ d ∈ r, char_at c.str 0 < char_at d.str 0) → ∀ v, v ∈ node.keys_list (c :: r) →
          (v ∈ c.keys ∧ char_at v 0 = char_at c.str 0) ∨
          (v ∈ node.keys_list r ∧ char_at c.str 0 < char_at v 0) := by
        intro c r hc hr ho v hv
        simp only [node.keys_list, List.mem_append] at hv
        rcases hv with hv | hv
        · exact Or.inl ⟨hv, (node.keys_first c (node.wf_str c hc) v hv).2⟩
        · obtain ⟨_, d, hd, _, e⟩ := node.wf_list_keys_first r hr v hv
          exact Or.inr ⟨hv, by rw [e]; exact ho d hd⟩
      have le : ∀ (c c' : node) (r r' : List node), c.wf → c'.wf → node.wf_list r' →
          (∀ d ∈ r', char_at c'.str 0 < char_at d.str 0) →
          (∀ v, v ∈ node.keys_list (c :: r) → v ∈ node.keys_list (c' :: r')) →
          char_at c'.str 0 ≤ char_at c.str 0 := by
        intro c c' r r' hc hc' hr' ho' hsub
        obtain ⟨v, ws, hv⟩ := List.exists_cons_of_ne_nil (node.wf_keys_ne_nil c hc)
        have hvc : v ∈ c.keys := by simp [hv]
        have f := (node.keys_first c (node.wf_str c hc) v hvc).2
        rcases split c' r' hc' hr' ho' v (hsub v (by simp [node.keys_list, hvc])) with h | h
        · omega
        · omega
      have hfirst : char_at c1.str 0 = char_at c2.str 0 :=
        le_antisymm (le c2 c1 r2 r1 h2.1 h1.1 h1.2 o1.1 (fun v hv => (hk v).mpr hv))
          (le c1 c2 r1 r2 h1.1 h2.1 h2.2 o2.1 (fun v hv => (hk v).mp hv))
      have hhead : ∀ v, v ∈ c1.keys ↔ v ∈ c2.keys := by
        intro v
        constructor
        · intro hv
          have f := (node.keys_first c1 (node.wf_str c1 h1.1) v hv).2
          rcases split c2 r2 h2.1 h2.2 o2.1 v
            ((hk v).mp (by simp [node.keys_list, hv])) with h | h
          · exact h.1
          · omega
        · intro hv
          have f := (node.keys_first c2 (node.wf_str c2 h2.1) v hv).2
          rcases split c1 r1 h1.1 h1.2 o1.1 v
            ((hk v).mpr (by simp [node.keys_list, hv])) with h | h
          · exact h.1
          · omega
      have hrest : ∀ v, v ∈ node.keys_list r1 ↔ v ∈ node.keys_list r2 := by
        intro v
        constructor
        · intro hv
          obtain ⟨_, d, hd, _, e⟩ := node.wf_list_keys_first r1 h1.2 v hv
          have := o1.1 d hd
          rcases split c2 r2 h2.1 h2.2 o2.1 v
            ((hk v).mp (by simp [node.keys_list, hv])) with h | h
          · omega
          · exact h.1
        · intro hv
          obtain ⟨_, d, hd, _, e⟩ := node.wf_list_keys_first r2 h2.2 v hv
          have := o2.1 d hd
          rcases split c1 r1 h1.1 h1.2 o1.1 v
            ((hk v).mpr (by simp [node.keys_list, hv])) with h | h
          · omega
          · exact h.1
      have e1 : c1 = c2 := ih c1 (List.mem_cons_self _ _) h1.1 c2 h2.1 hhead
      have e2 : r1 = r2 := ihl (fun c hc => ih c (List.mem_cons_of_mem _ hc)) r2 h1.2 h2.2
        o1.2 o2.2 hrest
      rw [e1, e2]

/-- Two nodes below the root that satisfy the invariant and spell the same strings are
equal. -/
theorem node.unique (n1 : node) : n1.wf → ∀ n2 : node, n2.wf →
    (∀ w, w ∈ n1.keys ↔ w ∈ n2.keys) → n1 = n2 := by
  induction n1 using node.induct_node with
  | h p1 ns1 l1 ih =>
    intro h1 n2 h2 hk
    obtain ⟨p2, ns2, l2⟩ := n2
    have hp := node.label_unique p1 p2 ns1 ns2 l1 l2 h1 h2 hk
    subst hp
    obtain ⟨hl, hc⟩ := node.flag_unique p1 ns1 ns2 l1 l2 h1.2.2.2 h2.2.2.2 hk
    have hn := node.children_unique ns1 ih ns2 h1.2.2.2 h2.2.2.2 h1.2.2.1 h2.2.2.1 hc
    rw [hl, hn]

/-- Two roots that satisfy the invariant and spell the same strings are equal. -/
theorem root_unique (r1 r2 : node) (h1 : root_wf r1) (h2 : root_wf r2)
    (hk : ∀ w, w ∈ r1.keys ↔ w ∈ r2.keys) : r1 = r2 := by
  obtain ⟨p1, ns1, l1⟩ := r1
  obtain ⟨p2, ns2, l2⟩ := r2
  obtain ⟨e1, o1, c1⟩ := h1
  obtain ⟨e2, o2, c2⟩ := h2
  simp only [node.str, node.children] at e1 e2 o1 o2 c1 c2
  subst e1 e2
  obtain ⟨hl, hc⟩ := node.flag_unique [] ns1 ns2 l1 l2 c1 c2 hk
  have hn := node.children_unique ns1 (fun c _ hcw c2 hc2 h => node.unique c hcw c2 hc2 h)
    ns2 c1 c2 o1 o2 hc
  rw [hl, hn]

end xstd.meta.detail.radix_tree

namespace xstd.meta.detail.radix_tree

/-! ## The match of a label against the input -/

theorem prefix_match_append (l : string) (r : czstring) :
    prefix_match l (l ++ r) = some (some r) := by
  induction l with
  | nil => cases r <;> simp [prefix_match]
  | cons c l ih => simp [prefix_match, ih]

theorem prefix_match_first_ne (l : string) (str : czstring) (hl : l ≠ []) (hs : str ≠ [])
    (h : char_at l 0 ≠ char_at str 0) : prefix_match l str = some none := by
  obtain ⟨c, l, rfl⟩ := List.exists_cons_of_ne_nil hl
  obtain ⟨x, str, rfl⟩ := List.exists_cons_of_ne_nil hs
  simp only [char_at_cons_zero] at h
  simp [prefix_match, h]

/-- A label without NUL matches the array of a string and its terminating NUL exactly when it
is a prefix of the string; no char beyond the array is read. -/
theorem prefix_match_nul_free (l : string) (h0 : (0 : Int) ∉ l) : ∀ s : string,
    prefix_match l (s ++ [0]) =
      if l <+: s then some (some (s.drop l.length ++ [0])) else some none := by
  induction l with
  | nil => intro s; cases s <;> simp [prefix_match]
  | cons c l ih =>
    intro s
    simp only [List.mem_cons, not_or] at h0
    cases s with
    | nil =>
      have : c ≠ 0 := fun e => h0.1 e.symm
      simp [prefix_match, this]
    | cons x s =>
      by_cases hcx : c = x
      · subst hcx
        have := ih h0.2 s
        simp only [List.cons_append, prefix_match, ne_eq, not_true_eq_false, if_false,
          List.prefix_cons_inj, List.length_cons, List.drop_succ_cons]
        exact this
      · have : ¬ (c :: l) <+: (x :: s) := by
          intro h
          rw [List.cons_prefix_cons] at h
          exact hcx h.1
        simp [prefix_match, hcx, this]

/-! ## Exact match -/

theorem visit_children_found (nodes : List node)
    (ih : ∀ c ∈ nodes, ∀ (pfx v : string), v ∈ c.keys → (0 : Int) ∉ v →
      visit_implementation pfx c (v ++ [0]) = some (true, [pfx ++ v]))
    (hw : node.wf_list nodes) (ho : strictly_ordered nodes) (pfx v : string)
    (hv : v ∈ node.keys_list nodes) (h0 : (0 : Int) ∉ v) :
    visit_children pfx nodes (v ++ [0]) = some (true, [pfx ++ v]) := by
  induction nodes with
  | nil => simp [node.keys_list] at hv
  | cons n nodes ihl =>
    rw [strictly_ordered_cons] at ho
    simp only [node.keys_list, List.mem_append] at hv
    by_cases hn : v ∈ n.keys
    · simp [visit_children, ih n (List.mem_cons_self _ _) pfx v hn h0]
    · have hv' : v ∈ node.keys_list nodes := hv.resolve_left hn
      obtain ⟨hne, d, hd, _, e⟩ := node.wf_list_keys_first nodes hw.2 v hv'
      obtain ⟨p, ns, l⟩ := n
      have hlt : char_at p 0 < char_at d.str 0 := ho.1 d hd
      have hp : p ≠ [] := hw.1.1
      have hfirst : char_at p 0 ≠ char_at (v ++ [0]) 0 := by
        rw [char_at_append_left v [0] 0 (List.length_pos.mpr hne)]
        omega
      have hvis : visit_implementation pfx (node.mk p ns l) (v ++ [0]) = some (false, []) := by
        simp [visit_implementation, prefix_match_first_ne p (v ++ [0]) hp (by simp) hfirst]
      have := ihl (fun c hc => ih c (List.mem_cons_of_mem _ hc)) hw.2 ho.2 hv'
      simp [visit_children, hvis, this]

theorem visit_node_found (p : string) (nodes : List node) (l : Bool)
    (ih : ∀ c ∈ nodes, ∀ (pfx v : string), v ∈ c.keys → (0 : Int) ∉ v →
      visit_implementation pfx c (v ++ [0]) = some (true, [pfx ++ v]))
    (hw : node.wf_list nodes) (ho : strictly_ordered nodes) (pfx w : string)
    (hk : w ∈ (node.mk p nodes l).keys) (h0 : (0 : Int) ∉ w) :
    visit_implementation pfx (node.mk p nodes l) (w ++ [0]) = some (true, [pfx ++ w]) := by
  rcases (node.keys_mem p nodes l w).mp hk with ⟨hl, rfl⟩ | ⟨v, hv, rfl⟩
  · subst hl
    simp [visit_implementation, prefix_match_append, string_add_eq]
  · have hne := (node.wf_list_keys_first nodes hw v hv).1
    obtain ⟨y, v, rfl⟩ := List.exists_cons_of_ne_nil hne
    have hy : y ≠ 0 := by
      intro e; apply h0; simp [e]
    have h0v : (0 : Int) ∉ y :: v := by
      intro h; apply h0; simp [List.mem_append, h]
    have := visit_children_found nodes ih hw ho (pfx ++ p) (y :: v) hv h0v
    simp only [List.cons_append] at this
    cases l <;>
      simp [visit_implementation, List.append_assoc, prefix_match_append, string_add_eq, hy,
        this]

/-- Below the root: the exact match of a string without NUL that the node spells succeeds and
calls the function object once, with the accumulated prefix and the string. -/
theorem visit_found (n : node) : n.wf → ∀ (pfx w : string), w ∈ n.keys → (0 : Int) ∉ w →
    visit_implementation pfx n (w ++ [0]) = some (true, [pfx ++ w]) := by
  induction n using node.induct_node with
  | h p nodes l ih =>
    intro hw pfx w hk h0
    exact visit_node_found p nodes l
      (fun c hc pfx v hv hv0 => ih c hc ((node.wf_list_iff nodes).mp hw.2.2.2 c hc) pfx v hv hv0)
      hw.2.2.2 hw.2.2.1 pfx w hk h0

theorem visit_root_found (r : node) (hr : root_wf r) (w : string) (hk : w ∈ r.keys)
    (h0 : (0 : Int) ∉ w) : visit r (w ++ [0]) = some (true, [w]) := by
  obtain ⟨p, nodes, l⟩ := r
  have := visit_node_found p nodes l
    (fun c hc pfx v hv hv0 => visit_found c ((node.wf_list_iff nodes).mp hr.2.2 c hc) pfx v hv hv0)
    hr.2.2 hr.2.1 [] w hk h0
  simpa [visit] using this

theorem visit_children_not_found (nodes : List node) (pfx : string) (str : czstring)
    (h : ∀ c ∈ nodes, visit_implementation pfx c str = some (false, [])) :
    visit_children pfx nodes str = some (false, []) := by
  induction nodes with
  | nil => cases str <;> simp [visit_children]
  | cons n nodes ih =>
    simp [visit_children, h n (List.mem_cons_self _ _),
      ih (fun c hc => h c (List.mem_cons_of_mem _ hc))]

theorem visit_node_not_found (p : string) (nodes : List node) (l : Bool) (hp : (0 : Int) ∉ p)
    (ih : ∀ c ∈ nodes, ∀ (pfx v : string), v ∉ c.keys → (0 : Int) ∉ v →
      visit_implementation pfx c (v ++ [0]) = some (false, []))
    (pfx s : string) (hs : s ∉ (node.mk p nodes l).keys) (h0 : (0 : Int) ∉ s) :
    visit_implementation pfx (node.mk p nodes l) (s ++ [0]) = some (false, []) := by
  rw [node.keys_mem] at hs
  simp only [not_or, not_and, not_exists] at hs
  by_cases hpre : p <+: s
  · obtain ⟨v, rfl⟩ := hpre
    have hv : v ∉ node.keys_list nodes := fun h => hs.2 v h rfl
    cases v with
    | nil =>
      have hl : l = false := by
        cases l
        · rfl
        · exact absurd (by simp) (hs.1 rfl)
      subst hl
      simp [visit_implementation, prefix_match_append]
    | cons y v =>
      have hy : y ≠ 0 := by
        intro e; apply h0; simp [e]
      have h0v : (0 : Int) ∉ y :: v := by
        intro h; apply h0; simp [List.mem_append, h]
      have hc : visit_children (pfx ++ p) nodes (y :: v ++ [0]) = some (false, []) :=
        visit_children_not_found nodes _ _ (fun c hc =>
          ih c hc (pfx ++ p) (y :: v)
            (fun h => hv ((node.keys_list_mem nodes _).mpr ⟨c, hc, h⟩)) h0v)
      simp only [List.cons_append] at hc
      cases l <;>
        simp [visit_implementation, List.append_assoc, prefix_match_append, string_add_eq, hy,
          hc]
  · simp [visit_implementation, prefix_match_nul_free p hp s, hpre]

theorem node.wf_label_nul_free (n : node) (hw : n.wf) (hk : ∀ w ∈ n.keys, (0 : Int) ∉ w) :
    (0 : Int) ∉ n.str := by
  obtain ⟨w, ws, e⟩ := List.exists_cons_of_ne_nil (node.wf_keys_ne_nil n hw)
  obtain ⟨p, nodes, l⟩ := n
  have hw' : w ∈ (node.mk p nodes l).keys := by simp [e]
  obtain ⟨t, rfl⟩ := node.keys_prefix p nodes l w hw'
  intro h
  exact hk _ hw' (by simp [node.str] at h; simp [h])

theorem node.child_keys_nul_free (p : string) (nodes : List node) (l : Bool)
    (hk : ∀ w ∈ (node.mk p nodes l).keys, (0 : Int) ∉ w) :
    ∀ c ∈ nodes, ∀ v ∈ c.keys, (0 : Int) ∉ v := by
  intro c hc v hv h
  have : p ++ v ∈ (node.mk p nodes l).keys :=
    (node.keys_mem _ _ _ _).mpr (Or.inr ⟨v, (node.keys_list_mem _ _).mpr ⟨c, hc, hv⟩, rfl⟩)
  exact hk _ this (by simp [h])

/-- Below the root, in a subtree that spells only strings without NUL: the exact match of a
string without NUL that the node does not spell fails without a call of the function
object. -/
theorem visit_not_found (n : node) : n.wf → (∀ w ∈ n.keys, (0 : Int) ∉ w) →
    ∀ (pfx s : string), s ∉ n.keys → (0 : Int) ∉ s →
    visit_implementation pfx n (s ++ [0]) = some (false, []) := by
  induction n using node.induct_node with
  | h p nodes l ih =>
    intro hw hk pfx s hs h0
    exact visit_node_not_found p nodes l (node.wf_label_nul_free _ hw hk)
      (fun c hc pfx v hv hv0 => ih c hc ((node.wf_list_iff nodes).mp hw.2.2.2 c hc)
        (node.child_keys_nul_free p nodes l hk c hc) pfx v hv hv0) pfx s hs h0

theorem visit_root_not_found (r : node) (hr : root_wf r) (hk : ∀ w ∈ r.keys, (0 : Int) ∉ w)
    (s : string) (hs : s ∉ r.keys) (h0 : (0 : Int) ∉ s) :
    visit r (s ++ [0]) = some (false, []) := by
  obtain ⟨p, nodes, l⟩ := r
  have hp : p = [] := hr.1
  have := visit_node_not_found p nodes l (by simp [hp])
    (fun c hc pfx v hv hv0 => visit_not_found c ((node.wf_list_iff nodes).mp hr.2.2 c hc)
      (node.child_keys_nul_free p nodes l hk c hc) pfx v hv hv0) [] s hs h0
  simpa [visit] using this

end xstd.meta.detail.radix_tree

namespace xstd.meta.detail.radix_tree

/-! ## Longest prefix match -/

theorem traverse_children_result (nodes : List node)
    (ih : ∀ c ∈ nodes, ∀ (pfx s : string),
      longest_prefix_result c.keys pfx s (traverse_implementation pfx c (s ++ [0])))
    (hw : node.wf_list nodes) (ho : strictly_ordered nodes) (pfx s : string) :
    longest_prefix_result (node.keys_list nodes) pfx s
      (traverse_children pfx nodes (s ++ [0])) := by
  induction nodes with
  | nil =>
    left
    exact ⟨by cases s <;> simp [traverse_children], by simp [node.keys_list]⟩
  | cons n nodes ihl =>
    rw [strictly_ordered_cons] at ho
    have hrest := ihl (fun c hc => ih c (List.mem_cons_of_mem _ hc)) hw.2 ho.2
    rcases ih n (List.mem_cons_self _ _) pfx s with ⟨hres, hno⟩ | ⟨w, r, hwk, hs, hlong, hres⟩
    · -- the first child has no match
      rcases hrest with ⟨hres2, hno2⟩ | ⟨w, r, hwk, hs, hlong, hres2⟩
      · left
        refine ⟨by simp [traverse_children, hres, hres2], ?_⟩
        intro v hv
        simp only [node.keys_list, List.mem_append] at hv
        rcases hv with hv | hv
        · exact hno v hv
        · exact hno2 v hv
      · right
        refine ⟨w, r, by simp [node.keys_list, hwk], hs, ?_,
          by simp [traverse_children, hres, hres2]⟩
        intro v hv hpre
        simp only [node.keys_list, List.mem_append] at hv
        rcases hv with hv | hv
        · exact absurd hpre (hno v hv)
        · exact hlong v hv hpre
    · -- the first child has a match: no other child has one
      right
      refine ⟨w, r, by simp [node.keys_list, hwk], hs, ?_, by simp [traverse_children, hres]⟩
      intro v hv hpre
      simp only [node.keys_list, List.mem_append] at hv
      rcases hv with hv | hv
      · exact hlong v hv hpre
      · exfalso
        obtain ⟨hne, d, hd, _, e⟩ := node.wf_list_keys_first nodes hw.2 v hv
        have f := node.keys_first n (node.wf_str n hw.1) w hwk
        have hlt := ho.1 d hd
        have e1 := char_at_of_prefix v s hpre 0 (List.length_pos.mpr hne)
        have e2 := char_at_of_prefix w s ⟨r, hs.symm⟩ 0 (List.length_pos.mpr f.1)
        omega

theorem traverse_node_result (p : string) (nodes : List node) (l : Bool) (hp : (0 : Int) ∉ p)
    (ih : ∀ c ∈ nodes, ∀ (pfx s : string),
      longest_prefix_result c.keys pfx s (traverse_implementation pfx c (s ++ [0])))
    (hw : node.wf_list nodes) (ho : strictly_ordered nodes) (pfx s : string) :
    longest_prefix_result (node.mk p nodes l).keys pfx s
      (traverse_implementation pfx (node.mk p nodes l) (s ++ [0])) := by
  by_cases hpre : p <+: s
  · obtain ⟨t, rfl⟩ := hpre
    have hpm : prefix_match p (p ++ (t ++ [0])) = some (some (t ++ [0])) :=
      prefix_match_append p (t ++ [0])
    rcases traverse_children_result nodes ih hw ho (pfx ++ p) t with
      ⟨hres, hno⟩ | ⟨w, r, hwk, hs, hlong, hres⟩
    · cases l with
      | false =>
        left
        refine ⟨by simp [traverse_implementation, List.append_assoc, hpm, string_add_eq, hres], ?_⟩
        intro v hv hv'
        rcases (node.keys_mem _ _ _ _).mp hv with ⟨h, _⟩ | ⟨u, hu, rfl⟩
        · simp at h
        · exact hno u hu ((List.prefix_append_right_inj p).mp hv')
      | true =>
        right
        refine ⟨p, t, (node.keys_mem _ _ _ _).mpr (Or.inl ⟨rfl, rfl⟩), rfl, ?_,
          by simp [traverse_implementation, List.append_assoc, hpm, string_add_eq, hres]⟩
        intro v hv hv'
        rcases (node.keys_mem _ _ _ _).mp hv with ⟨_, rfl⟩ | ⟨u, hu, rfl⟩
        · exact Nat.le_refl _
        · exact absurd ((List.prefix_append_right_inj p).mp hv') (hno u hu)
    · right
      refine ⟨p ++ w, r, (node.keys_mem _ _ _ _).mpr (Or.inr ⟨w, hwk, rfl⟩),
        by rw [hs, List.append_assoc], ?_, ?_⟩
      · intro v hv hv'
        rcases (node.keys_mem _ _ _ _).mp hv with ⟨_, rfl⟩ | ⟨u, hu, rfl⟩
        · simp
        · have := hlong u hu ((List.prefix_append_right_inj p).mp hv')
          simp only [List.length_append]; omega
      · cases l <;>
          simp [traverse_implementation, List.append_assoc, hpm, string_add_eq, hres]
  · left
    refine ⟨by simp [traverse_implementation, prefix_match_nul_free p hp s, hpre], ?_⟩
    intro v hv hv'
    exact hpre (List.IsPrefix.trans (node.keys_prefix p nodes l v hv) hv')

/-- Below the root, in a subtree that spells only strings without NUL: the traversal reports
the longest string spelled from the node that is a prefix of the input, with the rest of the
input, and reports nothing when there is none. -/
theorem traverse_result (n : node) : n.wf → (∀ w ∈ n.keys, (0 : Int) ∉ w) →
    ∀ (pfx s : string),
      longest_prefix_result n.keys pfx s (traverse_implementation pfx n (s ++ [0])) := by
  induction n using node.induct_node with
  | h p nodes l ih =>
    intro hw hk pfx s
    exact traverse_node_result p nodes l (node.wf_label_nul_free _ hw hk)
      (fun c hc pfx s => ih c hc ((node.wf_list_iff nodes).mp hw.2.2.2 c hc)
        (node.child_keys_nul_free p nodes l hk c hc) pfx s) hw.2.2.2 hw.2.2.1 pfx s

theorem traverse_root_result (r : node) (hr : root_wf r) (hk : ∀ w ∈ r.keys, (0 : Int) ∉ w)
    (s : string) : longest_prefix_result r.keys [] s (traverse r (s ++ [0])) := by
  obtain ⟨p, nodes, l⟩ := r
  have hp : p = [] := hr.1
  exact traverse_node_result p nodes l (by simp [hp])
    (fun c hc pfx s => traverse_result c ((node.wf_list_iff nodes).mp hr.2.2 c hc)
      (node.child_keys_nul_free p nodes l hk c hc) pfx s) hr.2.2 hr.2.1 [] s

end xstd.meta.detail.radix_tree

namespace xstd.meta

open detail.radix_tree (node root_wf first_chars)

/-! ## The properties of the radix tree -/

/-- C1 (round trip), for keys without a NUL char: for every list of keys `K` and every key `k`
of `K` that contains no NUL, the tree of `K` is built, and `visit` on the array of `k` (its
chars and the terminating NUL) returns `true` and calls the function object exactly once, with
exactly `k`. -/
theorem visit_round_trip (K : List string) (k : string) (hk : k ∈ K) (h0 : (0 : Int) ∉ k) :
    ∃ t, radix_tree_from K = some t ∧ visit t (k ++ [0]) = some (true, [k]) := by
  obtain ⟨t, h1, h2, h3⟩ := radix_tree_from_wf K
  exact ⟨t, h1, detail.radix_tree.visit_root_found t.root h2 k ((h3 k).mpr hk) h0⟩

/-- The round trip at the keys "help" and "version" and the query "help". -/
theorem visit_round_trip_witness :
    ∃ t, radix_tree_from [lit "help", lit "version"] = some t ∧
      visit t (lit "help" ++ [0]) = some (true, [lit "help"]) :=
  visit_round_trip [lit "help", lit "version"] (lit "help") (by decide) (by decide)

/-- C1 as stated fails for keys with a NUL char. In the tree of "a" and "a\0b" the match of the
array of "a\0b" stops at the first NUL and calls the function object with "a"; in the tree of
"\0" the match of the array of "\0" returns `false`. -/
theorem visit_round_trip_counterexample :
    (radix_tree_from [[97], [97, 0, 98]] =
        some ⟨.mk [] [.mk [97] [.mk [0, 98] [] true] true] false⟩ ∧
      visit ⟨.mk [] [.mk [97] [.mk [0, 98] [] true] true] false⟩ ([97, 0, 98] ++ [0]) =
        some (true, [[97]])) ∧
    (radix_tree_from [[0]] = some ⟨.mk [] [.mk [0] [] true] false⟩ ∧
      visit ⟨.mk [] [.mk [0] [] true] false⟩ ([0] ++ [0]) = some (false, [])) := by
  refine ⟨⟨rfl, rfl⟩, ⟨rfl, rfl⟩⟩

/-- C2 (exact-match soundness), for strings without a NUL char: for every list of keys `K`
without NUL and every query `q` without NUL that is not an element of `K`, `visit` on the array
of `q` returns `false` and does not call the function object. -/
theorem visit_sound (K : List string) (q : string) (hK : ∀ k ∈ K, (0 : Int) ∉ k)
    (h0 : (0 : Int) ∉ q) (hq : q ∉ K) :
    ∃ t, radix_tree_from K = some t ∧ visit t (q ++ [0]) = some (false, []) := by
  obtain ⟨t, h1, h2, h3⟩ := radix_tree_from_wf K
  exact ⟨t, h1, detail.radix_tree.visit_root_not_found t.root h2
    (fun w hw => hK w ((h3 w).mp hw)) q (fun h => hq ((h3 q).mp h)) h0⟩

/-- The query "hel" is not found among the keys "help" and "version". -/
theorem visit_sound_witness :
    ∃ t, radix_tree_from [lit "help", lit "version"] = some t ∧
      visit t (lit "hel" ++ [0]) = some (false, []) :=
  visit_sound [lit "help", lit "version"] (lit "hel") (by decide) (by decide) (by decide)

/-- C2 as stated fails for strings with a NUL char. In the tree of "a\0" the match of the array
of "a", which is no key, reads one past the end of the array; in the tree of "a" the match of
the array of "a\0b", which is no key, returns `true` and calls the function object. -/
theorem visit_sound_counterexample :
    (radix_tree_from [[97, 0]] = some ⟨.mk [] [.mk [97, 0] [] true] false⟩ ∧
      visit ⟨.mk [] [.mk [97, 0] [] true] false⟩ ([97] ++ [0]) = none) ∧
    (radix_tree_from [[97]] = some ⟨.mk [] [.mk [97] [] true] false⟩ ∧
      visit ⟨.mk [] [.mk [97] [] true] false⟩ ([97, 0, 98] ++ [0]) = some (true, [[97]])) := by
  refine ⟨⟨rfl, rfl⟩, ⟨rfl, rfl⟩⟩

/-- C3 (longest-prefix match), for keys without a NUL char: for every list of keys `K` without
NUL and every query `q` such that some key of `K` is a prefix of `q`, `traverse` on the array
of `q` returns `true` and calls the function object exactly once, with `(p, t)`, where `p` is
a key of `K` and a prefix of `q`, no key of `K` that is a prefix of `q` is longer than `p`, and
`t` is the array of the rest: `q = p ++ r` and `t` is `r` with the terminating NUL. -/
theorem traverse_longest (K : List string) (q : string) (hK : ∀ k ∈ K, (0 : Int) ∉ k)
    (h : ∃ k ∈ K, k <+: q) :
    ∃ t p r, radix_tree_from K = some t ∧
      traverse t (q ++ [0]) = some (true, [(p, r ++ [0])]) ∧
      p ∈ K ∧ q = p ++ r ∧ ∀ k ∈ K, k <+: q → k.length ≤ p.length := by
  obtain ⟨t, h1, h2, h3⟩ := radix_tree_from_wf K
  rcases detail.radix_tree.traverse_root_result t.root h2
      (fun w hw => hK w ((h3 w).mp hw)) q with ⟨_, hno⟩ | ⟨p, r, hp, hq, hlong, hres⟩
  · obtain ⟨k, hk, hpre⟩ := h
    exact absurd hpre (hno k ((h3 k).mpr hk))
  · exact ⟨t, p, r, h1, by simpa using hres, (h3 p).mp hp, hq,
      fun k hk hpre => hlong k ((h3 k).mpr hk) hpre⟩

/-- The query "input-file" among the keys "in" and "input". -/
theorem traverse_longest_witness :
    ∃ t p r, radix_tree_from [lit "in", lit "input"] = some t ∧
      traverse t (lit "input-file" ++ [0]) = some (true, [(p, r ++ [0])]) ∧
      p ∈ [lit "in", lit "input"] ∧ lit "input-file" = p ++ r ∧
      ∀ k ∈ [lit "in", lit "input"], k <+: lit "input-file" → k.length ≤ p.length :=
  traverse_longest [lit "in", lit "input"] (lit "input-file") (by decide)
    ⟨lit "in", by decide, by decide⟩

/-- C3 as stated fails for keys with a NUL char. In the tree of "a" and "a\0" the traversal of
the array of "a" matches the NUL of the key "a\0" against the terminating NUL and calls the
function object with "a\0", which is no prefix of "a", and with the pointer one past the end of
the array as the tail. -/
theorem traverse_longest_counterexample :
    radix_tree_from [[97], [97, 0]] = some ⟨.mk [] [.mk [97] [.mk [0] [] true] true] false⟩ ∧
      traverse ⟨.mk [] [.mk [97] [.mk [0] [] true] true] false⟩ ([97] ++ [0]) =
        some (true, [([97, 0], [])]) ∧
      ¬ ([97, 0] : string) <+: [97] := by
  refine ⟨rfl, rfl, by decide⟩

/-- C4 (prefix-match absence), for keys without a NUL char: for every list of keys `K` without
NUL and every query `q` such that no key of `K` is a prefix of `q`, `traverse` on the array of
`q` returns `false` and does not call the function object. -/
theorem traverse_absent (K : List string) (q : string) (hK : ∀ k ∈ K, (0 : Int) ∉ k)
    (h : ∀ k ∈ K, ¬ k <+: q) :
    ∃ t, radix_tree_from K = some t ∧ traverse t (q ++ [0]) = some (false, []) := by
  obtain ⟨t, h1, h2, h3⟩ := radix_tree_from_wf K
  rcases detail.radix_tree.traverse_root_result t.root h2
      (fun w hw => hK w ((h3 w).mp hw)) q with ⟨hres, _⟩ | ⟨p, r, hp, hq, _, _⟩
  · exact ⟨t, h1, hres⟩
  · exact absurd ⟨r, hq.symm⟩ (h p ((h3 p).mp hp))

/-- The query "xyz" has no prefix among the keys "help" and "version". -/
theorem traverse_absent_witness :
    ∃ t, radix_tree_from [lit "help", lit "version"] = some t ∧
      traverse t (lit "xyz" ++ [0]) = some (false, []) :=
  traverse_absent [lit "help", lit "version"] (lit "xyz") (by decide) (by decide)

/-- C4 as stated fails for keys with a NUL char. In the tree of "a\0" the traversal of the
array of "a", of which no key is a prefix, returns `true` and calls the function object. -/
theorem traverse_absent_counterexample :
    radix_tree_from [[97, 0]] = some ⟨.mk [] [.mk [97, 0] [] true] false⟩ ∧
      (∀ k ∈ [([97, 0] : string)], ¬ k <+: [97]) ∧
      traverse ⟨.mk [] [.mk [97, 0] [] true] false⟩ ([97] ++ [0]) =
        some (true, [([97, 0], [])]) := by
  refine ⟨rfl, by decide, rfl⟩

/-- C5 (stored-key invariant): for every list of keys `K` the tree of `K` is built, the strings
spelled by the paths from the root to the leaf-flagged nodes are pairwise distinct, they are
exactly the keys of `K`, and a node is flagged leaf exactly when the path from the root to it
spells a key of `K`. -/
theorem stored_keys (K : List string) :
    ∃ t, radix_tree_from K = some t ∧ t.root.keys.Nodup ∧ (∀ w, w ∈ t.root.keys ↔ w ∈ K) ∧
      ∀ e ∈ t.root.paths, e.2 = true ↔ e.1 ∈ K := by
  obtain ⟨t, h1, h2, h3⟩ := radix_tree_from_wf K
  refine ⟨t, h1, detail.radix_tree.root_keys_nodup t.root h2, h3, ?_⟩
  intro e he
  constructor
  · intro hl
    have : (e.1, true) ∈ t.root.paths := by rw [← hl]; exact he
    exact (h3 e.1).mp ((node.keys_iff_paths t.root e.1).mpr this)
  · intro hk
    have : (e.1, true) ∈ t.root.paths := (node.keys_iff_paths t.root e.1).mp ((h3 e.1).mpr hk)
    exact detail.radix_tree.root_paths_functional t.root h2 e he (e.1, true) this rfl

/-- C6 (idempotence): for every list of keys `K` and every `k` of `K`, inserting `k` into the
tree of `K` yields the same tree. -/
theorem insert_idempotent (K : List string) (k : string) (hk : k ∈ K) :
    ∃ t, radix_tree_from K = some t ∧ insert [k] t = some t := by
  obtain ⟨t, h1, h2, h3⟩ := radix_tree_from_wf K
  obtain ⟨t', g1, g2, g3⟩ := insert_wf [k] t h2
  have hr : t'.root = t.root := detail.radix_tree.root_unique t'.root t.root g2 h2 (by
    intro w
    rw [g3, List.mem_singleton]
    constructor
    · rintro (rfl | h)
      · exact (h3 w).mpr hk
      · exact h
    · exact Or.inr)
  have ht : t' = t := by
    cases t'; cases t; simpa using hr
  exact ⟨t, h1, by rw [g1, ht]⟩

/-- The key "hel" is inserted again into the tree of "help", "hel" and "version". -/
theorem insert_idempotent_witness :
    ∃ t, radix_tree_from [lit "help", lit "hel", lit "version"] = some t ∧
      insert [lit "hel"] t = some t :=
  insert_idempotent [lit "help", lit "hel", lit "version"] (lit "hel") (by decide)

/-- C7 (order independence): for every list of keys and every permutation of it, inserting the
keys of the list and inserting the keys of the permuted list, both into the empty tree, yield
the same tree. -/
theorem radix_tree_from_perm (K K' : List string) (h : K.Perm K') :
    ∃ t, radix_tree_from K = some t ∧ radix_tree_from K' = some t := by
  obtain ⟨t, h1, h2, h3⟩ := radix_tree_from_wf K
  obtain ⟨t', g1, g2, g3⟩ := radix_tree_from_wf K'
  have hr : t'.root = t.root := detail.radix_tree.root_unique t'.root t.root g2 h2 (by
    intro w
    rw [g3, h3]
    exact (h.mem_iff).symm)
  have ht : t' = t := by
    cases t'; cases t; simpa using hr
  exact ⟨t, h1, by rw [g1, ht]⟩

/-- The keys "help", "helo" and "in" in two orders. -/
theorem radix_tree_from_perm_witness :
    ∃ t, radix_tree_from [lit "help", lit "helo", lit "in"] = some t ∧
      radix_tree_from [lit "in", lit "help", lit "helo"] = some t :=
  radix_tree_from_perm [lit "help", lit "helo", lit "in"] [lit "in", lit "help", lit "helo"]
    (by decide)

/-- C8 (uniqueness invariant): in the tree of every list of keys, at the root and at every node
below it, the first chars of the labels of the children are pairwise distinct. -/
theorem children_first_chars_distinct (K : List string) :
    ∃ t, radix_tree_from K = some t ∧
      ∀ m ∈ t.root :: t.root.descendants,
        (first_chars m.children).Pairwise (fun a b => a ≠ b) := by
  obtain ⟨t, h1, h2, _⟩ := radix_tree_from_wf K
  refine ⟨t, h1, fun m hm => ?_⟩
  exact List.Pairwise.imp (fun h => ne_of_lt h)
    (detail.radix_tree.root_wf_strictly_ordered t.root h2 m hm)

/-- C9 (sorted-children invariant): in the tree of every list of keys, at the root and at every
node below it, the children are in ascending order of the first char of their labels. -/
theorem children_sorted (K : List string) :
    ∃ t, radix_tree_from K = some t ∧
      ∀ m ∈ t.root :: t.root.descendants,
        (first_chars m.children).Pairwise (fun a b => a ≤ b) := by
  obtain ⟨t, h1, h2, _⟩ := radix_tree_from_wf K
  refine ⟨t, h1, fun m hm => ?_⟩
  exact List.Pairwise.imp (fun h => le_of_lt h)
    (detail.radix_tree.root_wf_strictly_ordered t.root h2 m hm)

/-- C10 (maximal compression): in the tree of every list of keys, every node below the root
that is not flagged leaf has at least two children. -/
theorem maximal_compression (K : List string) :
    ∃ t, radix_tree_from K = some t ∧
      ∀ m ∈ t.root.descendants, m.is_leaf = false → 2 ≤ m.children.length := by
  obtain ⟨t, h1, h2, _⟩ := radix_tree_from_wf K
  exact ⟨t, h1, fun m hm hl =>
    node.wf_compressed m (detail.radix_tree.root_wf_descendants t.root h2 m hm) hl⟩

end xstd.meta

namespace xstd.meta.type_list

/-! ## The list algorithms `insert`, `range`, `merge` and `sort` -/

/-- Where the ordered insertion puts the new element: before the first element `e` with
`less x e`, behind all elements when there is none. -/
theorem insert_position {α : Type} (x : α) (less : α → α → Bool) (l : List α) :
    ∃ pre post, l = pre ++ post ∧ insert x less l = pre ++ x :: post ∧
      (∀ e ∈ pre, less x e = false) ∧ (∀ e, post.head? = some e → less x e = true) := by
  induction l with
  | nil => exact ⟨[], [], rfl, rfl, by simp, by simp⟩
  | cons e l ih =>
    by_cases h : less x e = true
    · exact ⟨[], e :: l, rfl, by simp [insert, h], by simp, by simp [h]⟩
    · obtain ⟨pre, post, h1, h2, h3, h4⟩ := ih
      refine ⟨e :: pre, post, by simp [h1], by simp [insert, h, h2], ?_, h4⟩
      intro d hd
      rcases List.mem_cons.mp hd with rfl | hd
      · simpa using h
      · exact h3 d hd

theorem chain_iff_pairwise {α : Type} (less : α → α → Bool)
    (htrans : ∀ a b c, less a b = true → less b c = true → less a c = true) (l : List α) :
    l.Chain' (fun a b => less a b = true) ↔ l.Pairwise (fun a b => less a b = true) := by
  haveI : IsTrans α (fun a b => less a b = true) := ⟨htrans⟩
  exact List.chain'_iff_pairwise

theorem insert_pairwise {α : Type} (x : α) (less : α → α → Bool)
    (htotal : ∀ a b, less a b = true ∨ less b a = true)
    (htrans : ∀ a b c, less a b = true → less b c = true → less a c = true) (l : List α)
    (hl : l.Pairwise (fun a b => less a b = true)) :
    (insert x less l).Pairwise (fun a b => less a b = true) := by
  induction l with
  | nil => simp [insert]
  | cons e l ih =>
    rw [List.pairwise_cons] at hl
    by_cases h : less x e = true
    · simp only [insert, h, if_true]
      refine List.pairwise_cons.mpr ⟨?_, List.pairwise_cons.mpr hl⟩
      intro d hd
      rcases List.mem_cons.mp hd with rfl | hd
      · exact h
      · exact htrans _ _ _ h (hl.1 d hd)
    · simp only [insert, h]
      refine List.pairwise_cons.mpr ⟨?_, ih hl.2⟩
      intro d hd
      rcases (mem_insert x less l d).mp hd with rfl | hd
      · exact (htotal d e).resolve_left h
      · exact hl.1 d hd

theorem pop_back_eq {α : Type} (l : List α) (h : l ≠ []) : pop_back l = some l.dropLast := by
  induction l with
  | nil => exact absurd rfl h
  | cons x l ih =>
    cases l with
    | nil => rfl
    | cons y l => simp [pop_back, ih (by simp)]

theorem trim_front_eq {α : Type} (n : Nat) : ∀ l : List α, n ≤ l.length →
    trim_front n l = some (l.drop n) := by
  induction n with
  | zero => intro l _; rfl
  | succ n ih =>
    intro l h
    cases l with
    | nil => simp at h
    | cons x l =>
      simp only [List.length_cons] at h
      simp [trim_front, h, pop_front, ih l (by omega)]

theorem trim_back_eq {α : Type} (n : Nat) : ∀ l : List α, n ≤ l.length →
    trim_back n l = some (l.take (l.length - n)) := by
  induction n with
  | zero => intro l _; simp [trim_back]
  | succ n ih =>
    intro l h
    have hne : l ≠ [] := by
      intro e; simp [e] at h
    have hlen : l.dropLast.length = l.length - 1 := by simp
    simp only [trim_back, h, if_true, pop_back_eq l hne]
    rw [ih l.dropLast (by omega), hlen, List.dropLast_eq_take, List.take_take]
    congr 2
    omega

/-- The range of a list from `first` to `last`. -/
theorem range_eq {α : Type} (first last : Nat) (l : List α) (h1 : first ≤ last)
    (h2 : last ≤ l.length) : range first last l = some ((l.take last).drop first) := by
  have e : l.length - (l.length - last) = last := by omega
  simp only [range, h1, h2, and_self, if_true, trim_back_eq (l.length - last) l (by omega), e]
  exact trim_front_eq first (l.take last) (by simp; omega)

theorem merge_nil_left {α : Type} (r : List α) (less : α → α → Bool) : merge [] r less = r := rfl

theorem merge_nil_right {α : Type} (l : List α) (less : α → α → Bool) :
    merge l [] less = l := by
  cases l <;> simp [merge, merge_loop]

/-- The recursion of `merge` when no list is empty. -/
theorem merge_cons_cons {α : Type} (x y : α) (l r : List α) (less : α → α → Bool) :
    merge (x :: l) (y :: r) less =
      if less x y then x :: merge l (y :: r) less else y :: merge (x :: l) r less := by
  simp [merge, merge_loop]

theorem merge_perm {α : Type} (less : α → α → Bool) (l : List α) :
    ∀ r : List α, (merge l r less).Perm (l ++ r) := by
  induction l with
  | nil => intro r; simp [merge_nil_left]
  | cons x l ih =>
    intro r
    induction r with
    | nil => simp [merge_nil_right]
    | cons y r ihr =>
      rw [merge_cons_cons]
      split
      · exact List.Perm.cons x (ih (y :: r))
      · exact (List.Perm.cons y ihr).trans (List.perm_middle.symm)

theorem merge_pairwise {α : Type} (less : α → α → Bool)
    (htotal : ∀ a b, less a b = true ∨ less b a = true)
    (htrans : ∀ a b c, less a b = true → less b c = true → less a c = true) (l : List α) :
    ∀ r : List α, l.Pairwise (fun a b => less a b = true) →
      r.Pairwise (fun a b => less a b = true) →
      (merge l r less).Pairwise (fun a b => less a b = true) := by
  induction l with
  | nil => intro r _ hr; simpa [merge_nil_left] using hr
  | cons x l ih =>
    intro r
    induction r with
    | nil => intro hl _; simpa [merge_nil_right] using hl
    | cons y r ihr =>
      intro hl hr
      have hl' := List.pairwise_cons.mp hl
      have hr' := List.pairwise_cons.mp hr
      rw [merge_cons_cons]
      split
      · rename_i hxy
        refine List.pairwise_cons.mpr ⟨?_, ih (y :: r) hl'.2 hr⟩
        intro d hd
        rcases List.mem_append.mp ((merge_perm less l (y :: r)).mem_iff.mp hd) with hd | hd
        · exact hl'.1 d hd
        · rcases List.mem_cons.mp hd with rfl | hd
          · exact hxy
          · exact htrans _ _ _ hxy (hr'.1 d hd)
      · rename_i hxy
        have hyx : less y x = true := (htotal x y).resolve_left hxy
        refine List.pairwise_cons.mpr ⟨?_, ihr hl hr'.2⟩
        intro d hd
        rcases List.mem_append.mp ((merge_perm less (x :: l) r).mem_iff.mp hd) with hd | hd
        · rcases List.mem_cons.mp hd with rfl | hd
          · exact hyx
          · exact htrans _ _ _ hyx (hl'.1 d hd)
        · exact hr'.1 d hd

theorem sort_fuel_spec {α : Type} (less : α → α → Bool)
    (htotal : ∀ a b, less a b = true ∨ less b a = true)
    (htrans : ∀ a b c, less a b = true → less b c = true → less a c = true) (fuel : Nat) :
    ∀ l : List α, l.length ≤ fuel →
      ∃ r, sort_fuel less fuel l = some r ∧ r.Perm l ∧
        r.Pairwise (fun a b => less a b = true) := by
  have small : ∀ l : List α, l.length < 2 → l.Pairwise (fun a b => less a b = true) := by
    intro l hl
    match l, hl with
    | [], _ => simp
    | [_], _ => simp
  induction fuel with
  | zero =>
    intro l hl
    have h2 : l.length < 2 := by omega
    exact ⟨l, by simp [sort_fuel, h2], List.Perm.refl _, small l h2⟩
  | succ fuel ih =>
    intro l hl
    by_cases h2 : l.length < 2
    · exact ⟨l, by simp [sort_fuel, h2], List.Perm.refl _, small l h2⟩
    · have hhalf : l.length / 2 ≤ l.length := Nat.div_le_self _ _
      have hpos : 0 < l.length / 2 := Nat.div_pos (by omega) (by omega)
      have hlt : l.length / 2 < l.length := Nat.div_lt_self (by omega) (by omega)
      have r1 := range_eq 0 (l.length / 2) l (Nat.zero_le _) hhalf
      have r2 := range_eq (l.length / 2) l.length l hhalf (Nat.le_refl _)
      simp only [List.drop_zero, List.take_length] at r1 r2
      obtain ⟨a, ha, pa, sa⟩ := ih (l.take (l.length / 2)) (by simp; omega)
      obtain ⟨b, hb, pb, sb⟩ := ih (l.drop (l.length / 2)) (by simp; omega)
      refine ⟨merge a b less, by simp [sort_fuel, h2, r1, r2, ha, hb], ?_,
        merge_pairwise less htotal htrans a b sa sb⟩
      have := (merge_perm less a b).trans (List.Perm.append pa pb)
      simpa using this

end xstd.meta.type_list

namespace xstd.meta

/-! ## More on the prefix match index and on the match of a label -/

theorem prefix_match_index_le_left (a b : string) : prefix_match_index a b ≤ a.length := by
  obtain ⟨p, a1, b1, ha, _, hi, _⟩ := prefix_match_index_split a b
  rw [hi, ha]; simp

theorem prefix_match_index_le_right (a b : string) : prefix_match_index a b ≤ b.length := by
  obtain ⟨p, a1, b1, _, hb, hi, _⟩ := prefix_match_index_split a b
  rw [hi, hb]; simp

theorem prefix_match_index_take (a b : string) :
    a.take (prefix_match_index a b) = b.take (prefix_match_index a b) := by
  obtain ⟨p, a1, b1, ha, hb, hi, _⟩ := prefix_match_index_split a b
  rw [hi, ha, hb]; simp

theorem prefix_match_index_differ (a b : string) (h1 : prefix_match_index a b < a.length)
    (h2 : prefix_match_index a b < b.length) :
    char_at a (prefix_match_index a b) ≠ char_at b (prefix_match_index a b) := by
  obtain ⟨p, a1, b1, ha, hb, hi, hd⟩ := prefix_match_index_split a b
  rw [hi] at h1 h2 ⊢
  subst ha hb
  simp only [List.length_append] at h1 h2
  have e1 := char_at_append_right p a1 0
  have e2 := char_at_append_right p b1 0
  simp only [Nat.add_zero] at e1 e2
  rw [e1, e2]
  rcases hd with h | h | h
  · simp [h] at h1
  · simp [h] at h2
  · exact h

theorem prefix_match_index_append (p q : string) : prefix_match_index p (p ++ q) = p.length := by
  induction p with
  | nil => exact prefix_match_index_nil_left q
  | cons x p ih => rw [List.cons_append, prefix_match_index_cons_eq, ih]; rfl

/-- A string that matches the whole label is the label followed by its tail. -/
theorem eq_append_tail (p str : string) (h : prefix_match_index p str = p.length) :
    str = p ++ tail p.length str := by
  obtain ⟨c, a1, b1, ha, hb, hi, _⟩ := prefix_match_index_split p str
  have : a1 = [] := by
    have hl : p.length = c.length + a1.length := by rw [ha]; simp
    exact List.length_eq_zero.mp (by omega)
  subst this
  simp only [List.append_nil] at ha
  subst ha
  rw [hb, tail_append]

namespace detail.radix_tree

/-! ## The five cases, at every label and string -/

theorem case_count (i a b : Nat) (hi : i ≤ a) (hb : i ≤ b) (h : b ≠ 0 ∨ a = 0) :
    [!decide (a = 0) && i == 0, i == a && i == b, decide (i < a) && i == b,
      i == a && decide (i < b), decide (i > 0) && decide (i < a) && decide (i < b)].count true
      = 1 := by
  have q1 : (i == a) = decide (i = a) := rfl
  have q2 : (i == b) = decide (i = b) := rfl
  have q3 : (i == 0) = decide (i = 0) := rfl
  have d1 : decide (i < a) = !decide (i = a) := by
    rw [← decide_not]; apply decide_eq_decide.mpr; omega
  have d2 : decide (i < b) = !decide (i = b) := by
    rw [← decide_not]; apply decide_eq_decide.mpr; omega
  have d3 : decide (i > 0) = !decide (i = 0) := by
    rw [← decide_not]; apply decide_eq_decide.mpr; omega
  have d4 : decide (a = 0) = (decide (i = 0) && decide (i = a)) := by
    rw [← Bool.decide_and]; apply decide_eq_decide.mpr; omega
  rw [q1, q2, q3, d1, d2, d3, d4]
  by_cases h1 : i = a <;> by_cases h2 : i = b <;> by_cases h3 : i = 0
  all_goals
    first
      | (exfalso; omega)
      | (rw [show decide (i = a) = true from decide_eq_true h1,
            show decide (i = b) = true from decide_eq_true h2,
            show decide (i = 0) = true from decide_eq_true h3]; rfl)
      | (rw [show decide (i = a) = true from decide_eq_true h1,
            show decide (i = b) = true from decide_eq_true h2,
            show decide (i = 0) = false from decide_eq_false h3]; rfl)
      | (rw [show decide (i = a) = true from decide_eq_true h1,
            show decide (i = b) = false from decide_eq_false h2,
            show decide (i = 0) = true from decide_eq_true h3]; rfl)
      | (rw [show decide (i = a) = true from decide_eq_true h1,
            show decide (i = b) = false from decide_eq_false h2,
            show decide (i = 0) = false from decide_eq_false h3]; rfl)
      | (rw [show decide (i = a) = false from decide_eq_false h1,
            show decide (i = b) = true from decide_eq_true h2,
            show decide (i = 0) = false from decide_eq_false h3]; rfl)
      | (rw [show decide (i = a) = false from decide_eq_false h1,
            show decide (i = b) = false from decide_eq_false h2,
            show decide (i = 0) = true from decide_eq_true h3]; rfl)
      | (rw [show decide (i = a) = false from decide_eq_false h1,
            show decide (i = b) = false from decide_eq_false h2,
            show decide (i = 0) = false from decide_eq_false h3]; rfl)

/-- Insertion of a non-empty string compiles at every node. -/
theorem basic_insert_total (n : node) : ∀ q : string, q ≠ [] →
    ∃ n', basic_insert q n = some n' := by
  induction n using node.induct_node with
  | h p nodes l ih =>
    intro q hq
    obtain ⟨c, a1, b1, ha, hb, hi, hd⟩ := prefix_match_index_split p q
    subst ha hb
    rw [basic_insert_eq, hi]
    rcases a1 with _ | ⟨x, a1⟩
    · rcases b1 with _ | ⟨y, b1⟩
      · exact ⟨_, basic_insert_implementation_full_match _ _ _ _ (by simp [node.str])
          (by simp)⟩
      · rw [basic_insert_implementation_node_match _ _ _ _ (by simp [node.str]) (by simp)]
        simp only [node.children, tail_append]
        by_cases hm : match_exists (y :: b1) nodes = true
        · have hne : nodes ≠ [] := by
            intro e; simp [e, match_exists] at hm
          have G : ∀ d ∈ nodes, basic_insert (y :: b1) d =
              some ((basic_insert (y :: b1) d).getD d) := by
            intro d hd'
            obtain ⟨d', h1⟩ := ih d hd' (y :: b1) (by simp)
            simp [h1]
          exact ⟨_, by simp [node_match, hm, basic_insert_transform_eq _ _ nodes hne G]; rfl⟩
        · exact ⟨_, by simp [node_match, hm]; rfl⟩
    · have hc0 : c ≠ [] ∨ c = [] := (em (c = [])).symm
      rcases b1 with _ | ⟨y, b1⟩
      · have hc : 0 < c.length := List.length_pos.mpr (by simpa using hq)
        exact ⟨_, basic_insert_implementation_string_match _ _ _ _ hc (by simp [node.str])
          (by simp)⟩
      · rcases hc0 with hc | hc
        · exact ⟨_, basic_insert_implementation_partial_match _ _ _ _
            (List.length_pos.mpr hc) (by simp [node.str]) (by simp)⟩
        · subst hc
          exact ⟨_, basic_insert_implementation_no_match _ _ _ _ (by simp [node.str]) rfl
            (by simp)⟩

/-! ## The height of a tree -/

theorem node.height_list_le (nodes : List node) (b : Nat)
    (h : ∀ c ∈ nodes, c.height + 1 ≤ b) : node.height_list nodes ≤ b := by
  induction nodes with
  | nil => simp [node.height_list]
  | cons n nodes ih =>
    have h1 := h n (List.mem_cons_self _ _)
    have h2 := ih (fun c hc => h c (List.mem_cons_of_mem _ hc))
    simp only [node.height_list]
    exact max_le h1 h2

theorem node.height_le_height_list (nodes : List node) (c : node) (hc : c ∈ nodes) :
    c.height + 1 ≤ node.height_list nodes := by
  induction nodes with
  | nil => cases hc
  | cons n nodes ih =>
    simp only [node.height_list]
    rcases List.mem_cons.mp hc with rfl | hc
    · exact le_max_left _ _
    · exact le_trans (ih hc) (le_max_right _ _)

/-- Below the root a path of the subtree of a node, the node included, has at most as many
nodes as the longest string spelled from the node has chars. -/
theorem node.height_le (n : node) : n.wf → ∀ m : Nat, (∀ w ∈ n.keys, w.length ≤ m) →
    n.height + 1 ≤ m := by
  induction n using node.induct_node with
  | h p nodes l ih =>
    intro hw m hm
    have hp : 0 < p.length := List.length_pos.mpr hw.1
    have hc := (node.wf_list_iff nodes).mp hw.2.2.2
    obtain ⟨w, ws, e⟩ := List.exists_cons_of_ne_nil (node.wf_keys_ne_nil _ hw)
    have hwk : w ∈ (node.mk p nodes l).keys := by simp [e]
    obtain ⟨t, rfl⟩ := node.keys_prefix p nodes l w hwk
    have hpm := hm _ hwk
    simp only [List.length_append] at hpm
    have := node.height_list_le nodes (m - p.length) (by
      intro c hcm
      apply ih c hcm (hc c hcm)
      intro v hv
      have hv' : p ++ v ∈ (node.mk p nodes l).keys :=
        (node.keys_mem _ _ _ _).mpr (Or.inr ⟨v, (node.keys_list_mem _ _).mpr ⟨c, hcm, hv⟩, rfl⟩)
      have := hm _ hv'
      simp only [List.length_append] at this
      omega)
    simp only [node.height]
    omega

theorem root_height_le (r : node) (hr : root_wf r) (m : Nat) (hm : ∀ w ∈ r.keys, w.length ≤ m) :
    r.height ≤ m := by
  obtain ⟨p, nodes, l⟩ := r
  have hp : p = [] := hr.1
  subst hp
  have hc := (node.wf_list_iff nodes).mp hr.2.2
  exact node.height_list_le nodes m (fun c hcm => node.height_le c (hc c hcm) m (by
    intro v hv
    have hv' : [] ++ v ∈ (node.mk [] nodes l).keys :=
      (node.keys_mem _ _ _ _).mpr (Or.inr ⟨v, (node.keys_list_mem _ _).mpr ⟨c, hcm, hv⟩, rfl⟩)
    simpa using hm _ hv'))

/-! ## The depth of the recursions -/

theorem visit_children_depth_le (nodes : List node)
    (ih : ∀ c ∈ nodes, ∀ (pfx : string) (str : czstring), visit_depth pfx c str ≤ c.height + 1)
    (pfx : string) (t : czstring) :
    visit_children_depth pfx nodes t ≤ node.height_list nodes := by
  induction nodes with
  | nil => cases t <;> simp [visit_children_depth]
  | cons n nodes ihl =>
    have h1 := ih n (List.mem_cons_self _ _) pfx t
    have h2 := ihl (fun c hc => ih c (List.mem_cons_of_mem _ hc))
    simp only [visit_children_depth, node.height_list]
    split
    · exact max_le_max h1 h2
    · exact le_trans h1 (le_max_left _ _)

/-- The recursion of `visit_implementation` at a node is at most one deeper than the height of
the node. -/
theorem visit_depth_le (n : node) : ∀ (pfx : string) (str : czstring),
    visit_depth pfx n str ≤ n.height + 1 := by
  induction n using node.induct_node with
  | h p nodes l ih =>
    intro pfx str
    simp only [visit_depth, node.height]
    split
    · rename_i c t _
      have := visit_children_depth_le nodes ih (string_add pfx p) (c :: t)
      split
      · omega
      · omega
    · omega

theorem traverse_children_depth_le (nodes : List node)
    (ih : ∀ c ∈ nodes, ∀ (pfx : string) (str : czstring),
      traverse_depth pfx c str ≤ c.height + 1)
    (pfx : string) (t : czstring) :
    traverse_children_depth pfx nodes t ≤ node.height_list nodes := by
  induction nodes with
  | nil => cases t <;> simp [traverse_children_depth]
  | cons n nodes ihl =>
    have h1 := ih n (List.mem_cons_self _ _) pfx t
    have h2 := ihl (fun c hc => ih c (List.mem_cons_of_mem _ hc))
    simp only [traverse_children_depth, node.height_list]
    split
    · exact max_le_max h1 h2
    · exact le_trans h1 (le_max_left _ _)

/-- The recursion of `traverse_implementation` at a node is at most one deeper than the height
of the node. -/
theorem traverse_depth_le (n : node) : ∀ (pfx : string) (str : czstring),
    traverse_depth pfx n str ≤ n.height + 1 := by
  induction n using node.induct_node with
  | h p nodes l ih =>
    intro pfx str
    simp only [traverse_depth, node.height]
    split
    · rename_i t _
      have := traverse_children_depth_le nodes ih (string_add pfx p) t
      omega
    · omega

theorem basic_insert_transform_depth_le (nodes : List node) (q : string)
    (ih : ∀ c ∈ nodes, ∀ str : string, basic_insert_depth str c ≤ c.height + 1) :
    basic_insert_transform_depth q nodes ≤ node.height_list nodes := by
  induction nodes with
  | nil => simp [basic_insert_transform_depth]
  | cons n nodes ihl =>
    have h1 := ih n (List.mem_cons_self _ _) q
    have h2 := ihl (fun c hc => ih c (List.mem_cons_of_mem _ hc))
    simp only [basic_insert_transform_depth, node.height_list]
    exact max_le_max h1 h2

/-- The recursion of `basic_insert` at a node is at most one deeper than the height of the
node. -/
theorem basic_insert_depth_le (n : node) : ∀ str : string,
    basic_insert_depth str n ≤ n.height + 1 := by
  induction n using node.induct_node with
  | h p nodes l ih =>
    intro str
    simp only [basic_insert_depth, node.height]
    split
    · have := basic_insert_transform_depth_le nodes (tail (prefix_match_index p str) str) ih
      omega
    · omega

end detail.radix_tree

end xstd.meta

namespace xstd.meta

open detail.radix_tree (node root_wf first_chars)

/-- C11 (root invariant): in the tree of every list of keys `K` the label of the root is empty,
the root is flagged leaf exactly when the empty key is in `K`, and the insertion of the empty
key returns the tree with the same label and the same children and with the leaf flag of the
root set. -/
theorem root_invariant (K : List string) :
    ∃ t, radix_tree_from K = some t ∧ t.root.str = [] ∧ (t.root.is_leaf = true ↔ [] ∈ K) ∧
      insert [[]] t = some ⟨.mk [] t.root.children true⟩ := by
  obtain ⟨t, h1, h2, h3⟩ := radix_tree_from_wf K
  obtain ⟨⟨p, nodes, l⟩⟩ := t
  have hp : p = [] := h2.1
  subst hp
  refine ⟨_, h1, rfl, ?_, ?_⟩
  · rw [← h3, node.keys_mem]
    simp only [node.is_leaf]
    constructor
    · intro hl
      exact Or.inl ⟨hl, trivial⟩
    · rintro (⟨hl, _⟩ | ⟨v, hv, e⟩)
      · exact hl
      · exact absurd (by simpa using e.symm)
          (detail.radix_tree.node.wf_list_keys_first nodes h2.2.2 v hv).1
  · have : detail.radix_tree.basic_insert [] (node.mk [] nodes l) =
        some (node.mk [] nodes true) := by
      rw [detail.radix_tree.basic_insert_eq, prefix_match_index_nil_left,
        detail.radix_tree.basic_insert_implementation_full_match _ _ _ _
          (by simp [node.str]) (by simp)]
      rfl
    simp [insert, detail.radix_tree.insert, detail.radix_tree.insert_implementation, this,
      node.children]

/-- C12 (case exclusivity), for a non-empty string or an empty label: for every node with label
`L` and every string `S` such that `S` is not empty or `L` is empty, exactly one of the five
requires-clauses (no match, full match, string match, node match, partial match) holds at the
prefix match index of `L` and `S`. -/
theorem insertion_case_exclusive (S : string) (root : node) (h : S ≠ [] ∨ root.str = []) :
    [detail.radix_tree.no_match S (prefix_match_index root.str S) root,
      detail.radix_tree.full_match S (prefix_match_index root.str S) root,
      detail.radix_tree.string_match S (prefix_match_index root.str S) root,
      detail.radix_tree.node_matched S (prefix_match_index root.str S) root,
      detail.radix_tree.partial_match S (prefix_match_index root.str S) root].count true = 1 := by
  have := detail.radix_tree.case_count (prefix_match_index root.str S) root.str.length S.length
    (prefix_match_index_le_left _ _) (prefix_match_index_le_right _ _) (by
      rcases h with h | h
      · exact Or.inl (fun e => h (List.length_eq_zero.mp e))
      · exact Or.inr (by rw [h]; rfl))
  simpa only [detail.radix_tree.no_match, detail.radix_tree.full_match,
    detail.radix_tree.string_match, detail.radix_tree.node_matched,
    detail.radix_tree.partial_match, detail.radix_tree.isEmpty_eq_decide] using this

/-- The five conditions at the label "ver" and the string "version". -/
theorem insertion_case_exclusive_witness :
    [detail.radix_tree.no_match (lit "version")
        (prefix_match_index (node.mk (lit "ver") [] true).str (lit "version"))
        (node.mk (lit "ver") [] true),
      detail.radix_tree.full_match (lit "version")
        (prefix_match_index (node.mk (lit "ver") [] true).str (lit "version"))
        (node.mk (lit "ver") [] true),
      detail.radix_tree.string_match (lit "version")
        (prefix_match_index (node.mk (lit "ver") [] true).str (lit "version"))
        (node.mk (lit "ver") [] true),
      detail.radix_tree.node_matched (lit "version")
        (prefix_match_index (node.mk (lit "ver") [] true).str (lit "version"))
        (node.mk (lit "ver") [] true),
      detail.radix_tree.partial_match (lit "version")
        (prefix_match_index (node.mk (lit "ver") [] true).str (lit "version"))
        (node.mk (lit "ver") [] true)].count true = 1 :=
  insertion_case_exclusive (lit "version") (node.mk (lit "ver") [] true) (Or.inl (by decide))

/-- C12 as stated fails for the empty string at a non-empty label: at the label "a" the prefix
match index is zero, the requires-clauses of "No Match" and of "String Match" both hold, and
the call of `basic_insert` is ambiguous. -/
theorem insertion_case_exclusive_counterexample :
    prefix_match_index [97] [] = 0 ∧
      detail.radix_tree.no_match [] 0 (node.mk [97] [] false) = true ∧
      detail.radix_tree.string_match [] 0 (node.mk [97] [] false) = true ∧
      detail.radix_tree.basic_insert [] (node.mk [97] [] false) = none := ⟨rfl, rfl, rfl, rfl⟩

/-- C13 (`prefix_match_index`): for all strings `a` and `b` the result is at most the length of
each, `a` and `b` agree on that many chars, they agree on no longer prefix, they differ at that
index when both are longer, and the result is the length of the shorter string when it is a
prefix of the other one. -/
theorem prefix_match_index_longest (a b : string) :
    prefix_match_index a b ≤ min a.length b.length ∧
      a.take (prefix_match_index a b) = b.take (prefix_match_index a b) ∧
      (∀ j, j ≤ min a.length b.length → a.take j = b.take j → j ≤ prefix_match_index a b) ∧
      (prefix_match_index a b < min a.length b.length →
        char_at a (prefix_match_index a b) ≠ char_at b (prefix_match_index a b)) ∧
      (a <+: b → prefix_match_index a b = a.length) ∧
      (b <+: a → prefix_match_index a b = b.length) := by
  have hl := prefix_match_index_le_left a b
  have hr := prefix_match_index_le_right a b
  have hlong : ∀ j, j ≤ min a.length b.length → a.take j = b.take j →
      j ≤ prefix_match_index a b := by
    intro j hj he
    by_contra hlt
    have hi : prefix_match_index a b < j := Nat.lt_of_not_le hlt
    have hja : j ≤ a.length := le_trans hj (min_le_left _ _)
    have hjb : j ≤ b.length := le_trans hj (min_le_right _ _)
    have ea := detail.radix_tree.char_at_of_prefix (a.take j) a (List.take_prefix j a)
      (prefix_match_index a b) (by simp; omega)
    have eb := detail.radix_tree.char_at_of_prefix (b.take j) b (List.take_prefix j b)
      (prefix_match_index a b) (by simp; omega)
    rw [he] at ea
    exact prefix_match_index_differ a b (by omega) (by omega) (ea.symm.trans eb)
  refine ⟨le_min hl hr, prefix_match_index_take a b, hlong, ?_, ?_, ?_⟩
  · intro h
    exact prefix_match_index_differ a b (lt_of_lt_of_le h (min_le_left _ _))
      (lt_of_lt_of_le h (min_le_right _ _))
  · intro h
    have := hlong a.length (le_min (Nat.le_refl _) h.length_le) (by
      obtain ⟨t, rfl⟩ := h
      simp)
    omega
  · intro h
    have := hlong b.length (le_min h.length_le (Nat.le_refl _)) (by
      obtain ⟨t, rfl⟩ := h
      simp)
    omega

/-- C14 (`prefix_match`), for a label without a NUL char: for every such label and every input
`s`, run on the array of `s` and its terminating NUL, the result is the array of the tail `t`
exactly when `s` is the label followed by `t`, and it is `nullptr` exactly when the label is no
prefix of `s`. -/
theorem prefix_match_literal (label s : string) (h0 : (0 : Int) ∉ label) :
    (∀ t : string, detail.radix_tree.prefix_match label (s ++ [0]) = some (some (t ++ [0])) ↔
        s = label ++ t) ∧
      (detail.radix_tree.prefix_match label (s ++ [0]) = some none ↔ ¬ label <+: s) := by
  rw [detail.radix_tree.prefix_match_nul_free label h0 s]
  by_cases hp : label <+: s
  · obtain ⟨r, rfl⟩ := hp
    simp [List.prefix_append]
  · simp only [hp, if_false, not_false_eq_true, iff_true, and_true]
    intro t
    constructor
    · intro h; simp at h
    · rintro rfl
      exact absurd (List.prefix_append _ _) hp

/-- The label "--" and the input "--help". -/
theorem prefix_match_literal_witness :
    (∀ t : string,
        detail.radix_tree.prefix_match (lit "--") (lit "--help" ++ [0]) = some (some (t ++ [0])) ↔
          lit "--help" = lit "--" ++ t) ∧
      (detail.radix_tree.prefix_match (lit "--") (lit "--help" ++ [0]) = some none ↔
        ¬ lit "--" <+: lit "--help") :=
  prefix_match_literal (lit "--") (lit "--help") (by decide)

/-- C14 as stated fails for a label with a NUL char: the label "a\0" is no prefix of the input
"a", but its NUL matches the terminating NUL of the input and the result is the pointer one
past the end of the array, not `nullptr`; the match of the label "a\0b" goes on and reads one
past the end of the array. -/
theorem prefix_match_literal_counterexample :
    detail.radix_tree.prefix_match [97, 0] ([97] ++ [0]) = some (some []) ∧
      ¬ ([97, 0] : string) <+: [97] ∧
      detail.radix_tree.prefix_match [97, 0, 98] ([97] ++ [0]) = none :=
  ⟨rfl, by decide, rfl⟩

/-- C15 (depth bound): for every list of keys `K` whose keys have at most `m` chars, a path
from the root of the tree of `K` has at most `m` nodes below the root, and the recursions of
`visit`, of `traverse` and of the insertion of a string on the tree are at most `m + 1` calls
deep. -/
theorem depth_bound (K : List string) (m : Nat) (hm : ∀ k ∈ K, k.length ≤ m) :
    ∃ t, radix_tree_from K = some t ∧ t.root.height ≤ m ∧
      (∀ str, detail.radix_tree.visit_depth [] t.root str ≤ m + 1) ∧
      (∀ str, detail.radix_tree.traverse_depth [] t.root str ≤ m + 1) ∧
      (∀ key, detail.radix_tree.basic_insert_depth key t.root ≤ m + 1) := by
  obtain ⟨t, h1, h2, h3⟩ := radix_tree_from_wf K
  have hh := detail.radix_tree.root_height_le t.root h2 m (fun w hw => hm w ((h3 w).mp hw))
  refine ⟨t, h1, hh, fun str => ?_, fun str => ?_, fun key => ?_⟩
  · have := detail.radix_tree.visit_depth_le t.root [] str
    omega
  · have := detail.radix_tree.traverse_depth_le t.root [] str
    omega
  · have := detail.radix_tree.basic_insert_depth_le t.root key
    omega

/-- The keys "help", "hel" and "he" have at most four chars. -/
theorem depth_bound_witness :
    ∃ t, radix_tree_from [lit "help", lit "hel", lit "he"] = some t ∧ t.root.height ≤ 4 ∧
      (∀ str, detail.radix_tree.visit_depth [] t.root str ≤ 4 + 1) ∧
      (∀ str, detail.radix_tree.traverse_depth [] t.root str ≤ 4 + 1) ∧
      (∀ key, detail.radix_tree.basic_insert_depth key t.root ≤ 4 + 1) :=
  depth_bound [lit "help", lit "hel", lit "he"] 4 (by decide)

/-- C16 (single-path frame): in the case "Node Match" (the prefix match index is the length of
the label and the string is longer), at a node whose children have non-empty labels with
pairwise distinct first chars, one of which is the first char of the tail: the insertion into
the matching child compiles, and the insertion into the node returns the node with the same
label, the same leaf flag and the same children in the same order, except that the matching
child is replaced by the result of the insertion of the tail into it. -/
theorem single_path_frame (p str : string) (pre post : List node) (c : node) (l : Bool)
    (hnode : prefix_match_index p str = p.length) (hlt : p.length < str.length)
    (hne : ∀ d ∈ pre ++ c :: post, d.str ≠ [])
    (hdis : (first_chars (pre ++ c :: post)).Pairwise (fun a b => a ≠ b))
    (hc : char_at c.str 0 = char_at (tail p.length str) 0) :
    ∃ c', detail.radix_tree.basic_insert (tail p.length str) c = some c' ∧
      detail.radix_tree.basic_insert str (.mk p (pre ++ c :: post) l) =
        some (.mk p (pre ++ c' :: post) l) := by
  have hstr := eq_append_tail p str hnode
  have hq : tail p.length str ≠ [] := by
    intro e
    rw [e, List.append_nil] at hstr
    rw [← hstr] at hlt
    exact Nat.lt_irrefl _ hlt
  generalize tail p.length str = q at hstr hq hc
  subst hstr
  obtain ⟨c', hc'⟩ := detail.radix_tree.basic_insert_total c q hq
  refine ⟨c', hc', ?_⟩
  -- the children other than `c` start with another char
  simp only [first_chars, List.map_append, List.map_cons, List.pairwise_append,
    List.pairwise_cons, List.mem_map, List.mem_cons, forall_exists_index, and_imp,
    forall_apply_eq_imp_iff₂, forall_eq_or_imp] at hdis
  have hpre : ∀ d ∈ pre, detail.radix_tree.basic_insert q d = some d := by
    intro d hd
    apply detail.radix_tree.basic_insert_no_match q d (hne d (by simp [hd])) hq
    rw [← hc]
    exact fun e => (hdis.2.2 d hd).1 e.symm
  have hpost : ∀ d ∈ post, detail.radix_tree.basic_insert q d = some d := by
    intro d hd
    apply detail.radix_tree.basic_insert_no_match q d (hne d (by simp [hd])) hq
    rw [← hc]
    exact hdis.2.1.1 d hd
  have hm : detail.radix_tree.match_exists q (pre ++ c :: post) = true := by
    rw [detail.radix_tree.match_exists_iff, detail.radix_tree.first_chars_mem]
    exact ⟨c, by simp, hc⟩
  have G : ∀ d ∈ pre ++ c :: post, detail.radix_tree.basic_insert q d =
      some ((detail.radix_tree.basic_insert q d).getD d) := by
    intro d hd
    rcases List.mem_append.mp hd with hd | hd
    · simp [hpre d hd]
    · rcases List.mem_cons.mp hd with rfl | hd
      · simp [hc']
      · simp [hpost d hd]
  have hmap : (pre ++ c :: post).map (fun d => (detail.radix_tree.basic_insert q d).getD d) =
      pre ++ c' :: post := by
    rw [List.map_append, List.map_cons, hc']
    congr 1
    · conv_rhs => rw [← List.map_id pre]
      exact List.map_congr_left (fun d hd => by simp [hpre d hd])
    · congr 1
      conv_rhs => rw [← List.map_id post]
      exact List.map_congr_left (fun d hd => by simp [hpost d hd])
  rw [detail.radix_tree.basic_insert_eq, prefix_match_index_append,
    detail.radix_tree.basic_insert_implementation_node_match _ _ _ _ (by simp [node.str])
      (by simp; exact List.length_pos.mpr hq)]
  simp only [node.children, tail_append]
  simp [detail.radix_tree.node_match, hm,
    detail.radix_tree.basic_insert_transform_eq q _ (pre ++ c :: post) (by simp) G, hmap,
    detail.radix_tree.node_from, node.str, node.is_leaf]

/-- The string "help" at the root with the children "hel" and "version". -/
theorem single_path_frame_witness :
    ∃ c', detail.radix_tree.basic_insert (tail (lit "").length (lit "help"))
        (node.mk (lit "hel") [] true) = some c' ∧
      detail.radix_tree.basic_insert (lit "help")
          (.mk (lit "") ([] ++ node.mk (lit "hel") [] true :: [node.mk (lit "version") [] true])
            false) =
        some (.mk (lit "") ([] ++ c' :: [node.mk (lit "version") [] true]) false) :=
  single_path_frame (lit "") (lit "help") [] [node.mk (lit "version") [] true]
    (node.mk (lit "hel") [] true) false (by decide) (by decide) (by decide) (by decide)
    (by decide)

/-- C17 (empty tree): the insertion of no string returns the root as it is, and the tree built
from no keys is the default tree, the single root with the empty label, no children and the
leaf flag `false`. -/
theorem empty_tree :
    (∀ root : node, detail.radix_tree.insert [] root = some root) ∧
      radix_tree_from [] = some radix_tree.empty ∧
      radix_tree.empty.root = node.mk [] [] false :=
  ⟨fun _ => rfl, rfl, rfl⟩

/-- C18 (static string slicing): for every string `s`, `substring<offset, size>(s)` with
`offset + size <= |s|` has `size` chars and its `i`-th char is `s[offset + i]`; for `n <= |s|`,
`prefix<n>(s)` is the first `n` chars of `s`, `suffix<n>(s)` is the last `n` chars of `s` and
`tail<n>(s)` is `s` without its first `n` chars. -/
theorem string_slicing (s : string) (offset size n : Nat) (h1 : offset + size ≤ s.length)
    (h2 : n ≤ s.length) :
    (substring offset size s).length = size ∧
      (∀ i, i < size → char_at (substring offset size s) i = char_at s (offset + i)) ∧
      substring offset size s = (s.drop offset).take size ∧
      prefix_of n s = s.take n ∧ suffix n s = s.drop (s.length - n) ∧ tail n s = s.drop n := by
  refine ⟨by simp [substring], ?_, substring_eq offset size s h1, prefix_of_eq n s h2, ?_,
    tail_eq n s h2⟩
  · intro i hi
    simp only [substring, char_at]
    rw [List.getD_eq_getElem?_getD, List.getElem?_eq_getElem (by simpa using hi)]
    simp
  · rw [suffix, substring_eq _ _ _ (by omega), List.take_of_length_le (by simp; omega)]

/-- The slices of the tests: `substring<2, 4>`, `prefix<2>`, `suffix<2>` and `tail<2>` of
"--help". -/
theorem string_slicing_witness :
    (substring 2 4 (lit "--help")).length = 4 ∧
      (∀ i, i < 4 → char_at (substring 2 4 (lit "--help")) i = char_at (lit "--help") (2 + i)) ∧
      substring 2 4 (lit "--help") = ((lit "--help").drop 2).take 4 ∧
      prefix_of 2 (lit "--help") = (lit "--help").take 2 ∧
      suffix 2 (lit "--help") = (lit "--help").drop ((lit "--help").length - 2) ∧
      tail 2 (lit "--help") = (lit "--help").drop 2 :=
  string_slicing (lit "--help") 2 4 2 (by decide) (by decide)

/-- C19 (ordered insert into a list): `insert<x>(list, less)` puts `x` immediately before the
first element `e` of the list with `less(x, e)`, at the end when there is none, and keeps the
other elements and their order; when `less` is total and transitive and every adjacent pair of
the list satisfies `less`, the same holds for the result, which has one more element. -/
theorem insert_ordered {α : Type} (x : α) (less : α → α → Bool) (l : List α) :
    (∃ pre post, l = pre ++ post ∧ type_list.insert x less l = pre ++ x :: post ∧
        (∀ e ∈ pre, less x e = false) ∧ (∀ e, post.head? = some e → less x e = true)) ∧
      ((∀ a b, less a b = true ∨ less b a = true) →
        (∀ a b c, less a b = true → less b c = true → less a c = true) →
        l.Chain' (fun a b => less a b = true) →
        (type_list.insert x less l).Chain' (fun a b => less a b = true) ∧
          (type_list.insert x less l).length = l.length + 1) := by
  refine ⟨type_list.insert_position x less l, fun htotal htrans hl => ⟨?_, ?_⟩⟩
  · rw [type_list.chain_iff_pairwise less htrans] at hl ⊢
    exact type_list.insert_pairwise x less htotal htrans l hl
  · exact type_list.length_insert x less l

/-- C20 (list sort): for every list and every total and transitive predicate `less`,
`sort(list, less)` is a permutation of the list in which every adjacent pair satisfies `less`;
and `merge` of two lists in which every adjacent pair satisfies `less` is a permutation of
their concatenation in which every adjacent pair satisfies `less`. -/
theorem sort_sorted_perm {α : Type} (less : α → α → Bool)
    (htotal : ∀ a b, less a b = true ∨ less b a = true)
    (htrans : ∀ a b c, less a b = true → less b c = true → less a c = true)
    (list left right : List α) (hl : left.Chain' (fun a b => less a b = true))
    (hr : right.Chain' (fun a b => less a b = true)) :
    (∃ r, type_list.sort list less = some r ∧ r.Perm list ∧
        r.Chain' (fun a b => less a b = true)) ∧
      (type_list.merge left right less).Perm (left ++ right) ∧
      (type_list.merge left right less).Chain' (fun a b => less a b = true) := by
  rw [type_list.chain_iff_pairwise less htrans] at hl hr
  obtain ⟨r, h1, h2, h3⟩ := type_list.sort_fuel_spec less htotal htrans list.length list
    (Nat.le_refl _)
  refine ⟨⟨r, h1, h2, ?_⟩, type_list.merge_perm less left right, ?_⟩
  · rw [type_list.chain_iff_pairwise less htrans]; exact h3
  · rw [type_list.chain_iff_pairwise less htrans]
    exact type_list.merge_pairwise less htotal htrans left right hl hr

/-- Sizes compared by `<=`: the list of the sizes 2, 4, 1, 4 is sorted, and the sorted lists
1, 4 and 2, 8 are merged. -/
theorem sort_sorted_perm_witness :
    (∃ r, type_list.sort [2, 4, 1, 4] (fun a b : Nat => decide (a ≤ b)) = some r ∧
        r.Perm [2, 4, 1, 4] ∧ r.Chain' (fun a b => decide (a ≤ b) = true)) ∧
      (type_list.merge [1, 4] [2, 8] (fun a b : Nat => decide (a ≤ b))).Perm ([1, 4] ++ [2, 8]) ∧
      (type_list.merge [1, 4] [2, 8] (fun a b : Nat => decide (a ≤ b))).Chain'
        (fun a b => decide (a ≤ b) = true) :=
  sort_sorted_perm (fun a b : Nat => decide (a ≤ b))
    (fun a b => by simpa using Nat.le_total a b)
    (fun a b c h1 h2 => by simp at h1 h2 ⊢; omega)
    [2, 4, 1, 4] [1, 4] [2, 8] (by simp) (by simp)

end xstd.meta

namespace xstd.meta.type_list

/-! ## The loop `for_each_until` -/

/-- The loop over a functor with a defined result: the result is `true` exactly when the functor
returns `true` for some element, and the calls are those of the functor for the elements up to
and with the first one for which it returns `true`. -/
theorem for_each_until_eq {α γ : Type} (g : α → Bool × List γ) (l : List α) :
    for_each_until (fun x => some (g x)) l =
      some (l.any (fun x => (g x).1),
        ((l.takeWhile (fun x => !(g x).1) ++ (l.find? (fun x => (g x).1)).toList).map
          (fun x => (g x).2)).flatten) := by
  induction l with
  | nil => rfl
  | cons x l ih =>
    rcases hg : g x with ⟨b, calls⟩
    cases b with
    | true => simp [for_each_until, hg, List.takeWhile, List.find?]
    | false => simp [for_each_until, hg, ih, List.takeWhile, List.find?]

end xstd.meta.type_list

namespace xstd.meta.detail.radix_tree

/-! ## The calls of the function object -/

theorem visit_children_calls (nodes : List node)
    (ih : ∀ c ∈ nodes, ∀ (pfx : string) (str : czstring) (b : Bool) (calls : List string),
      visit_implementation pfx c str = some (b, calls) →
        (b = false ∧ calls = []) ∨ (b = true ∧ ∃ w, calls = [w]))
    (pfx : string) (t : czstring) (b : Bool) (calls : List string)
    (h : visit_children pfx nodes t = some (b, calls)) :
    (b = false ∧ calls = []) ∨ (b = true ∧ ∃ w, calls = [w]) := by
  induction nodes generalizing b calls with
  | nil =>
    have : visit_children pfx [] t = some (false, []) := by cases t <;> rfl
    rw [this] at h
    simp only [Option.some.injEq, Prod.mk.injEq] at h
    exact Or.inl ⟨h.1.symm, h.2.symm⟩
  | cons n nodes ihl =>
    rw [visit_children] at h
    rcases hv : visit_implementation pfx n t with _ | ⟨_ | _, calls1⟩
    · simp [hv] at h
    · rcases ih n (List.mem_cons_self _ _) pfx t false calls1 hv with ⟨_, hc⟩ | ⟨hb, _⟩
      · subst hc
        rcases hr : visit_children pfx nodes t with _ | ⟨b2, more⟩
        · simp [hv, hr] at h
        · simp only [hv, hr, Option.some.injEq, Prod.mk.injEq, List.nil_append] at h
          obtain ⟨rfl, rfl⟩ := h
          exact ihl (fun c hc => ih c (List.mem_cons_of_mem _ hc)) b2 more hr
      · simp at hb
    · simp only [hv, Option.some.injEq, Prod.mk.injEq] at h
      obtain ⟨rfl, rfl⟩ := h
      exact ih n (List.mem_cons_self _ _) pfx t true calls1 hv

/-- At every node: `visit_implementation` calls the function object once when it returns `true`
and not at all when it returns `false`. -/
theorem visit_implementation_calls (n : node) : ∀ (pfx : string) (str : czstring) (b : Bool)
    (calls : List string), visit_implementation pfx n str = some (b, calls) →
    (b = false ∧ calls = []) ∨ (b = true ∧ ∃ w, calls = [w]) := by
  induction n using node.induct_node with
  | h p nodes l ih =>
    intro pfx str b calls h
    rw [visit_implementation] at h
    rcases hp : prefix_match p str with _ | _ | _ | ⟨c, t⟩
    · simp [hp] at h
    · simp only [hp, Option.some.injEq, Prod.mk.injEq] at h
      exact Or.inl ⟨h.1.symm, h.2.symm⟩
    · simp [hp] at h
    · simp only [hp] at h
      by_cases hc : (c == 0) = true
      · cases l with
        | true =>
          simp only [hc, if_true, Option.some.injEq, Prod.mk.injEq] at h
          exact Or.inr ⟨h.1.symm, _, h.2.symm⟩
        | false =>
          simp only [hc, if_true, Bool.false_eq_true, if_false, Option.some.injEq,
            Prod.mk.injEq] at h
          exact Or.inl ⟨h.1.symm, h.2.symm⟩
      · have h' : visit_children (string_add pfx p) nodes (c :: t) = some (b, calls) := by
          cases l <;> simpa [hc] using h
        exact visit_children_calls nodes ih _ _ b calls h'

theorem traverse_children_calls (nodes : List node)
    (ih : ∀ c ∈ nodes, ∀ (pfx : string) (str : czstring) (b : Bool)
      (calls : List (string × czstring)),
      traverse_implementation pfx c str = some (b, calls) →
        (b = false ∧ calls = []) ∨ (b = true ∧ ∃ w, calls = [w]))
    (pfx : string) (t : czstring) (b : Bool) (calls : List (string × czstring))
    (h : traverse_children pfx nodes t = some (b, calls)) :
    (b = false ∧ calls = []) ∨ (b = true ∧ ∃ w, calls = [w]) := by
  induction nodes generalizing b calls with
  | nil =>
    have : traverse_children pfx [] t = some (false, []) := by cases t <;> rfl
    rw [this] at h
    simp only [Option.some.injEq, Prod.mk.injEq] at h
    exact Or.inl ⟨h.1.symm, h.2.symm⟩
  | cons n nodes ihl =>
    rw [traverse_children] at h
    rcases hv : traverse_implementation pfx n t with _ | ⟨_ | _, calls1⟩
    · simp [hv] at h
    · rcases ih n (List.mem_cons_self _ _) pfx t false calls1 hv with ⟨_, hc⟩ | ⟨hb, _⟩
      · subst hc
        rcases hr : traverse_children pfx nodes t with _ | ⟨b2, more⟩
        · simp [hv, hr] at h
        · simp only [hv, hr, Option.some.injEq, Prod.mk.injEq, List.nil_append] at h
          obtain ⟨rfl, rfl⟩ := h
          exact ihl (fun c hc => ih c (List.mem_cons_of_mem _ hc)) b2 more hr
      · simp at hb
    · simp only [hv, Option.some.injEq, Prod.mk.injEq] at h
      obtain ⟨rfl, rfl⟩ := h
      exact ih n (List.mem_cons_self _ _) pfx t true calls1 hv

/-- What `traverse_implementation` returns at a node whose label matches, from what the loop
over the children returns. -/
theorem traverse_implementation_of_children (pfx p : string) (nodes : List node) (l : Bool)
    (str t : czstring) (found : Bool) (calls : List (string × czstring))
    (hp : prefix_match p str = some (some t))
    (hc : traverse_children (string_add pfx p) nodes t = some (found, calls)) :
    traverse_implementation pfx (.mk p nodes l) str =
      some (found || l, if l && !found then calls ++ [(string_add pfx p, t)] else calls) := by
  rw [traverse_implementation]
  simp only [hp, hc]
  cases l <;> cases found <;> rfl

/-- At every node: `traverse_implementation` calls the function object once when it returns
`true` and not at all when it returns `false`. -/
theorem traverse_implementation_calls (n : node) : ∀ (pfx : string) (str : czstring) (b : Bool)
    (calls : List (string × czstring)), traverse_implementation pfx n str = some (b, calls) →
    (b = false ∧ calls = []) ∨ (b = true ∧ ∃ w, calls = [w]) := by
  induction n using node.induct_node with
  | h p nodes l ih =>
    intro pfx str b calls h
    rcases hp : prefix_match p str with _ | _ | t
    · simp [traverse_implementation, hp] at h
    · simp only [traverse_implementation, hp, Option.some.injEq, Prod.mk.injEq] at h
      exact Or.inl ⟨h.1.symm, h.2.symm⟩
    · rcases hc : traverse_children (string_add pfx p) nodes t with _ | ⟨found, calls1⟩
      · simp [traverse_implementation, hp, hc] at h
      · rw [traverse_implementation_of_children pfx p nodes l str t found calls1 hp hc] at h
        simp only [Option.some.injEq, Prod.mk.injEq] at h
        obtain ⟨rfl, rfl⟩ := h
        rcases traverse_children_calls nodes ih _ _ found calls1 hc with
          ⟨rfl, rfl⟩ | ⟨rfl, w, rfl⟩
        · cases l
          · exact Or.inl ⟨rfl, rfl⟩
          · exact Or.inr ⟨rfl, _, rfl⟩
        · exact Or.inr ⟨by simp, w, by simp⟩

end xstd.meta.detail.radix_tree

namespace xstd.meta.detail.radix_tree

/-! ## The calls of the insertion -/

theorem tail_ne_nil (index : Nat) (str : string) (h : index < str.length) :
    tail index str ≠ [] := by
  rw [tail_eq index str (Nat.le_of_lt h)]
  intro e
  have := congrArg List.length e
  simp at this
  omega

/-- At a node with a non-empty label and for a non-empty string, the requires-clause of "No
Match" holds exactly when the label and the string start with different chars. -/
theorem no_match_iff (s : string) (m : node) (hm : m.str ≠ []) (hs : s ≠ []) :
    no_match s (prefix_match_index m.str s) m = true ↔ char_at s 0 ≠ char_at m.str 0 := by
  obtain ⟨x, p, hp⟩ := List.exists_cons_of_ne_nil hm
  obtain ⟨y, q, rfl⟩ := List.exists_cons_of_ne_nil hs
  simp only [no_match, hp, List.isEmpty_cons, Bool.not_false, Bool.true_and, beq_iff_eq,
    char_at_cons_zero]
  by_cases hxy : x = y
  · subst hxy
    rw [prefix_match_index_cons_eq]
    simp
  · rw [prefix_match_index_cons_ne x y p q hxy]
    simp only [true_iff]
    exact fun e => hxy e.symm

theorem no_match_root (s : string) (index : Nat) (m : node) (hm : m.str = []) :
    no_match s index m = false := by
  simp [no_match, hm]

theorem basic_insert_transform_calls_mem (q : string) (nodes : List node) (e : string × node) :
    e ∈ basic_insert_transform_calls q nodes ↔ ∃ c ∈ nodes, e ∈ basic_insert_calls q c := by
  induction nodes with
  | nil => simp [basic_insert_transform_calls]
  | cons n nodes ih => simp [basic_insert_transform_calls, ih]

/-- Below the root the insertion of a non-empty string hands only non-empty strings to
nodes, and the nodes satisfy the invariant. -/
theorem basic_insert_calls_wf (m : node) : m.wf → ∀ s : string, s ≠ [] →
    ∀ e ∈ basic_insert_calls s m, e.1 ≠ [] ∧ e.2.wf := by
  induction m using node.induct_node with
  | h p nodes l ih =>
    intro hw s hs e he
    rw [basic_insert_calls] at he
    rcases List.mem_cons.mp he with rfl | he
    · exact ⟨hs, hw⟩
    · split at he
      · rename_i hcond
        simp only [Bool.and_eq_true] at hcond
        have hlt : prefix_match_index p s < s.length := by
          have := hcond.1
          simp only [node_matched, Bool.and_eq_true, decide_eq_true_eq] at this
          exact this.2
        obtain ⟨c, hc, hec⟩ := (basic_insert_transform_calls_mem _ _ _).mp he
        exact ih c hc ((node.wf_list_iff nodes).mp hw.2.2.2 c hc) _ (tail_ne_nil _ _ hlt) e hec
      · cases he

/-- At a root the insertion hands the string to the root, and only non-empty strings to nodes
below it. -/
theorem basic_insert_calls_root (r : node) (hr : root_wf r) (key : string) :
    ∀ e ∈ basic_insert_calls key r, e = (key, r) ∨ (e.1 ≠ [] ∧ e.2.wf) := by
  obtain ⟨p, nodes, l⟩ := r
  intro e he
  rw [basic_insert_calls] at he
  rcases List.mem_cons.mp he with rfl | he
  · exact Or.inl rfl
  · right
    split at he
    · rename_i hcond
      simp only [Bool.and_eq_true] at hcond
      have hlt : prefix_match_index p key < key.length := by
        have := hcond.1
        simp only [node_matched, Bool.and_eq_true, decide_eq_true_eq] at this
        exact this.2
      obtain ⟨c, hc, hec⟩ := (basic_insert_transform_calls_mem _ _ _).mp he
      exact basic_insert_calls_wf c ((node.wf_list_iff nodes).mp hr.2.2 c hc) _
        (tail_ne_nil _ _ hlt) e hec
    · cases he

end xstd.meta.detail.radix_tree

namespace xstd.meta

open detail.radix_tree (node root_wf first_chars strictly_ordered leaf czstring)

theorem char_at_drop (s : string) (i : Nat) : char_at (s.drop i) 0 = char_at s i := by
  simp [char_at, List.getD_eq_getElem?_getD, List.getElem?_drop]

/-- C21 (partial-match split): when the prefix match index `i` of the label and the string is
positive and smaller than both lengths, the insertion into the node returns a node that is no
leaf, is labelled with the first `i` chars of the string (which are those of the label) and has
exactly two children in ascending order of their first chars: the old node with the label
without its first `i` chars, with its children and its leaf flag, and a new leaf without
children that is labelled with the string without its first `i` chars. -/
theorem partial_match_split (p str : string) (nodes : List node) (l : Bool)
    (h0 : 0 < prefix_match_index p str) (h1 : prefix_match_index p str < p.length)
    (h2 : prefix_match_index p str < str.length) :
    ∃ a b, detail.radix_tree.basic_insert str (.mk p nodes l) =
        some (.mk (str.take (prefix_match_index p str)) [a, b] false) ∧
      str.take (prefix_match_index p str) = p.take (prefix_match_index p str) ∧
      char_at a.str 0 < char_at b.str 0 ∧
      ((a = .mk (p.drop (prefix_match_index p str)) nodes l ∧
          b = .mk (str.drop (prefix_match_index p str)) [] true) ∨
        (a = .mk (str.drop (prefix_match_index p str)) [] true ∧
          b = .mk (p.drop (prefix_match_index p str)) nodes l)) := by
  have hne := prefix_match_index_differ p str h1 h2
  rw [← char_at_drop p, ← char_at_drop str] at hne
  rw [detail.radix_tree.basic_insert_eq,
    detail.radix_tree.basic_insert_implementation_partial_match _ _ _ _ h0
      (by simpa [node.str] using h1) h2]
  simp only [node.str, prefix_of_eq _ _ (Nat.le_of_lt h2), tail_eq _ _ (Nat.le_of_lt h2),
    tail_eq _ _ (Nat.le_of_lt h1), detail.radix_tree.node_from,
    detail.radix_tree.prefix_assign, node.is_leaf, node.children, detail.radix_tree.leaf,
    type_list.insert, detail.radix_tree.node_order]
  by_cases hle : char_at (str.drop (prefix_match_index p str)) 0 ≤
      char_at (p.drop (prefix_match_index p str)) 0
  · refine ⟨_, _, by simp only [hle, decide_True, if_true], (prefix_match_index_take p str).symm,
      ?_, Or.inr ⟨rfl, rfl⟩⟩
    exact lt_of_le_of_ne hle (fun e => hne e.symm)
  · refine ⟨_, _, by simp only [hle, decide_False, Bool.false_eq_true, if_false],
      (prefix_match_index_take p str).symm, ?_, Or.inl ⟨rfl, rfl⟩⟩
    exact lt_of_not_le hle

/-- The string "helo" at the leaf "help", and the tree of "help" and "helo": the root has the
one child "hel", which is no leaf and has the leaf children "o" and "p". -/
theorem partial_match_split_witness :
    (∃ a b, detail.radix_tree.basic_insert (lit "helo") (.mk (lit "help") [] true) =
        some (.mk ((lit "helo").take (prefix_match_index (lit "help") (lit "helo"))) [a, b]
          false) ∧
      (lit "helo").take (prefix_match_index (lit "help") (lit "helo")) =
        (lit "help").take (prefix_match_index (lit "help") (lit "helo")) ∧
      char_at a.str 0 < char_at b.str 0 ∧
      ((a = .mk ((lit "help").drop (prefix_match_index (lit "help") (lit "helo"))) [] true ∧
          b = .mk ((lit "helo").drop (prefix_match_index (lit "help") (lit "helo"))) [] true) ∨
        (a = .mk ((lit "helo").drop (prefix_match_index (lit "help") (lit "helo"))) [] true ∧
          b = .mk ((lit "help").drop (prefix_match_index (lit "help") (lit "helo"))) []
            true))) ∧
    radix_tree_from [lit "help", lit "helo"] =
      some ⟨.mk (lit "")
        [.mk (lit "hel") [.mk (lit "o") [] true, .mk (lit "p") [] true] false] false⟩ :=
  ⟨partial_match_split (lit "help") (lit "helo") [] true (by decide) (by decide) (by decide),
    rfl⟩

/-- C22 (string-match split), for a non-empty string: when the prefix match index `i` is
positive, is the length of the string and is smaller than the length of the label, the
insertion into the node returns a leaf that is labelled with the string and has one child, the
old node with the label without its first `i` chars, with its children and its leaf flag. -/
theorem string_match_split (p str : string) (nodes : List node) (l : Bool)
    (h0 : 0 < prefix_match_index p str) (h1 : prefix_match_index p str = str.length)
    (h2 : prefix_match_index p str < p.length) :
    detail.radix_tree.basic_insert str (.mk p nodes l) =
      some (.mk str [.mk (p.drop (prefix_match_index p str)) nodes l] true) := by
  rw [detail.radix_tree.basic_insert_eq,
    detail.radix_tree.basic_insert_implementation_string_match _ _ _ _ h0
      (by simpa [node.str] using h2) h1]
  simp only [node.str, tail_eq _ _ (Nat.le_of_lt h2), detail.radix_tree.leaf_from,
    detail.radix_tree.node_from, detail.radix_tree.prefix_assign, node.is_leaf, node.children]

/-- The string "hel" at the leaf "help", and the tree of "help" and "hel": the root has the one
child "hel", a leaf with the leaf child "p". -/
theorem string_match_split_witness :
    detail.radix_tree.basic_insert (lit "hel") (.mk (lit "help") [] true) =
        some (.mk (lit "hel")
          [.mk ((lit "help").drop (prefix_match_index (lit "help") (lit "hel"))) [] true]
          true) ∧
      radix_tree_from [lit "help", lit "hel"] =
        some ⟨.mk (lit "") [.mk (lit "hel") [.mk (lit "p") [] true] true] false⟩ :=
  ⟨string_match_split (lit "help") (lit "hel") [] true (by decide) (by decide) (by decide), rfl⟩

/-- C22 as stated fails for the empty string: at the label "h" the prefix match index is zero,
which is the length of the string and smaller than the length of the label, and the call of
`basic_insert` does not compile, since the overload for "No Match" is viable as well. -/
theorem string_match_split_counterexample :
    prefix_match_index [104] [] = ([] : string).length ∧
      prefix_match_index [104] [] < ([104] : string).length ∧
      detail.radix_tree.basic_insert [] (.mk [104] [] true) = none := ⟨rfl, by decide, rfl⟩

/-- C23 (node match without a matching child): when the prefix match index is the length of the
label, the string is longer, and no child has a label that starts with the first char of the
tail, the insertion returns the node with the same label and the same leaf flag; its children
are the old children, in their order, and one new leaf without children that is labelled with
the tail and stands behind the children with a smaller first char and before a child with a
larger one. Children that are strictly ordered by first char stay so. -/
theorem node_match_new_leaf (p str : string) (nodes : List node) (l : Bool)
    (h1 : prefix_match_index p str = p.length) (h2 : p.length < str.length)
    (hno : ∀ c ∈ nodes, char_at c.str 0 ≠ char_at (str.drop p.length) 0) :
    ∃ pre post, nodes = pre ++ post ∧
      detail.radix_tree.basic_insert str (.mk p nodes l) =
        some (.mk p (pre ++ .mk (str.drop p.length) [] true :: post) l) ∧
      (∀ e ∈ pre, char_at e.str 0 < char_at (str.drop p.length) 0) ∧
      (∀ e, post.head? = some e → char_at (str.drop p.length) 0 < char_at e.str 0) ∧
      (strictly_ordered nodes →
        strictly_ordered (pre ++ .mk (str.drop p.length) [] true :: post)) := by
  have hm : detail.radix_tree.match_exists (str.drop p.length) nodes = false := by
    rw [Bool.eq_false_iff]
    intro h
    obtain ⟨c, hc, e⟩ := (detail.radix_tree.first_chars_mem _ _).mp
      ((detail.radix_tree.match_exists_iff _ _).mp h)
    exact hno c hc e
  obtain ⟨pre, post, e1, e2, e3, e4⟩ := type_list.insert_position
    (leaf (str.drop p.length) []) detail.radix_tree.node_order nodes
  have hx : char_at (leaf (str.drop p.length) []).str 0 ∉ first_chars nodes := by
    intro h
    obtain ⟨c, hc, e⟩ := (detail.radix_tree.first_chars_mem _ _).mp h
    exact hno c hc e
  refine ⟨pre, post, e1, ?_, ?_, ?_, ?_⟩
  · rw [detail.radix_tree.basic_insert_eq, h1,
      detail.radix_tree.basic_insert_implementation_node_match _ _ _ _ (by simp [node.str]) h2]
    simp only [node.children, tail_eq _ _ (Nat.le_of_lt h2), hm,
      detail.radix_tree.node_match, Bool.false_eq_true, if_false, e2,
      detail.radix_tree.node_from, node.str, node.is_leaf]
    rfl
  · intro e he
    have := e3 e he
    simp only [detail.radix_tree.node_order, decide_eq_false_iff_not, not_le] at this
    exact this
  · intro e he
    have := e4 e he
    simp only [detail.radix_tree.node_order, decide_eq_true_eq] at this
    have hmem : e ∈ nodes := by
      rw [e1]
      cases post with
      | nil => simp at he
      | cons d post => simp only [List.head?_cons, Option.some.injEq] at he; simp [he]
    exact lt_of_le_of_ne this (fun h => hno e hmem h.symm)
  · intro ho
    have := detail.radix_tree.strictly_ordered_insert _ _ ho hx
    rw [e2] at this
    exact this

/-- The string "version" at the root with the leaf child "help", and the tree of "help" and
"version": the root has the two leaf children "help" and "version". -/
theorem node_match_new_leaf_witness :
    (∃ pre post, [node.mk (lit "help") [] true] = pre ++ post ∧
      detail.radix_tree.basic_insert (lit "version") (.mk (lit "") [.mk (lit "help") [] true]
          false) =
        some (.mk (lit "")
          (pre ++ .mk ((lit "version").drop (lit "").length) [] true :: post) false) ∧
      (∀ e ∈ pre, char_at e.str 0 < char_at ((lit "version").drop (lit "").length) 0) ∧
      (∀ e, post.head? = some e →
        char_at ((lit "version").drop (lit "").length) 0 < char_at e.str 0) ∧
      (strictly_ordered [node.mk (lit "help") [] true] →
        strictly_ordered
          (pre ++ .mk ((lit "version").drop (lit "").length) [] true :: post))) ∧
    radix_tree_from [lit "help", lit "version"] =
      some ⟨.mk (lit "") [.mk (lit "help") [] true, .mk (lit "version") [] true] false⟩ :=
  ⟨node_match_new_leaf (lit "") (lit "version") [.mk (lit "help") [] true] false (by decide)
    (by decide) (by decide), rfl⟩

/-- C24 (full match): when the prefix match index is the length of the label and the length of
the string, the insertion returns the node with the same label and the same children and with
the leaf flag `true`; a node that is a leaf is returned as it is. -/
theorem full_match_sets_leaf (p str : string) (nodes : List node) (l : Bool)
    (h1 : prefix_match_index p str = p.length) (h2 : prefix_match_index p str = str.length) :
    detail.radix_tree.basic_insert str (.mk p nodes l) = some (.mk p nodes true) ∧
      (l = true → detail.radix_tree.basic_insert str (.mk p nodes l) = some (.mk p nodes l)) := by
  have : detail.radix_tree.basic_insert str (.mk p nodes l) = some (.mk p nodes true) := by
    rw [detail.radix_tree.basic_insert_eq,
      detail.radix_tree.basic_insert_implementation_full_match _ _ _ _
        (by simpa [node.str] using h1) h2]
    rfl
  exact ⟨this, fun hl => by rw [this, hl]⟩

/-- The string "help" at the node "help" that is no leaf. -/
theorem full_match_sets_leaf_witness :
    detail.radix_tree.basic_insert (lit "help") (.mk (lit "help") [] false) =
        some (.mk (lit "help") [] true) ∧
      (false = true → detail.radix_tree.basic_insert (lit "help") (.mk (lit "help") [] false) =
        some (.mk (lit "help") [] false)) :=
  full_match_sets_leaf (lit "help") (lit "help") [] false (by decide) (by decide)

/-- C25 (where the case "No Match" is applied): in the tree of every list of keys and for every
string, the insertion applies the case "No Match" to exactly those nodes that it reaches whose
label is not empty and starts with another char than the string handed to them, and it returns
such a node as it is. It is not applied to the root. -/
theorem no_match_calls (K : List string) (key : string) :
    ∃ t, radix_tree_from K = some t ∧
      detail.radix_tree.no_match key (prefix_match_index t.root.str key) t.root = false ∧
      ∀ e ∈ detail.radix_tree.basic_insert_calls key t.root,
        (detail.radix_tree.no_match e.1 (prefix_match_index e.2.str e.1) e.2 = true ↔
          e.2.str ≠ [] ∧ char_at e.1 0 ≠ char_at e.2.str 0) ∧
        (detail.radix_tree.no_match e.1 (prefix_match_index e.2.str e.1) e.2 = true →
          detail.radix_tree.basic_insert e.1 e.2 = some e.2) := by
  obtain ⟨t, h1, h2, _⟩ := radix_tree_from_wf K
  refine ⟨t, h1, detail.radix_tree.no_match_root _ _ _ h2.1, ?_⟩
  intro e he
  rcases detail.radix_tree.basic_insert_calls_root t.root h2 key e he with rfl | ⟨hs, hw⟩
  · have hf := detail.radix_tree.no_match_root key (prefix_match_index t.root.str key) t.root
      h2.1
    simp only [hf, Bool.false_eq_true, false_iff, not_and, false_implies, and_true]
    exact fun h => absurd h2.1 h
  · have hm := detail.radix_tree.node.wf_str e.2 hw
    have hiff := detail.radix_tree.no_match_iff e.1 e.2 hm hs
    refine ⟨?_, ?_⟩
    · rw [hiff]
      exact ⟨fun h => ⟨hm, h⟩, fun h => h.2⟩
    · intro h
      exact detail.radix_tree.basic_insert_no_match e.1 e.2 hm hs (hiff.mp h)

/-- C25 as stated fails: the insertion of "helo" into the tree of "help" and "version" calls
`basic_insert` for both children of the root, and the call for the child "version" is the case
"No Match". -/
theorem no_match_calls_counterexample :
    radix_tree_from [lit "help", lit "version"] =
        some ⟨.mk (lit "") [.mk (lit "help") [] true, .mk (lit "version") [] true] false⟩ ∧
      (lit "helo", node.mk (lit "version") [] true) ∈ detail.radix_tree.basic_insert_calls
        (lit "helo") (.mk (lit "") [.mk (lit "help") [] true, .mk (lit "version") [] true]
          false) ∧
      detail.radix_tree.no_match (lit "helo") (prefix_match_index (lit "version") (lit "helo"))
        (.mk (lit "version") [] true) = true := ⟨rfl, by decide, rfl⟩

/-- C26 (root dispatch), for a non-empty string: at a node with the empty label, such as the
root, and for every non-empty string the prefix match index is zero and the requires-clause of
"Node Match" is the one that holds. -/
theorem root_dispatch (key : string) (root : node) (hr : root.str = []) (hk : key ≠ []) :
    prefix_match_index root.str key = 0 ∧
      detail.radix_tree.node_matched key (prefix_match_index root.str key) root = true ∧
      detail.radix_tree.no_match key (prefix_match_index root.str key) root = false ∧
      detail.radix_tree.full_match key (prefix_match_index root.str key) root = false ∧
      detail.radix_tree.string_match key (prefix_match_index root.str key) root = false ∧
      detail.radix_tree.partial_match key (prefix_match_index root.str key) root = false := by
  have hl : 0 < key.length := List.length_pos.mpr hk
  have hne : ¬ (0 = key.length) := by omega
  rw [hr, prefix_match_index_nil_left]
  simp [detail.radix_tree.node_matched, detail.radix_tree.no_match,
    detail.radix_tree.full_match, detail.radix_tree.string_match,
    detail.radix_tree.partial_match, hr, hl, hne]

/-- The string "help" at the empty root. -/
theorem root_dispatch_witness :
    prefix_match_index (node.mk [] [] false).str (lit "help") = 0 ∧
      detail.radix_tree.node_matched (lit "help")
        (prefix_match_index (node.mk [] [] false).str (lit "help")) (.mk [] [] false) = true ∧
      detail.radix_tree.no_match (lit "help")
        (prefix_match_index (node.mk [] [] false).str (lit "help")) (.mk [] [] false) = false ∧
      detail.radix_tree.full_match (lit "help")
        (prefix_match_index (node.mk [] [] false).str (lit "help")) (.mk [] [] false) = false ∧
      detail.radix_tree.string_match (lit "help")
        (prefix_match_index (node.mk [] [] false).str (lit "help")) (.mk [] [] false) = false ∧
      detail.radix_tree.partial_match (lit "help")
        (prefix_match_index (node.mk [] [] false).str (lit "help")) (.mk [] [] false) = false :=
  root_dispatch (lit "help") (.mk [] [] false) rfl (by decide)

/-- C26 as stated fails for the empty string: at the empty root the requires-clause of "Full
Match" holds and that of "Node Match" does not, and the insertion sets the leaf flag of the
root. -/
theorem root_dispatch_counterexample :
    detail.radix_tree.full_match [] (prefix_match_index [] []) (.mk [] [] false) = true ∧
      detail.radix_tree.node_matched [] (prefix_match_index [] []) (.mk [] [] false) = false ∧
      radix_tree_from [[]] = some ⟨.mk [] [] true⟩ := ⟨rfl, rfl, rfl⟩

/-- C27 (deeper-first reporting): at every node, when the label does not match the input the
traversal returns `false` without a call; when it matches with the tail `t`, the children are
tried on `t` first: the loop over them either finds nothing and calls nothing, or finds a match
and has made one call. In the second case the node returns `true` with that call alone; in the
first case a leaf calls the function object with the accumulated labels and `t` and returns
`true`, and a node that is no leaf returns `false`. With the keys "hel" and "help" the query
"hela" reports the prefix "hel" and the tail "a". -/
theorem traverse_deeper_first (pfx p : string) (nodes : List node) (l : Bool) (str : czstring) :
    (detail.radix_tree.prefix_match p str = some none →
        detail.radix_tree.traverse_implementation pfx (.mk p nodes l) str = some (false, [])) ∧
      (∀ t, detail.radix_tree.prefix_match p str = some (some t) →
        (detail.radix_tree.traverse_children (pfx ++ p) nodes t = none ∨
          detail.radix_tree.traverse_children (pfx ++ p) nodes t = some (false, []) ∨
          ∃ call, detail.radix_tree.traverse_children (pfx ++ p) nodes t =
            some (true, [call])) ∧
        (∀ call, detail.radix_tree.traverse_children (pfx ++ p) nodes t = some (true, [call]) →
          detail.radix_tree.traverse_implementation pfx (.mk p nodes l) str =
            some (true, [call])) ∧
        (detail.radix_tree.traverse_children (pfx ++ p) nodes t = some (false, []) →
          detail.radix_tree.traverse_implementation pfx (.mk p nodes l) str =
            some (l, if l then [(pfx ++ p, t)] else []))) ∧
      (∃ t, radix_tree_from [lit "hel", lit "help"] = some t ∧
        traverse t (lit "hela" ++ [0]) = some (true, [(lit "hel", lit "a" ++ [0])])) := by
  refine ⟨?_, ?_, ⟨_, rfl, rfl⟩⟩
  · intro hp
    simp [detail.radix_tree.traverse_implementation, hp]
  · intro t hp
    refine ⟨?_, ?_, ?_⟩
    · rcases hc : detail.radix_tree.traverse_children (pfx ++ p) nodes t with _ | ⟨b, calls⟩
      · exact Or.inl rfl
      · right
        rcases detail.radix_tree.traverse_children_calls nodes
          (fun c _ => detail.radix_tree.traverse_implementation_calls c) _ _ b calls hc with
          ⟨rfl, rfl⟩ | ⟨rfl, w, rfl⟩
        · exact Or.inl rfl
        · exact Or.inr ⟨w, rfl⟩
    · intro call hc
      rw [← string_add_eq] at hc
      rw [detail.radix_tree.traverse_implementation_of_children pfx p nodes l str t true [call]
        hp hc]
      simp
    · intro hc
      rw [← string_add_eq] at hc
      rw [detail.radix_tree.traverse_implementation_of_children pfx p nodes l str t false []
        hp hc]
      cases l <;> simp [string_add_eq]

theorem insert_bind (strs : List string) (o : Option radix_tree) :
    o.bind (insert strs) = strs.foldl (fun acc s => acc.bind (insert [s])) o := by
  have one : ∀ (s : string) (t : radix_tree), insert [s] t =
      match detail.radix_tree.basic_insert s t.root with
      | some r => some ⟨r⟩
      | none => none := by
    intro s t
    simp only [insert, detail.radix_tree.insert, detail.radix_tree.insert_implementation]
    cases detail.radix_tree.basic_insert s t.root <;> rfl
  induction strs generalizing o with
  | nil =>
    cases o with
    | none => rfl
    | some t => rfl
  | cons s rest ih =>
    rw [List.foldl_cons, ← ih]
    cases o with
    | none => rfl
    | some t =>
      simp only [Option.bind, one]
      simp only [insert, detail.radix_tree.insert, detail.radix_tree.insert_implementation]
      cases detail.radix_tree.basic_insert s t.root <;> rfl

/-- C28 (the insertion of several strings is a left fold): `insert<>(tree)` returns the tree,
`insert<k, ks...>(tree)` inserts `k` and then `ks...` into the result, `insert<k1, ..., kn>`
is the fold that inserts the strings one at a time from the left, and `radix_tree_from` is this
fold on the empty tree. -/
theorem insert_left_fold (strs ks : List string) (k : string) (tree : radix_tree) :
    insert [] tree = some tree ∧
      insert (k :: ks) tree = (insert [k] tree).bind (insert ks) ∧
      insert strs tree = strs.foldl (fun acc s => acc.bind (insert [s])) (some tree) ∧
      radix_tree_from strs =
        strs.foldl (fun acc s => acc.bind (insert [s])) (some radix_tree.empty) := by
  refine ⟨rfl, ?_, ?_, ?_⟩
  · have := insert_bind (k :: ks) (some tree)
    rw [List.foldl_cons, ← insert_bind ks] at this
    exact this
  · exact insert_bind strs (some tree)
  · exact insert_bind strs (some radix_tree.empty)

/-- C29 (`for_each_until`): for every list and every functor with a defined result, the result
of the loop is `true` exactly when the functor returns `true` for some element; the functor is
applied, in the order of the list, to the elements before the first one for which it returns
`true` and to that one, and to no element behind it: these elements are a prefix of the list,
and the calls of the loop are the calls of the functor for them. -/
theorem for_each_until_spec {α γ : Type} (g : α → Bool × List γ) (l : List α) :
    type_list.for_each_until (fun x => some ((g x).1, [x])) l =
        some (l.any (fun x => (g x).1),
          l.takeWhile (fun x => !(g x).1) ++ (l.find? (fun x => (g x).1)).toList) ∧
      (l.takeWhile (fun x => !(g x).1) ++ (l.find? (fun x => (g x).1)).toList) <+: l ∧
      type_list.for_each_until (fun x => some (g x)) l =
        some (l.any (fun x => (g x).1),
          ((l.takeWhile (fun x => !(g x).1) ++ (l.find? (fun x => (g x).1)).toList).map
            (fun x => (g x).2)).flatten) := by
  refine ⟨?_, ?_, type_list.for_each_until_eq g l⟩
  · have fl : ∀ m : List α, (m.map (fun x => [x])).flatten = m := by
      intro m
      induction m with
      | nil => rfl
      | cons x m ih => simp [ih]
    have := type_list.for_each_until_eq (fun x => ((g x).1, [x])) l
    simp only [fl] at this
    exact this
  · induction l with
    | nil => simp
    | cons x l ih =>
      cases hb : (g x).1 with
      | true => simp [List.takeWhile, List.find?, hb]
      | false => simpa [List.takeWhile, List.find?, hb, List.prefix_cons_inj] using ih

/-- C30 (the function object is called exactly once): for every tree and every input, when
`visit` returns `true` it has called the function object exactly once and when it returns
`false` it has not called it, and the same holds for `traverse`. -/
theorem callback_once (tree : radix_tree) (str : czstring) :
    (∀ b calls, visit tree str = some (b, calls) → calls.length = if b then 1 else 0) ∧
      (∀ b calls, traverse tree str = some (b, calls) → calls.length = if b then 1 else 0) := by
  constructor
  · intro b calls h
    rcases detail.radix_tree.visit_implementation_calls tree.root [] str b calls h with
      ⟨rfl, rfl⟩ | ⟨rfl, w, rfl⟩ <;> rfl
  · intro b calls h
    rcases detail.radix_tree.traverse_implementation_calls tree.root [] str b calls h with
      ⟨rfl, rfl⟩ | ⟨rfl, w, rfl⟩ <;> rfl

end xstd.meta

namespace xstd.meta.type_list

/-! ## The loop `for_each_until` and the order of the list -/

theorem for_each_until_all_false {α γ : Type} (f : α → Option (Bool × List γ)) (l : List α)
    (h : ∀ d ∈ l, f d = some (false, [])) : for_each_until f l = some (false, []) := by
  induction l with
  | nil => rfl
  | cons x l ih =>
    simp [for_each_until, h x (List.mem_cons_self _ _),
      ih (fun d hd => h d (List.mem_cons_of_mem _ hd))]

theorem for_each_until_all_none {α γ : Type} (f : α → Option (Bool × List γ)) (l : List α)
    (hne : l ≠ []) (h : ∀ d ∈ l, f d = none) : for_each_until f l = none := by
  cases l with
  | nil => exact absurd rfl hne
  | cons x l => simp [for_each_until, h x (List.mem_cons_self _ _)]

/-- When all elements but one return `false` without a call, the loop returns what the functor
returns for that one. -/
theorem for_each_until_unique {α γ : Type} (f : α → Option (Bool × List γ)) (c : α)
    (l : List α) (hc : c ∈ l) (hn : l.Nodup)
    (h : ∀ d ∈ l, d ≠ c → f d = some (false, [])) : for_each_until f l = f c := by
  induction l with
  | nil => cases hc
  | cons x l ih =>
    rw [List.nodup_cons] at hn
    by_cases hx : x = c
    · subst hx
      have hrest : for_each_until f l = some (false, []) :=
        for_each_until_all_false f l (fun d hd =>
          h d (List.mem_cons_of_mem _ hd) (fun e => hn.1 (e ▸ hd)))
      rw [for_each_until, hrest]
      rcases f x with _ | ⟨_ | _, calls⟩ <;> simp
    · have hcl : c ∈ l := (List.mem_cons.mp hc).resolve_left (fun e => hx e.symm)
      rw [for_each_until, h x (List.mem_cons_self _ _) hx,
        ih hcl hn.2 (fun d hd => h d (List.mem_cons_of_mem _ hd))]
      rcases f c with _ | ⟨b, calls⟩ <;> simp

end xstd.meta.type_list

namespace xstd.meta.detail.radix_tree

/-! ## The order of the children does not matter to `visit` and `traverse` -/

theorem strictly_ordered_nodup (nodes : List node) (ho : strictly_ordered nodes) :
    nodes.Nodup := by
  have h1 : (first_chars nodes).Nodup := List.Pairwise.imp (fun h => ne_of_lt h) ho
  exact List.Nodup.of_map _ h1

/-- Strictly ordered children with non-empty labels, in every order: the loop over them gives
the same result as the loop in their own order, for every functor that fails with `false` and
no call at a label that starts with another char than the input, and that reads past the end
at an input that has ended. -/
theorem for_each_until_children_perm {γ : Type} (f : node → Option (Bool × List γ))
    (t : czstring) (nodes nodes' : List node) (hp : nodes.Perm nodes')
    (hw : node.wf_list nodes) (ho : strictly_ordered nodes)
    (hnil : t = [] → ∀ d ∈ nodes, f d = none)
    (hne : ∀ d ∈ nodes, t ≠ [] → char_at d.str 0 ≠ char_at t 0 → f d = some (false, [])) :
    type_list.for_each_until f nodes' = type_list.for_each_until f nodes := by
  have hn := strictly_ordered_nodup nodes ho
  have hn' : nodes'.Nodup := hp.nodup_iff.mp hn
  by_cases ht : t = []
  · by_cases hempty : nodes = []
    · subst hempty
      rw [List.nil_perm.mp hp]
    · have hempty' : nodes' ≠ [] := fun e => hempty (List.perm_nil.mp (e ▸ hp))
      rw [type_list.for_each_until_all_none f nodes hempty (hnil ht),
        type_list.for_each_until_all_none f nodes' hempty'
          (fun d hd => hnil ht d (hp.mem_iff.mpr hd))]
  · by_cases hex : ∃ c ∈ nodes, char_at c.str 0 = char_at t 0
    · obtain ⟨c, hc, hcf⟩ := hex
      have huniq : ∀ d ∈ nodes, d ≠ c → f d = some (false, []) := by
        intro d hd hdc
        apply hne d hd ht
        intro e
        exact hdc (strictly_ordered_inj nodes ho d hd c hc (e.trans hcf.symm))
      rw [type_list.for_each_until_unique f c nodes hc hn huniq,
        type_list.for_each_until_unique f c nodes' (hp.mem_iff.mp hc) hn'
          (fun d hd => huniq d (hp.mem_iff.mpr hd))]
    · have hall : ∀ d ∈ nodes, f d = some (false, []) := fun d hd =>
        hne d hd ht (fun e => hex ⟨d, hd, e⟩)
      rw [type_list.for_each_until_all_false f nodes hall,
        type_list.for_each_until_all_false f nodes'
          (fun d hd => hall d (hp.mem_iff.mpr hd))]

theorem prefix_match_nil_input (l : string) (hl : l ≠ []) : prefix_match l [] = none := by
  obtain ⟨c, l, rfl⟩ := List.exists_cons_of_ne_nil hl
  rfl

theorem visit_children_perm (nodes nodes' : List node) (hp : nodes.Perm nodes')
    (hw : node.wf_list nodes) (ho : strictly_ordered nodes) (pfx : string) (t : czstring) :
    visit_children pfx nodes' t = visit_children pfx nodes t := by
  rw [visit_children_eq_for_each_until, visit_children_eq_for_each_until]
  have hlabel := (node.wf_list_iff nodes).mp hw
  apply for_each_until_children_perm _ t nodes nodes' hp hw ho
  · intro ht d hd
    obtain ⟨p, ns, l⟩ := d
    have : p ≠ [] := node.wf_str _ (hlabel _ hd)
    simp [visit_implementation, ht, prefix_match_nil_input p this]
  · intro d hd ht hf
    obtain ⟨p, ns, l⟩ := d
    have : p ≠ [] := node.wf_str _ (hlabel _ hd)
    simp [visit_implementation, prefix_match_first_ne p t this ht hf]

theorem traverse_children_perm (nodes nodes' : List node) (hp : nodes.Perm nodes')
    (hw : node.wf_list nodes) (ho : strictly_ordered nodes) (pfx : string) (t : czstring) :
    traverse_children pfx nodes' t = traverse_children pfx nodes t := by
  rw [traverse_children_eq_for_each_until, traverse_children_eq_for_each_until]
  have hlabel := (node.wf_list_iff nodes).mp hw
  apply for_each_until_children_perm _ t nodes nodes' hp hw ho
  · intro ht d hd
    obtain ⟨p, ns, l⟩ := d
    have : p ≠ [] := node.wf_str _ (hlabel _ hd)
    simp [traverse_implementation, ht, prefix_match_nil_input p this]
  · intro d hd ht hf
    obtain ⟨p, ns, l⟩ := d
    have : p ≠ [] := node.wf_str _ (hlabel _ hd)
    simp [traverse_implementation, prefix_match_first_ne p t this ht hf]

theorem visit_implementation_perm (p : string) (nodes nodes' : List node) (l : Bool)
    (hp : nodes.Perm nodes') (hw : node.wf_list nodes) (ho : strictly_ordered nodes)
    (pfx : string) (str : czstring) :
    visit_implementation pfx (.mk p nodes' l) str = visit_implementation pfx (.mk p nodes l) str := by
  simp only [visit_implementation, visit_children_perm nodes nodes' hp hw ho]

theorem traverse_implementation_perm (p : string) (nodes nodes' : List node) (l : Bool)
    (hp : nodes.Perm nodes') (hw : node.wf_list nodes) (ho : strictly_ordered nodes)
    (pfx : string) (str : czstring) :
    traverse_implementation pfx (.mk p nodes' l) str =
      traverse_implementation pfx (.mk p nodes l) str := by
  simp only [traverse_implementation, traverse_children_perm nodes nodes' hp hw ho]

/-- Among children with non-empty labels and distinct first chars at most one has a label that
is a prefix of a given string. -/
theorem unique_prefix_child (nodes : List node) (hw : node.wf_list nodes)
    (ho : strictly_ordered nodes) (s : string) :
    ∀ c1 ∈ nodes, ∀ c2 ∈ nodes, c1.str <+: s → c2.str <+: s → c1 = c2 := by
  intro c1 h1 c2 h2 p1 p2
  have hlabel := (node.wf_list_iff nodes).mp hw
  have l1 := List.length_pos.mpr (node.wf_str c1 (hlabel c1 h1))
  have l2 := List.length_pos.mpr (node.wf_str c2 (hlabel c2 h2))
  have e1 := char_at_of_prefix c1.str s p1 0 l1
  have e2 := char_at_of_prefix c2.str s p2 0 l2
  exact strictly_ordered_inj nodes ho c1 h1 c2 h2 (e1.trans e2.symm)

/-- The children of the root and of every node below it satisfy the invariant and are strictly
ordered. -/
theorem root_wf_children (r : node) (hr : root_wf r) :
    ∀ m ∈ r :: r.descendants, node.wf_list m.children ∧ strictly_ordered m.children := by
  intro m hm
  rcases List.mem_cons.mp hm with rfl | hm
  · exact ⟨hr.2.2, hr.2.1⟩
  · have := root_wf_descendants r hr m hm
    obtain ⟨p, nodes, l⟩ := m
    exact ⟨this.2.2.2, this.2.2.1⟩

/-! ## The number of nodes -/

theorem node.size_list_insert (x : node) (less : node → node → Bool) (nodes : List node) :
    node.size_list (type_list.insert x less nodes) = x.size + node.size_list nodes := by
  induction nodes with
  | nil => simp [type_list.insert, node.size_list]
  | cons e l ih =>
    simp only [type_list.insert]
    split
    · simp [node.size_list]
    · simp only [node.size_list, ih]; omega

/-- When a map changes at most the one child whose label starts with a given char, and that one
grows by at most two nodes, the children grow by at most two nodes. -/
theorem node.size_list_map (g : node → node) (a : Int) (nodes : List node)
    (ho : strictly_ordered nodes)
    (h1 : ∀ d ∈ nodes, char_at d.str 0 ≠ a → g d = d)
    (h2 : ∀ d ∈ nodes, d.size ≤ (g d).size ∧ (g d).size ≤ d.size + 2) :
    node.size_list nodes ≤ node.size_list (nodes.map g) ∧
      node.size_list (nodes.map g) ≤ node.size_list nodes + 2 := by
  induction nodes with
  | nil => simp [node.size_list]
  | cons n nodes ih =>
    rw [strictly_ordered_cons] at ho
    simp only [List.map_cons, node.size_list]
    have hn := h2 n (List.mem_cons_self _ _)
    by_cases hf : char_at n.str 0 = a
    · have hrest : nodes.map g = nodes := by
        conv_rhs => rw [← List.map_id nodes]
        apply List.map_congr_left
        intro d hd
        have := ho.1 d hd
        exact h1 d (List.mem_cons_of_mem _ hd) (by omega)
      rw [hrest]
      omega
    · have := ih ho.2 (fun d hd => h1 d (List.mem_cons_of_mem _ hd))
        (fun d hd => h2 d (List.mem_cons_of_mem _ hd))
      rw [h1 n (List.mem_cons_self _ _) hf]
      omega

/-- The case "Node Match" on the children: the children grow by at most two nodes. -/
theorem node_match_size (b : string) (hb : b ≠ []) (nodes : List node)
    (ih : ∀ c ∈ nodes, ∀ c', basic_insert b c = some c' →
      c.size ≤ c'.size ∧ c'.size ≤ c.size + 2)
    (hw : node.wf_list nodes) (ho : strictly_ordered nodes)
    (str : string) (index : Nat) (p : string) (l : Bool) (ht : tail index str = b)
    (n' : node)
    (h : node_match str index (match_exists b nodes) (.mk p nodes l)
      (basic_insert_transform b nodes) = some n') :
    (node.mk p nodes l).size ≤ n'.size ∧ n'.size ≤ (node.mk p nodes l).size + 2 := by
  have hlabel := (node.wf_list_iff nodes).mp hw
  by_cases hm : match_exists b nodes = true
  · have hne : nodes ≠ [] := by
      intro e; simp [e, match_exists] at hm
    have G : ∀ d ∈ nodes, basic_insert b d = some ((basic_insert b d).getD d) := by
      intro d _
      obtain ⟨d', h1⟩ := basic_insert_total d b hb
      simp [h1]
    simp only [node_match, hm, if_true, basic_insert_transform_eq b _ nodes hne G,
      Option.some.injEq] at h
    subst h
    have := node.size_list_map (fun d => (basic_insert b d).getD d) (char_at b 0) nodes ho
      (fun d hd hf => by
        show (basic_insert b d).getD d = d
        rw [basic_insert_no_match b d (node.wf_str d (hlabel d hd)) hb (fun e => hf e.symm)]
        rfl)
      (fun d hd => by
        obtain ⟨d', h1⟩ := basic_insert_total d b hb
        have := ih d hd d' h1
        simpa [h1] using this)
    simp only [node_from, node.size, node.str, node.is_leaf]
    omega
  · simp only [node_match, hm, Bool.false_eq_true, if_false, Option.some.injEq, ht] at h
    subst h
    simp only [node_from, node.size, node.children, node.size_list_insert, leaf,
      node.size_list]
    omega

/-- Below the root the insertion of a non-empty string adds at most two nodes. -/
theorem basic_insert_size (n : node) : n.wf → ∀ q : string, q ≠ [] →
    ∀ n', basic_insert q n = some n' → n.size ≤ n'.size ∧ n'.size ≤ n.size + 2 := by
  induction n using node.induct_node with
  | h p nodes l ih =>
    intro hw q hq n' h
    have hc := (node.wf_list_iff nodes).mp hw.2.2.2
    obtain ⟨c, a1, b1, ha, hb, hi, hd⟩ := prefix_match_index_split p q
    subst ha hb
    rw [basic_insert_eq, hi] at h
    rcases a1 with _ | ⟨x, a1⟩
    · rcases b1 with _ | ⟨y, b1⟩
      · rw [basic_insert_implementation_full_match _ _ _ _ (by simp [node.str]) (by simp)] at h
        simp only [Option.some.injEq] at h
        subst h
        simp [leaf_assign, leaf_from, node_from, node.size, node.children]
      · rw [basic_insert_implementation_node_match _ _ _ _ (by simp [node.str]) (by simp)] at h
        simp only [node.children, tail_append] at h
        exact node_match_size (y :: b1) (by simp) nodes
          (fun d hd d' hd' => ih d hd (hc d hd) (y :: b1) (by simp) d' hd')
          hw.2.2.2 hw.2.2.1 (c ++ y :: b1) c.length (c ++ []) l (tail_append _ _) n' h
    · rcases b1 with _ | ⟨y, b1⟩
      · have hc0 : 0 < c.length := List.length_pos.mpr (by simpa using hq)
        rw [basic_insert_implementation_string_match _ _ _ _ hc0 (by simp [node.str])
          (by simp)] at h
        simp only [Option.some.injEq] at h
        subst h
        simp only [leaf_from, node_from, prefix_assign, node.size, node.size_list,
          node.children]
        omega
      · by_cases hcn : c = []
        · subst hcn
          rw [basic_insert_implementation_no_match _ _ _ _ (by simp [node.str])
            List.length_nil (by simp)] at h
          simp only [Option.some.injEq] at h
          subst h
          omega
        · rw [basic_insert_implementation_partial_match _ _ _ _ (List.length_pos.mpr hcn)
            (by simp [node.str]) (by simp)] at h
          simp only [Option.some.injEq] at h
          subst h
          simp only [node_from, prefix_assign, node.size, node.size_list_insert, leaf,
            node.size_list, node.children]
          omega

/-- The insertion of a string at a root adds at most two nodes. -/
theorem basic_insert_root_size (r : node) (hr : root_wf r) (q : string) (r' : node)
    (h : basic_insert q r = some r') : r.size ≤ r'.size ∧ r'.size ≤ r.size + 2 := by
  obtain ⟨p, nodes, l⟩ := r
  obtain ⟨hp, ho, hc⟩ := hr
  simp only [node.str, node.children] at hp ho hc
  subst hp
  rw [basic_insert_eq, prefix_match_index_nil_left] at h
  rcases q with _ | ⟨y, q⟩
  · rw [basic_insert_implementation_full_match _ _ _ _ (by simp [node.str]) (by simp)] at h
    simp only [Option.some.injEq] at h
    subst h
    simp [leaf_assign, leaf_from, node_from, node.size, node.children]
  · rw [basic_insert_implementation_node_match _ _ _ _ (by simp [node.str]) (by simp)] at h
    simp only [node.children, tail_zero] at h
    exact node_match_size (y :: q) (by simp) nodes
      (fun d hd d' hd' => basic_insert_size d ((node.wf_list_iff nodes).mp hc d hd) (y :: q)
        (by simp) d' hd')
      hc ho (y :: q) 0 [] l (tail_zero _) r' h

end xstd.meta.detail.radix_tree

namespace xstd.meta.detail.radix_tree

/-! ## The calls of an insertion and the nodes below the root -/

theorem no_match_string_match (s : string) (index : Nat) (m : node) (hs : s ≠ []) :
    ¬ (no_match s index m = true ∧ string_match s index m = true) := by
  have hl := List.length_pos.mpr hs
  rintro ⟨h1, h2⟩
  simp only [no_match, string_match, Bool.and_eq_true, beq_iff_eq, decide_eq_true_eq] at h1 h2
  omega

/-- The nodes that an insertion calls `basic_insert` for are the node and nodes below it. -/
theorem basic_insert_calls_below (m : node) : ∀ s : string,
    ∀ e ∈ basic_insert_calls s m, e.2 = m ∨ e.2 ∈ m.descendants := by
  induction m using node.induct_node with
  | h p nodes l ih =>
    intro s e he
    rw [basic_insert_calls] at he
    rcases List.mem_cons.mp he with rfl | he
    · exact Or.inl rfl
    · right
      split at he
      · obtain ⟨c, hc, hec⟩ := (basic_insert_transform_calls_mem _ _ _).mp he
        simp only [node.descendants]
        exact (node.descendants_list_mem nodes e.2).mpr ⟨c, hc, ih c hc _ e hec⟩
      · cases he

/-- At a root the first call of an insertion is the call for the root; every other call is a
call for a node below the root, with a non-empty string. -/
theorem basic_insert_calls_root_tail (r : node) (hr : root_wf r) (key : string) :
    ∃ rest, basic_insert_calls key r = (key, r) :: rest ∧
      ∀ e ∈ rest, e.1 ≠ [] ∧ e.2.wf ∧ e.2 ∈ r.descendants := by
  obtain ⟨p, nodes, l⟩ := r
  rw [basic_insert_calls]
  refine ⟨_, rfl, ?_⟩
  intro e he
  split at he
  · rename_i hcond
    simp only [Bool.and_eq_true] at hcond
    have hlt : prefix_match_index p key < key.length := by
      have := hcond.1
      simp only [node_matched, Bool.and_eq_true, decide_eq_true_eq] at this
      exact this.2
    obtain ⟨c, hc, hec⟩ := (basic_insert_transform_calls_mem _ _ _).mp he
    have h1 := basic_insert_calls_wf c ((node.wf_list_iff nodes).mp hr.2.2 c hc) _
      (tail_ne_nil _ _ hlt) e hec
    refine ⟨h1.1, h1.2, ?_⟩
    simp only [node.descendants]
    exact (node.descendants_list_mem nodes e.2).mpr ⟨c, hc, basic_insert_calls_below c _ e hec⟩
  · cases he

end xstd.meta.detail.radix_tree

namespace xstd.meta

theorem insert_singleton (s : string) (t : radix_tree) :
    insert [s] t = (detail.radix_tree.basic_insert s t.root).map (fun r => ⟨r⟩) := by
  simp only [insert, detail.radix_tree.insert, detail.radix_tree.insert_implementation]
  cases detail.radix_tree.basic_insert s t.root <;> rfl

end xstd.meta

namespace xstd.meta

open detail.radix_tree (node root_wf first_chars strictly_ordered leaf czstring)

/-- C31 (exact match implies prefix match), for strings without a NUL char: for every list of
keys `K` without NUL and every query `q` without NUL, when `visit` on the array of `q` returns
`true`, it has called the function object once, with `q`, and `traverse` on the array of `q`
returns `true` and calls the function object once, with the prefix `q` and with the tail that
points at the terminating NUL. -/
theorem visit_implies_traverse (K : List string) (q : string) (hK : ∀ k ∈ K, (0 : Int) ∉ k)
    (hq : (0 : Int) ∉ q) :
    ∃ t, radix_tree_from K = some t ∧
      ∀ calls, visit t (q ++ [0]) = some (true, calls) →
        calls = [q] ∧ traverse t (q ++ [0]) = some (true, [(q, [0])]) := by
  obtain ⟨t, h1, h2, h3⟩ := radix_tree_from_wf K
  refine ⟨t, h1, ?_⟩
  intro calls hv
  have hkeys : ∀ w ∈ t.root.keys, (0 : Int) ∉ w := fun w hw => hK w ((h3 w).mp hw)
  simp only [visit] at hv
  have hmem : q ∈ t.root.keys := by
    by_contra hn
    rw [detail.radix_tree.visit_root_not_found t.root h2 hkeys q hn hq] at hv
    simp at hv
  rw [detail.radix_tree.visit_root_found t.root h2 q hmem hq] at hv
  simp only [Option.some.injEq, Prod.mk.injEq, true_and] at hv
  refine ⟨hv.symm, ?_⟩
  rcases detail.radix_tree.traverse_root_result t.root h2 hkeys q with
    ⟨_, hno⟩ | ⟨w, r, hw, hs, hlong, hres⟩
  · exact absurd (List.prefix_refl q) (hno q hmem)
  · have hlen := hlong q hmem (List.prefix_refl q)
    have hr : r = [] := by
      have := congrArg List.length hs
      simp only [List.length_append] at this
      exact List.length_eq_zero.mp (by omega)
    subst hr
    simp only [List.append_nil] at hs
    subst hs
    simpa [traverse] using hres

/-- The query "help" in the tree of "help" and "version". -/
theorem visit_implies_traverse_witness :
    ∃ t, radix_tree_from [lit "help", lit "version"] = some t ∧
      ∀ calls, visit t (lit "help" ++ [0]) = some (true, calls) →
        calls = [lit "help"] ∧
          traverse t (lit "help" ++ [0]) = some (true, [(lit "help", [0])]) :=
  visit_implies_traverse [lit "help", lit "version"] (lit "help") (by decide) (by decide)

/-- C31 as stated fails for keys with a NUL char. In the tree of "a" and "a\0" the visit of the
array of "a" returns `true` at the node "a", while the traversal tries the children first,
matches the NUL of the child "\0" against the terminating NUL and reports the prefix "a\0" with
the pointer one past the end of the array as the tail. -/
theorem visit_implies_traverse_counterexample :
    radix_tree_from [[97], [97, 0]] = some ⟨.mk [] [.mk [97] [.mk [0] [] true] true] false⟩ ∧
      visit ⟨.mk [] [.mk [97] [.mk [0] [] true] true] false⟩ ([97] ++ [0]) =
        some (true, [[97]]) ∧
      traverse ⟨.mk [] [.mk [97] [.mk [0] [] true] true] false⟩ ([97] ++ [0]) =
        some (true, [([97, 0], [])]) := by
  refine ⟨rfl, rfl, rfl⟩

/-- C32 (insertion adds exactly one key), for strings without a NUL char: for every list of
keys `K` without NUL, every key `k` without NUL and every query `q` without NUL other than `k`,
the insertion of `k` into the tree of `K` compiles, and `visit` on the array of `q` returns the
same result and makes the same calls on both trees. The strings spelled by the leaf-flagged
nodes of the new tree are `k` and those of the old tree, and every path of the old tree that
ends at a leaf-flagged node is such a path of the new tree. -/
theorem insert_frame (K : List string) (k q : string) (hK : ∀ w ∈ K, (0 : Int) ∉ w)
    (hk : (0 : Int) ∉ k) (hq : (0 : Int) ∉ q) (hne : q ≠ k) :
    ∃ t t', radix_tree_from K = some t ∧ insert [k] t = some t' ∧
      visit t' (q ++ [0]) = visit t (q ++ [0]) ∧
      (∀ w, w ∈ t'.root.keys ↔ w = k ∨ w ∈ t.root.keys) ∧
      (∀ w, (w, true) ∈ t.root.paths → (w, true) ∈ t'.root.paths) := by
  obtain ⟨t, h1, h2, h3⟩ := radix_tree_from_wf K
  obtain ⟨t', g1, g2, g3⟩ := insert_wf [k] t h2
  have g3' : ∀ w, w ∈ t'.root.keys ↔ w = k ∨ w ∈ t.root.keys := by
    intro w
    rw [g3, List.mem_singleton]
  have hkeys : ∀ w ∈ t.root.keys, (0 : Int) ∉ w := fun w hw => hK w ((h3 w).mp hw)
  have hkeys' : ∀ w ∈ t'.root.keys, (0 : Int) ∉ w := by
    intro w hw
    rcases (g3' w).mp hw with rfl | h
    · exact hk
    · exact hkeys w h
  refine ⟨t, t', h1, g1, ?_, g3', ?_⟩
  · simp only [visit]
    by_cases hm : q ∈ t.root.keys
    · rw [detail.radix_tree.visit_root_found t.root h2 q hm hq,
        detail.radix_tree.visit_root_found t'.root g2 q ((g3' q).mpr (Or.inr hm)) hq]
    · have hm' : q ∉ t'.root.keys := by
        intro h
        rcases (g3' q).mp h with h | h
        · exact hne h
        · exact hm h
      rw [detail.radix_tree.visit_root_not_found t.root h2 hkeys q hm hq,
        detail.radix_tree.visit_root_not_found t'.root g2 hkeys' q hm' hq]
  · intro w hw
    exact (node.keys_iff_paths t'.root w).mp
      ((g3' w).mpr (Or.inr ((node.keys_iff_paths t.root w).mpr hw)))

/-- The key "helo" is inserted into the tree of "help" and "version"; the query is "help". -/
theorem insert_frame_witness :
    ∃ t t', radix_tree_from [lit "help", lit "version"] = some t ∧
      insert [lit "helo"] t = some t' ∧
      visit t' (lit "help" ++ [0]) = visit t (lit "help" ++ [0]) ∧
      (∀ w, w ∈ t'.root.keys ↔ w = lit "helo" ∨ w ∈ t.root.keys) ∧
      (∀ w, (w, true) ∈ t.root.paths → (w, true) ∈ t'.root.paths) :=
  insert_frame [lit "help", lit "version"] (lit "helo") (lit "help") (by decide) (by decide)
    (by decide) (by decide)

/-- C32 as stated fails for strings with a NUL char. The visit of the array of "a" returns
`false` on the empty tree and reads one past the end of the array after the insertion of the
key "a\0"; the visit of the array of "a\0b", which is not the key "a", returns `false` on the
empty tree and `true` after the insertion of "a". -/
theorem insert_frame_counterexample :
    (insert [[97, 0]] radix_tree.empty = some ⟨.mk [] [.mk [97, 0] [] true] false⟩ ∧
      visit radix_tree.empty ([97] ++ [0]) = some (false, []) ∧
      visit ⟨.mk [] [.mk [97, 0] [] true] false⟩ ([97] ++ [0]) = none) ∧
    (insert [[97]] radix_tree.empty = some ⟨.mk [] [.mk [97] [] true] false⟩ ∧
      ([97, 0, 98] : string) ≠ [97] ∧
      visit radix_tree.empty ([97, 0, 98] ++ [0]) = some (false, []) ∧
      visit ⟨.mk [] [.mk [97] [] true] false⟩ ([97, 0, 98] ++ [0]) = some (true, [[97]])) := by
  refine ⟨⟨rfl, rfl, rfl⟩, ⟨rfl, by decide, rfl, rfl⟩⟩

/-- C33 (non-empty labels): for every list of strings, the empty string included, the
insertion of the strings one after the other into the empty tree compiles, and every node
below the root of the tree has a non-empty label; the label of the root is empty. -/
theorem labels_non_empty (K : List string) :
    ∃ t, radix_tree_from K = some t ∧
      K.foldl (fun acc s => acc.bind (insert [s])) (some radix_tree.empty) = some t ∧
      t.root.str = [] ∧ ∀ m ∈ t.root.descendants, m.str ≠ [] := by
  obtain ⟨t, h1, h2, _⟩ := radix_tree_from_wf K
  refine ⟨t, h1, ?_, h2.1, ?_⟩
  · rw [← insert_bind]
    exact h1
  · intro m hm
    exact detail.radix_tree.node.wf_str m (detail.radix_tree.root_wf_descendants t.root h2 m hm)

/-- C34 (non-empty remainders): in the tree of every list of keys and for every string, the
empty string included, the first call of `basic_insert` of the insertion is the call for the
root, every other call is a call for a node below the root with a non-empty string, and at no
call the requires-clauses of "No Match" and of "String Match" hold together. -/
theorem remainders_non_empty (K : List string) (key : string) :
    ∃ t rest, radix_tree_from K = some t ∧
      detail.radix_tree.basic_insert_calls key t.root = (key, t.root) :: rest ∧
      (∀ e ∈ rest, e.1 ≠ [] ∧ e.2 ∈ t.root.descendants) ∧
      ∀ e ∈ detail.radix_tree.basic_insert_calls key t.root,
        ¬ (detail.radix_tree.no_match e.1 (prefix_match_index e.2.str e.1) e.2 = true ∧
          detail.radix_tree.string_match e.1 (prefix_match_index e.2.str e.1) e.2 = true) := by
  obtain ⟨t, h1, h2, _⟩ := radix_tree_from_wf K
  obtain ⟨rest, hc, hrest⟩ := detail.radix_tree.basic_insert_calls_root_tail t.root h2 key
  refine ⟨t, rest, h1, hc, fun e he => ⟨(hrest e he).1, (hrest e he).2.2⟩, ?_⟩
  intro e he
  rw [hc] at he
  rcases List.mem_cons.mp he with rfl | he
  · rintro ⟨hn, _⟩
    rw [detail.radix_tree.no_match_root _ _ _ h2.1] at hn
    cases hn
  · exact detail.radix_tree.no_match_string_match e.1 _ e.2 (hrest e he).1

/-- C35 (unique matching child): in the tree of every list of keys, at the root and at every
node below it, for every string at most one child has a label that is a prefix of the string,
and for every input `visit_implementation` and `traverse_implementation` return the same
result and make the same calls when the children of the node are put in any other order. -/
theorem unique_matching_child (K : List string) :
    ∃ t, radix_tree_from K = some t ∧
      ∀ m ∈ t.root :: t.root.descendants,
        (∀ s : string, ∀ c1 ∈ m.children, ∀ c2 ∈ m.children,
          c1.str <+: s → c2.str <+: s → c1 = c2) ∧
        ∀ nodes', m.children.Perm nodes' → ∀ (pfx : string) (str : czstring),
          detail.radix_tree.visit_implementation pfx (.mk m.str nodes' m.is_leaf) str =
              detail.radix_tree.visit_implementation pfx m str ∧
            detail.radix_tree.traverse_implementation pfx (.mk m.str nodes' m.is_leaf) str =
              detail.radix_tree.traverse_implementation pfx m str := by
  obtain ⟨t, h1, h2, _⟩ := radix_tree_from_wf K
  refine ⟨t, h1, ?_⟩
  intro m hm
  obtain ⟨hw, ho⟩ := detail.radix_tree.root_wf_children t.root h2 m hm
  refine ⟨detail.radix_tree.unique_prefix_child m.children hw ho, ?_⟩
  intro nodes' hp pfx str
  obtain ⟨p, nodes, l⟩ := m
  exact ⟨detail.radix_tree.visit_implementation_perm p nodes nodes' l hp hw ho pfx str,
    detail.radix_tree.traverse_implementation_perm p nodes nodes' l hp hw ho pfx str⟩

/-- C36 (bounded growth): for every list of keys and every string, the insertion of the string
into the tree of the keys compiles, the new tree has at least as many nodes as the old one and
at most two more, and it is the old tree, with the same number of nodes, when the string is one
of the keys. -/
theorem insert_bounded_growth (K : List string) (key : string) :
    ∃ t t', radix_tree_from K = some t ∧ insert [key] t = some t' ∧
      t.root.size ≤ t'.root.size ∧ t'.root.size ≤ t.root.size + 2 ∧
      (key ∈ K → t' = t ∧ t'.root.size = t.root.size) := by
  obtain ⟨t, h1, h2, h3⟩ := radix_tree_from_wf K
  obtain ⟨r', g1, g2, g3⟩ := detail.radix_tree.basic_insert_root t.root h2 key
  have hs := detail.radix_tree.basic_insert_root_size t.root h2 key r' g1
  refine ⟨t, ⟨r'⟩, h1, by rw [insert_singleton, g1]; rfl, hs.1, hs.2, ?_⟩
  intro hk
  have hr : r' = t.root := detail.radix_tree.root_unique r' t.root g2 h2 (by
    intro w
    rw [g3]
    constructor
    · rintro (rfl | h)
      · exact (h3 w).mpr hk
      · exact h
    · exact Or.inr)
  subst hr
  exact ⟨rfl, rfl⟩

/-- C37 (split and rejoin): for every string `s` and every `n <= |s|`, `prefix<n>(s) +
tail<n>(s)` is `s` and `tail<n>(s)` has `|s| - n` chars; for all strings `a` and `b`, `a + b`
has `|a| + |b|` chars, its first `|a|` chars are those of `a` and the chars after them are
those of `b`. -/
theorem split_rejoin (s a b : string) (n : Nat) (h : n ≤ s.length) :
    string_add (prefix_of n s) (tail n s) = s ∧ (tail n s).length = s.length - n ∧
      (prefix_of n s).length = n ∧
      (string_add a b).length = a.length + b.length ∧
      (∀ i, i < a.length → char_at (string_add a b) i = char_at a i) ∧
      (∀ i, i < b.length → char_at (string_add a b) (a.length + i) = char_at b i) ∧
      string_add a b = a ++ b := by
  refine ⟨?_, ?_, ?_, ?_, ?_, ?_, string_add_eq a b⟩
  · rw [string_add_eq, prefix_of_eq n s h, tail_eq n s h, List.take_append_drop]
  · rw [tail_eq n s h, List.length_drop]
  · rw [prefix_of_eq n s h, List.length_take]
    omega
  · rw [string_add_eq, List.length_append]
  · intro i hi
    rw [string_add_eq, char_at_append_left a b i hi]
  · intro i _
    rw [string_add_eq, char_at_append_right]

/-- The string "--help" of the tests, split at 2, and the sum of "--" and "help". -/
theorem split_rejoin_witness :
    string_add (prefix_of 2 (lit "--help")) (tail 2 (lit "--help")) = lit "--help" ∧
      (tail 2 (lit "--help")).length = (lit "--help").length - 2 ∧
      (prefix_of 2 (lit "--help")).length = 2 ∧
      (string_add (lit "--") (lit "help")).length = (lit "--").length + (lit "help").length ∧
      (∀ i, i < (lit "--").length →
        char_at (string_add (lit "--") (lit "help")) i = char_at (lit "--") i) ∧
      (∀ i, i < (lit "help").length →
        char_at (string_add (lit "--") (lit "help")) ((lit "--").length + i) =
          char_at (lit "help") i) ∧
      string_add (lit "--") (lit "help") = lit "--" ++ lit "help" :=
  split_rejoin (lit "--help") (lit "--") (lit "help") 2 (by decide)

end xstd.meta
